import Mathlib

/-! Librum page item: text selection and highlight conflict resolution.

A shallow embedding of `src/presentation/modules/CppElements/page_item.cpp`
(`cpp_elements::PageItem`) and `highlight.hpp`.

* `qreal` is `double`.  A coordinate is the rational number that a finite double
  stands for; every sum and difference the code computes is rounded to the
  nearest double, ties to even (`roundDouble`, `qAdd`, `qSub`); comparisons are
  exact.  Infinities and NaN are not modelled.
* `QPointF`, `QRectF` and `QList` belong to Qt; the operations used by the page
  item are written out below after their Qt 6 definitions (`qrect.cpp`,
  `qpoint.h`, `qlist.h`).
* The C++ loops run on `int` indices that are decremented after a removal.  They
  are kept as index loops (`Int` indices), each driven by a fuel argument that
  the caller sets from the list sizes; `Fault.outOfFuel` is shown never to occur.
* `application::core::Page` is not among the sources: its text queries are the
  fields of `Page`, its zoom transform is modelled from the spec, in the exact
  arithmetic in which the spec states it.
-/

namespace Librum

/-! ## `qreal` arithmetic

IEEE 754 binary64 with the default rounding (to nearest, ties to even): 53
significant bits; the unit in the last place is never below `2 ^ (-1074)`
(subnormal numbers). -/

/-- How often `n` is halved until it is at most 1; `fuel` bounds the count. -/
def halvings : ℕ → ℕ → ℕ
  | 0, _ => 0
  | fuel + 1, n => if n ≤ 1 then 0 else halvings fuel (n / 2) + 1

/-- The integer part of the binary logarithm of `n ≥ 1`. -/
def natLog2 (n : ℕ) : ℕ := halvings n n

/-- The integer part of the binary logarithm of `p / q`, for positive `p`, `q`. -/
def floorLog2 (p q : ℕ) : ℤ :=
  if q * 2 ^ natLog2 p ≤ p * 2 ^ natLog2 q then (natLog2 p : ℤ) - natLog2 q
  else (natLog2 p : ℤ) - natLog2 q - 1

/-- The integer nearest to `x`; of the two integers at a tie, the even one. -/
def roundHalfEven (x : ℚ) : ℤ :=
  if x - ⌊x⌋ < 1 / 2 then ⌊x⌋
  else if 1 / 2 < x - ⌊x⌋ then ⌊x⌋ + 1
  else if ⌊x⌋ % 2 = 0 then ⌊x⌋ else ⌊x⌋ + 1

/-- Exponent of the unit in the last place of the doubles next to `x > 0`: 52
below the binary exponent of `x`, and `-1074` in the subnormal range. -/
def ulpExponent (x : ℚ) : ℤ := max (floorLog2 x.num.natAbs x.den - 52) (-1074)

/-- The double nearest to `x`, for `x > 0`. -/
def roundMagnitude (x : ℚ) : ℚ :=
  (roundHalfEven (x / 2 ^ ulpExponent x) : ℚ) * 2 ^ ulpExponent x

/-- The double nearest to `x`, ties to even: the value a `qreal` takes when the
exact result of an operation is `x`.  A result beyond the largest finite double,
which IEEE arithmetic turns into an infinity, is rounded to 53 bits like any
other. -/
def roundDouble (x : ℚ) : ℚ :=
  if x = 0 then 0 else if x < 0 then - roundMagnitude (-x) else roundMagnitude x

/-- C++ `a + b` on `qreal`. -/
def qAdd (a b : ℚ) : ℚ := roundDouble (a + b)

/-- C++ `a - b` on `qreal`. -/
def qSub (a b : ℚ) : ℚ := roundDouble (a - b)

/-! ## Qt value types -/

/-- Qt `QPointF`: a point with `qreal` coordinates. -/
structure QPointF where
  xp : ℚ
  yp : ℚ
deriving DecidableEq

/-- Qt `QPoint`: a point with `int` coordinates. -/
structure QPoint where
  xp : ℤ
  yp : ℤ
deriving DecidableEq

/-- Implicit conversion `QPoint -> QPointF`. -/
def QPoint.toPointF (p : QPoint) : QPointF := ⟨(p.xp : ℚ), (p.yp : ℚ)⟩

/-- Qt `QRectF`: top-left corner `(xp, yp)`, width `w`, height `h`.  Qt allows
negative widths and heights; the predicates below normalise them first. -/
structure QRectF where
  xp : ℚ
  yp : ℚ
  w : ℚ
  h : ℚ
deriving DecidableEq

namespace QRectF

/-- Qt `QRectF()`: the null rectangle. -/
def null : QRectF := ⟨0, 0, 0, 0⟩

def x (r : QRectF) : ℚ := r.xp
def y (r : QRectF) : ℚ := r.yp
def width (r : QRectF) : ℚ := r.w
def height (r : QRectF) : ℚ := r.h
def left (r : QRectF) : ℚ := r.xp
def top (r : QRectF) : ℚ := r.yp
def right (r : QRectF) : ℚ := qAdd r.xp r.w
def bottom (r : QRectF) : ℚ := qAdd r.yp r.h

/-- Local `l1` of the Qt predicates: `l1 = xp; if (w < 0) l1 += w;`. -/
def l1 (r : QRectF) : ℚ := if r.w < 0 then qAdd r.xp r.w else r.xp
/-- Local `r1` of the Qt predicates: `r1 = xp; if (w < 0) ...; else r1 += w;`. -/
def r1 (r : QRectF) : ℚ := if r.w < 0 then r.xp else qAdd r.xp r.w
/-- Local `t1` of the Qt predicates: `t1 = yp; if (h < 0) t1 += h;`. -/
def t1 (r : QRectF) : ℚ := if r.h < 0 then qAdd r.yp r.h else r.yp
/-- Local `b1` of the Qt predicates: `b1 = yp; if (h < 0) ...; else b1 += h;`. -/
def b1 (r : QRectF) : ℚ := if r.h < 0 then r.yp else qAdd r.yp r.h

/-- Qt `bool QRectF::contains(const QRectF &r) const`. -/
def contains (a r : QRectF) : Bool :=
  if a.l1 = a.r1 then false
  else if r.l1 = r.r1 then false
  else if r.l1 < a.l1 ∨ r.r1 > a.r1 then false
  else if a.t1 = a.b1 then false
  else if r.t1 = r.b1 then false
  else if r.t1 < a.t1 ∨ r.b1 > a.b1 then false
  else true

/-- Qt `bool QRectF::contains(const QPointF &p) const`. -/
def containsPoint (a : QRectF) (p : QPointF) : Bool :=
  if a.l1 = a.r1 then false
  else if p.xp < a.l1 ∨ p.xp > a.r1 then false
  else if a.t1 = a.b1 then false
  else if p.yp < a.t1 ∨ p.yp > a.b1 then false
  else true

/-- Qt `bool QRectF::intersects(const QRectF &r) const`. -/
def intersects (a r : QRectF) : Bool :=
  if a.l1 = a.r1 then false
  else if r.l1 = r.r1 then false
  else if a.l1 ≥ r.r1 ∨ r.l1 ≥ a.r1 then false
  else if a.t1 = a.b1 then false
  else if r.t1 = r.b1 then false
  else if a.t1 ≥ r.b1 ∨ r.t1 ≥ a.b1 then false
  else true

/-- Qt `QRectF QRectF::intersected(const QRectF &r) const`, that is `operator&`:
`tmp.xp = qMax(l1, l2); tmp.yp = qMax(t1, t2); tmp.w = qMin(r1, r2) - tmp.xp;
tmp.h = qMin(b1, b2) - tmp.yp;`. -/
def intersected (a r : QRectF) : QRectF :=
  if a.l1 = a.r1 then null
  else if r.l1 = r.r1 then null
  else if a.l1 ≥ r.r1 ∨ r.l1 ≥ a.r1 then null
  else if a.t1 = a.b1 then null
  else if r.t1 = r.b1 then null
  else if a.t1 ≥ r.b1 ∨ r.t1 ≥ a.b1 then null
  else
    { xp := max a.l1 r.l1
      yp := max a.t1 r.t1
      w := qSub (min a.r1 r.r1) (max a.l1 r.l1)
      h := qSub (min a.b1 r.b1) (max a.t1 r.t1) }

/-- Qt `void QRectF::setWidth(qreal w)`. -/
def setWidth (r : QRectF) (w : ℚ) : QRectF := { r with w := w }

/-- Qt `void QRectF::setX(qreal pos)`, that is `setLeft`:
`qreal diff = pos - xp; xp += diff; w -= diff;`. -/
def setX (r : QRectF) (pos : ℚ) : QRectF :=
  let diff := qSub pos r.xp
  { r with xp := qAdd r.xp diff, w := qSub r.w diff }

end QRectF

/-- Qt `QColor(r, g, b, a)`. -/
structure QColor where
  r : ℕ
  g : ℕ
  b : ℕ
  a : ℕ
deriving DecidableEq

/-- Source `struct Highlight` of `highlight.hpp`. -/
structure Highlight where
  color : QColor
  rects : List QRectF
deriving DecidableEq

/-! ## `QList` operations with their index precondition -/

/-- Ways a run of the model can stop without a result. -/
inductive Fault where
  /-- a `QList` index precondition (`0 <= i < size()`) is violated -/
  | indexOutOfRange
  /-- the loop driver ran out of fuel (never happens: `removeConflictingHighlights_fault`) -/
  | outOfFuel
deriving DecidableEq

instance instDecidableEqExcept {ε α : Type} [DecidableEq ε] [DecidableEq α] :
    DecidableEq (Except ε α)
  | .ok a, .ok b => if h : a = b then isTrue (by rw [h]) else isFalse (by intro h'; cases h'; exact h rfl)
  | .error a, .error b =>
    if h : a = b then isTrue (by rw [h]) else isFalse (by intro h'; cases h'; exact h rfl)
  | .ok _, .error _ => isFalse (by intro h; cases h)
  | .error _, .ok _ => isFalse (by intro h; cases h)

/-- Qt `QList::operator[](i)` / `at(i)`; requires `0 <= i < size()`. -/
def qAt {α : Type} (l : List α) (i : ℤ) : Except Fault α :=
  if 0 ≤ i then
    match l[i.toNat]? with
    | some a => .ok a
    | none => .error .indexOutOfRange
  else .error .indexOutOfRange

/-- Qt `QList::removeAt(i)`; requires `0 <= i < size()`. -/
def removeAt {α : Type} (l : List α) (i : ℤ) : Except Fault (List α) :=
  if 0 ≤ i ∧ i < (l.length : ℤ) then .ok (l.eraseIdx i.toNat)
  else .error .indexOutOfRange

/-! ## Conflict resolution -/

/-- Source `QRectF shrinkRectangle(const QRectF& newRect, const QRectF& existingRect)`. -/
def shrinkRectangle (newRect existingRect : QRectF) : QRectF :=
  let intersection := existingRect.intersected newRect
  let shrunkenRect := existingRect
  let rightIntersection := qSub existingRect.x newRect.x < 0
  if rightIntersection then
    shrunkenRect.setWidth (qSub existingRect.width intersection.width)
  else
    shrunkenRect.setX (qAdd existingRect.x intersection.width)

/-- The same-line test of the innermost loop (`onSameLine`) for `rect` and
`existingRect`: the height of their intersection as computed, compared by `==`
with the height of `shorterRect`. -/
def onSameLine (rect existingRect : QRectF) : Bool :=
  (rect.intersected existingRect).height ==
    (if rect.height ≤ existingRect.height then rect else existingRect).height

/-- What the reference `auto& rect = highlight.rects[u]` yields once
`highlight.rects.removeAt(u)` has run while the innermost loop goes on.  Qt only
says that references into a `QList` are invalidated by a removal, so the value
is left open: `slot` is the index the reference was bound at, `before` the list
before the removal, `removed` the index removed and `seen` the value read
through the reference so far. -/
abbrev DanglingRead := (slot : ℕ) → (before : List QRectF) → (removed : ℤ) → (seen : QRectF) → QRectF

/-- The reference keeps yielding the value it had (for instance when the removed
element was the last one: only the size of the list changes). -/
def staleValue : DanglingRead := fun _ _ _ seen => seen

/-- The reference yields whatever element now sits at the index it was bound at,
and the old value when there is none. -/
def shiftedValue : DanglingRead := fun slot before removed seen =>
  ((before.eraseIdx removed.toNat)[slot]?).getD seen

/-- Innermost loop of `removeConflictingHighlights`:
`for(int k = 0; k < existingHighlight.rects.size(); ++k)`.
`existing` is `existingHighlight.rects`, `rects` is `highlight.rects`, `rect` is
the value read through the reference `rect`.  Returns `existing`, `rects`, `u`. -/
def innerLoop (dangling : DanglingRead) (slot : ℕ) :
    ℕ → List QRectF → List QRectF → ℤ → QRectF → ℤ →
    Except Fault (List QRectF × List QRectF × ℤ)
  | 0, _, _, _, _, _ => .error .outOfFuel
  | fuel + 1, existing, rects, u, rect, k =>
    if k < (existing.length : ℤ) then
      match qAt existing k with
      | .error e => .error e
      | .ok existingRect =>
        -- New rect fully "eats" old rect
        if rect.contains existingRect then
          match removeAt existing k with
          | .error e => .error e
          | .ok existing' => innerLoop dangling slot fuel existing' rects u rect (k - 1 + 1)
        -- New rect is fully contained in old rect
        else if existingRect.contains rect then
          match removeAt rects u with
          | .error e => .error e
          | .ok rects' =>
            innerLoop dangling slot fuel existing rects' (u - 1) (dangling slot rects u rect) (k + 1)
        -- New rect intersects with old rect
        else if rect.intersects existingRect then
          let shorterRect := if rect.height ≤ existingRect.height then rect else existingRect
          let intersectH := (rect.intersected existingRect).height
          let onSameLine : Bool := intersectH == shorterRect.height
          if onSameLine then
            innerLoop dangling slot fuel (existing.set k.toNat (shrinkRectangle rect existingRect))
              rects u rect (k + 1)
          else innerLoop dangling slot fuel existing rects u rect (k + 1)
        else innerLoop dangling slot fuel existing rects u rect (k + 1)
    else .ok (existing, rects, u)

/-- Middle loop: `for(int u = 0; u < highlight.rects.size(); ++u)`.
Returns `existingHighlight.rects` and `highlight.rects`. -/
def rectLoop (dangling : DanglingRead) :
    ℕ → List QRectF → List QRectF → ℤ → Except Fault (List QRectF × List QRectF)
  | 0, _, _, _ => .error .outOfFuel
  | fuel + 1, existing, rects, u =>
    if u < (rects.length : ℤ) then
      match qAt rects u with
      | .error e => .error e
      | .ok rect =>
        match innerLoop dangling u.toNat (existing.length + 1) existing rects u rect 0 with
        | .error e => .error e
        | .ok (existing', rects', u') => rectLoop dangling fuel existing' rects' (u' + 1)
    else .ok (existing, rects)

/-- Outer loop: `for(int i = 0; i < m_highlights.size(); ++i)`.
Returns `m_highlights` and `highlight.rects`. -/
def highlightLoop (dangling : DanglingRead) :
    ℕ → List Highlight → List QRectF → ℤ → Except Fault (List Highlight × List QRectF)
  | 0, _, _, _ => .error .outOfFuel
  | fuel + 1, highlights, rects, i =>
    if i < (highlights.length : ℤ) then
      match qAt highlights i with
      | .error e => .error e
      | .ok existingHighlight =>
        match rectLoop dangling (rects.length + 1) existingHighlight.rects rects 0 with
        | .error e => .error e
        | .ok (existing', rects') =>
          let highlights' := highlights.set i.toNat { existingHighlight with rects := existing' }
          if existing'.isEmpty then
            match removeAt highlights' i with
            | .error e => .error e
            | .ok highlights'' => highlightLoop dangling fuel highlights'' rects' (i - 1 + 1)
          else highlightLoop dangling fuel highlights' rects' (i + 1)
    else .ok (highlights, rects)

/-- Source `void PageItem::removeConflictingHighlights(Highlight& highlight)`: returns
the new `m_highlights` and the `highlight` argument as left by the call. -/
def removeConflictingHighlights (dangling : DanglingRead) (m_highlights : List Highlight)
    (highlight : Highlight) : Except Fault (List Highlight × Highlight) :=
  match highlightLoop dangling (m_highlights.length + 1) m_highlights highlight.rects 0 with
  | .error e => .error e
  | .ok (highlights, rects) => .ok (highlights, { highlight with rects := rects })

/-! ## The loops in recursive form

The three loops again, by recursion on the part of the list that is still to be
visited.  `highlight.rects` is kept as the rects before index `u` (`pre`), the
rect at index `u` while it has not been removed (`alive`), and the rects after
it (`post`).  The theorems `innerLoop_eq_innerScan`, `rectLoop_eq_rectScan` and
`highlightLoop_eq_highlightScan` show that the index loops compute these. -/

/-- The rect list `highlight.rects` for the split `pre`, `rect` (present while
`alive`), `post`. -/
def joinRects (pre : List QRectF) (alive : Bool) (rect : QRectF) (post : List QRectF) :
    List QRectF :=
  pre ++ (if alive then rect :: post else post)

/-- The index `u` for the split: the length of `pre`, one less once the rect at
`u` has been removed. -/
def indexOf (pre : List QRectF) (alive : Bool) : ℤ :=
  if alive then (pre.length : ℤ) else (pre.length : ℤ) - 1

/-- What the innermost loop body leaves at index `k` when it removes nothing. -/
def settle (rect existingRect : QRectF) : QRectF :=
  if rect.intersects existingRect && onSameLine rect existingRect then
    shrinkRectangle rect existingRect
  else existingRect

/-- Innermost loop over the existing rects still to visit (`todo`).  Returns the
existing rects kept (possibly shrunk), `pre` and `alive`. -/
def innerScan (dangling : DanglingRead) (slot : ℕ) (post : List QRectF) :
    List QRectF → List QRectF → Bool → QRectF →
    Except Fault (List QRectF × List QRectF × Bool)
  | [], pre, alive, _ => .ok ([], pre, alive)
  | existingRect :: todo, pre, alive, rect =>
    if rect.contains existingRect then innerScan dangling slot post todo pre alive rect
    else if existingRect.contains rect then
      if alive then
        (innerScan dangling slot post todo pre false
            (dangling slot (joinRects pre true rect post) (indexOf pre true) rect)).map
          (fun out => (existingRect :: out.1, out.2))
      else if pre = [] then .error .indexOutOfRange
      else
        (innerScan dangling slot post todo pre.dropLast false
            (dangling slot (joinRects pre false rect post) (indexOf pre false) rect)).map
          (fun out => (existingRect :: out.1, out.2))
    else
      (innerScan dangling slot post todo pre alive rect).map
        (fun out => (settle rect existingRect :: out.1, out.2))

/-- Middle loop over the rects of the new highlight still to visit (`post`). -/
def rectScan (dangling : DanglingRead) :
    List QRectF → List QRectF → List QRectF → Except Fault (List QRectF × List QRectF)
  | existing, pre, [] => .ok (existing, pre)
  | existing, pre, rect :: post =>
    (innerScan dangling pre.length post existing pre true rect).bind
      (fun out => rectScan dangling out.1 (if out.2.2 then out.2.1 ++ [rect] else out.2.1) post)

/-- Outer loop over the existing highlights still to visit. -/
def highlightScan (dangling : DanglingRead) :
    List Highlight → List QRectF → Except Fault (List Highlight × List QRectF)
  | [], rects => .ok ([], rects)
  | existingHighlight :: todo, rects =>
    (rectScan dangling existingHighlight.rects [] rects).bind
      (fun out => (highlightScan dangling todo out.2).map
        (fun rest => (if out.1.isEmpty then rest.1
                      else { existingHighlight with rects := out.1 } :: rest.1, rest.2)))

/-! ## The page item -/

/-- Modelled from the spec: `application::core::Page` is not part of the sources
at hand; the page item reaches it through `m_page`.  These are the queries of
the text-geometry oracle of the spec (section 6), under the names of the member
functions the page item calls:
`generateSelectionRects(start, end)` makes `rectsBetween start end` the buffered
selection rects (the page item clears the buffer right before every call),
`getPositionsForWordSelection` is `wordBoundsAt`, `getPositionsForLineSelection`
is `lineBoundsAt`, `getTextFromSelection` is `textBetween`, `pointIsAboveLink`
is `isOverLink` and `pointIsAboveText` is `isOverText`. -/
structure Page where
  rectsBetween : QPointF → QPointF → List QRectF
  getPositionsForWordSelection : QPointF → QPointF → QPointF × QPointF
  getPositionsForLineSelection : QPointF → QPointF × QPointF
  getTextFromSelection : QPointF → QPointF → String
  pointIsAboveLink : QPoint → Bool
  pointIsAboveText : QPoint → Bool

/-- Qt `Qt::MouseButton`, as far as the handlers tell the buttons apart. -/
inductive MouseButton where
  | NoButton
  | LeftButton
  | RightButton
  | MiddleButton
deriving DecidableEq

/-- Qt `QMouseEvent`: the button that caused the event and `position()`. -/
structure QMouseEvent where
  button : MouseButton
  position : QPointF
deriving DecidableEq

/-- Calls that leave the page item. -/
inductive Effect where
  /-- Source `followLink(m_page->getLinkAtPoint(mousePoint))` -/
  | followLink (mousePoint : QPoint)
  /-- Source `clipboard->setText(text)` -/
  | setClipboardText (text : String)
deriving DecidableEq

/-- The members of `PageItem` the event handlers read and write, together with
the two pieces of state of `m_page` they reach: the buffered selection rects and
the zoom.  `highlightCounter` is the `static int i` of
`createHighlightFromCurrentSelection`; `effects` logs the outgoing calls, newest
last.  `m_tripleClickTimerActive` is `m_tripleClickTimer.isActive()`; the timer
is single shot with an interval of 450 ms (constructor). -/
structure PageItem where
  m_selectionStart : QPointF
  m_selectionEnd : QPointF
  m_highlights : List Highlight
  m_tripleClickTimerActive : Bool
  m_doubleClickHold : Bool
  m_startedMousePressOnLink : Bool
  bufferedSelectionRects : List QRectF
  zoom : ℚ
  highlightCounter : ℕ
  effects : List Effect
deriving DecidableEq

/-- Conversion `qreal -> int` of `int mouseX = event->position().x()`:
truncation towards zero. -/
def toInt (q : ℚ) : ℤ := Int.tdiv q.num q.den

/-- Source `QPoint mousePoint(mouseX, mouseY)` of the press and release handlers. -/
def mousePoint (event : QMouseEvent) : QPoint :=
  ⟨toInt event.position.xp, toInt event.position.yp⟩

/-- Source `void PageItem::removeSelection()` (the repaint request is not
modelled). -/
def removeSelection (s : PageItem) : PageItem :=
  { s with bufferedSelectionRects := [], m_selectionStart := ⟨0, 0⟩, m_selectionEnd := ⟨0, 0⟩ }

/-- Source `void PageItem::generateSelection()`: clear the buffer, then
`m_page->generateSelectionRects(m_selectionStart, m_selectionEnd)`. -/
def generateSelection (page : Page) (s : PageItem) : PageItem :=
  { s with bufferedSelectionRects := page.rectsBetween s.m_selectionStart s.m_selectionEnd }

/-- Source `void PageItem::drawSelection()` (the repaint request is not modelled). -/
def drawSelection (page : Page) (s : PageItem) : PageItem :=
  generateSelection page s

/-- Source `void PageItem::selectSingleWord()`. -/
def selectSingleWord (page : Page) (s : PageItem) : PageItem :=
  let points := page.getPositionsForWordSelection s.m_selectionStart s.m_selectionEnd
  drawSelection page { s with m_selectionStart := points.1, m_selectionEnd := points.2 }

/-- Source `void PageItem::selectMultipleWords()`. -/
def selectMultipleWords (page : Page) (s : PageItem) : PageItem :=
  let positions := page.getPositionsForWordSelection s.m_selectionStart s.m_selectionEnd
  drawSelection page { s with m_selectionStart := positions.1, m_selectionEnd := positions.2 }

/-- Source `void PageItem::selectLine()`. -/
def selectLine (page : Page) (s : PageItem) : PageItem :=
  let positions := page.getPositionsForLineSelection s.m_selectionStart
  drawSelection page { s with m_selectionStart := positions.1, m_selectionEnd := positions.2 }

/-- Source `bool PageItem::mouseAboveSelection(QPointF mouse)`. -/
def mouseAboveSelection (s : PageItem) (mouse : QPointF) : Bool :=
  s.bufferedSelectionRects.any (fun rect => rect.containsPoint mouse)

/-- Colour of the highlight created when the static counter is `i`. -/
def highlightColor (i : ℕ) : QColor :=
  ⟨if i % 2 = 0 then 255 else 0, if i % 2 = 0 then 0 else 255, 0, 125⟩

/-- Source `void PageItem::createHighlightFromCurrentSelection()` (the repaint
request is not modelled). -/
def createHighlightFromCurrentSelection (dangling : DanglingRead) (s : PageItem) :
    Except Fault PageItem :=
  let bufferedSelectionRects := s.bufferedSelectionRects
  let s1 := removeSelection s
  let highlight : Highlight :=
    { color := highlightColor s1.highlightCounter, rects := bufferedSelectionRects }
  let s2 := { s1 with highlightCounter := s1.highlightCounter + 1 }
  match removeConflictingHighlights dangling s2.m_highlights highlight with
  | .error e => .error e
  | .ok (highlights, highlight') => .ok { s2 with m_highlights := highlights ++ [highlight'] }

/-- Source `void PageItem::mouseDoubleClickEvent(QMouseEvent* event)`. -/
def mouseDoubleClickEvent (page : Page) (s : PageItem) (event : QMouseEvent) : PageItem :=
  if event.button = MouseButton.RightButton then s
  else
    let s1 := { s with m_selectionStart := ⟨event.position.xp, event.position.yp⟩,
                        m_selectionEnd := ⟨event.position.xp, event.position.yp⟩ }
    let s2 := selectSingleWord page s1
    { s2 with m_tripleClickTimerActive := true, m_doubleClickHold := true }

/-- Source `void PageItem::mousePressEvent(QMouseEvent* event)` (the call
`forceActiveFocus()` is not modelled). -/
def mousePressEvent (page : Page) (s : PageItem) (event : QMouseEvent) : PageItem :=
  if event.button = MouseButton.RightButton then s
  else
    let mousePoint := mousePoint event
    let s1 := removeSelection s
    let s2 := if page.pointIsAboveLink mousePoint then
                { s1 with m_startedMousePressOnLink := true } else s1
    -- Select line when left mouse button is pressed 3 times
    if s2.m_tripleClickTimerActive then
      let s3 := selectLine page { s2 with m_selectionStart := mousePoint.toPointF }
      { s3 with m_tripleClickTimerActive := false }
    else { s2 with m_selectionStart := mousePoint.toPointF }

/-- Source `void PageItem::mouseReleaseEvent(QMouseEvent* event)`.  The
comparison `m_selectionStart == QPointF(mouseX, mouseY)` is equality of the
exact coordinates. -/
def mouseReleaseEvent (page : Page) (dangling : DanglingRead) (s : PageItem)
    (event : QMouseEvent) : Except Fault PageItem :=
  let mousePoint := mousePoint event
  if event.button = MouseButton.LeftButton then
    let s1 := if s.m_selectionStart = mousePoint.toPointF then removeSelection s else s
    let s2 := if s1.m_startedMousePressOnLink && page.pointIsAboveLink mousePoint then
                { s1 with effects := s1.effects ++ [Effect.followLink mousePoint] } else s1
    .ok { s2 with m_startedMousePressOnLink := false, m_doubleClickHold := false }
  else if event.button = MouseButton.RightButton then
    if mouseAboveSelection s mousePoint.toPointF then
      createHighlightFromCurrentSelection dangling s
    else .ok s
  else .ok s

/-- Source `void PageItem::mouseMoveEvent(QMouseEvent* event)` (the pointer shape set
by `setCorrectCursor` is not modelled). -/
def mouseMoveEvent (page : Page) (s : PageItem) (event : QMouseEvent) : PageItem :=
  let mouseX := toInt event.position.xp
  let mouseY := toInt event.position.yp
  let s1 := { s with m_selectionEnd := ⟨(mouseX : ℚ), (mouseY : ℚ)⟩ }
  if s1.m_doubleClickHold then selectMultipleWords page s1 else drawSelection page s1

/-- The single-shot `m_tripleClickTimer` times out. -/
def tripleClickTimerTimeout (s : PageItem) : PageItem :=
  { s with m_tripleClickTimerActive := false }

/-! ## Zoom and keys -/

/-- Qt `bool QPointF::isNull() const`: both coordinates are zero. -/
def QPointF.isNull (p : QPointF) : Bool := decide (p.xp = 0) && decide (p.yp = 0)

/-- Modelled from the spec: `Page::scalePointToCurrentZoom(point, oldZoom)` is
not part of the sources at hand.  It is the `ZoomTransform` of the spec
(section 3) on a point, `(value, oldZoomFactor, newZoomFactor) -> rescaledValue`:
the uniform rescaling from `oldZoom` to the zoom the page has now. -/
def scalePointToCurrentZoom (point : QPointF) (oldZoom currentZoom : ℚ) : QPointF :=
  ⟨point.xp * (currentZoom / oldZoom), point.yp * (currentZoom / oldZoom)⟩

/-- Modelled from the spec: `Page::scaleRectToCurrentZoom(rect, oldZoom)` is not
part of the sources at hand.  It is the `ZoomTransform` of the spec (section 3)
on a rect: position and size are rescaled uniformly from `oldZoom` to the zoom
the page has now. -/
def scaleRectToCurrentZoom (rect : QRectF) (oldZoom currentZoom : ℚ) : QRectF :=
  ⟨rect.xp * (currentZoom / oldZoom), rect.yp * (currentZoom / oldZoom),
   rect.w * (currentZoom / oldZoom), rect.h * (currentZoom / oldZoom)⟩

/-- Source `void PageItem::updateZoom(float newZoom)`.  The argument `page` is
the oracle as it answers once `m_page->setZoom(newZoom)` has run; the two
`emit`s are not modelled. -/
def updateZoom (page : Page) (s : PageItem) (newZoom : ℚ) : PageItem :=
  let oldZoom := s.zoom
  let s1 := { s with zoom := newZoom }
  -- Update selection positions to match new zoom
  let s2 :=
    if !s1.m_selectionStart.isNull && !s1.m_selectionEnd.isNull then
      generateSelection page
        { s1 with
            m_selectionStart := scalePointToCurrentZoom s1.m_selectionStart oldZoom s1.zoom,
            m_selectionEnd := scalePointToCurrentZoom s1.m_selectionEnd oldZoom s1.zoom }
    else s1
  -- Update highlight positions to match new zoom
  { s2 with
      m_highlights := s2.m_highlights.map (fun highlight =>
        { highlight with
            rects := highlight.rects.map (fun rect =>
              scaleRectToCurrentZoom rect oldZoom s2.zoom) }) }

/-- Qt `QKeyEvent`: `key()` and `modifiers()` by their integer values. -/
structure QKeyEvent where
  key : ℕ
  modifiers : ℕ
deriving DecidableEq

/-- Qt `Qt::Key_C`. -/
def Key_C : ℕ := 0x43

/-- Qt `Qt::ControlModifier`. -/
def ControlModifier : ℕ := 0x04000000

/-- Source `void PageItem::copySelectedText()`. -/
def copySelectedText (page : Page) (s : PageItem) : PageItem :=
  let text := page.getTextFromSelection s.m_selectionStart s.m_selectionEnd
  { s with effects := s.effects ++ [Effect.setClipboardText text] }

/-- Source `void PageItem::keyPressEvent(QKeyEvent* event)`. -/
def keyPressEvent (page : Page) (s : PageItem) (event : QKeyEvent) : PageItem :=
  if event.key = Key_C ∧ event.modifiers = ControlModifier then copySelectedText page s
  else s

/-! ## The reference procedure of the spec

Section 4.2 of the spec, `addWithConflictResolution` up to the final append,
written after its words: for each existing highlight `E`, for each rect `r`
still in the new highlight, for each rect `e` still in `E`, the pair is
classified once; an engulfed `r` is removed and is not compared any further. -/

/-- One rect `r` of the new highlight against the rects of `E` still to compare.
Returns the rects of `E` that stay and whether `r` stays. -/
def referenceCompare (r : QRectF) : List QRectF → List QRectF × Bool
  | [] => ([], true)
  | e :: rest =>
    -- Engulf: remove `e`
    if r.contains e then referenceCompare r rest
    -- Engulfed: remove `r`, stop comparing `r`
    else if e.contains r then (e :: rest, false)
    -- Partial intersection on the same line: shrink `e`; else no change
    else ((if r.intersects e && onSameLine r e then shrinkRectangle r e else e) ::
            (referenceCompare r rest).1, (referenceCompare r rest).2)

/-- All rects of the new highlight against one existing highlight.  Returns the
rects of `E` and of the new highlight that stay. -/
def referenceRects : List QRectF → List QRectF → List QRectF × List QRectF
  | existing, [] => (existing, [])
  | existing, r :: rest =>
    let compared := referenceCompare r existing
    let later := referenceRects compared.1 rest
    (later.1, if compared.2 then r :: later.2 else later.2)

/-- The reference procedure over the whole set: an existing highlight whose rect
list is empty after its pairs were processed is removed. -/
def referenceResolution : List Highlight → List QRectF → List Highlight × List QRectF
  | [], rects => ([], rects)
  | E :: rest, rects =>
    let processed := referenceRects E.rects rects
    let later := referenceResolution rest processed.2
    (if processed.1.isEmpty then later.1 else { E with rects := processed.1 } :: later.1,
     later.2)

/-- The rect lists that the middle loop leaves of the existing highlights, in
their order, when the outer loop takes them one after the other (each with the
rects that are left of the new highlight at that time), and the rects of the
new highlight after the last of them. -/
def processedRects (dangling : DanglingRead) :
    List Highlight → List QRectF → Except Fault (List (List QRectF) × List QRectF)
  | [], rects => .ok ([], rects)
  | existingHighlight :: todo, rects =>
    match rectLoop dangling (rects.length + 1) existingHighlight.rects rects 0 with
    | .error e => .error e
    | .ok (existing', rects') =>
      match processedRects dangling todo rects' with
      | .error e => .error e
      | .ok (later, rects'') => .ok (existing' :: later, rects'')

/-! ## Vocabulary of the statements -/

/-- The rational `q` is the value of a double: rounding leaves it as it is. -/
def IsDouble (q : ℚ) : Prop := roundDouble q = q

instance instDecidableIsDouble (q : ℚ) : Decidable (IsDouble q) :=
  inferInstanceAs (Decidable (roundDouble q = q))

/-- The four members of the rect are doubles. -/
def QRectF.OfDoubles (r : QRectF) : Prop :=
  IsDouble r.xp ∧ IsDouble r.yp ∧ IsDouble r.w ∧ IsDouble r.h

instance instDecidableOfDoubles (r : QRectF) : Decidable r.OfDoubles :=
  inferInstanceAs (Decidable (_ ∧ _ ∧ _ ∧ _))

/-- The rational `q` is a multiple of `2 ^ (-k)`, at most `N` steps from zero. -/
def Dyadic (k N : ℕ) (q : ℚ) : Prop := (q * 2 ^ k).den = 1 ∧ |q * 2 ^ k| ≤ N

instance instDecidableDyadic (k N : ℕ) (q : ℚ) : Decidable (Dyadic k N q) :=
  inferInstanceAs (Decidable (_ ∧ _))

/-- The corners of the rect lie on the grid of the multiples of `2 ^ (-k)`, at
most `2 ^ 50` steps from zero.  For such rects every sum and difference that
conflict resolution computes is a double, so that nothing is rounded. -/
def QRectF.Exact (k : ℕ) (r : QRectF) : Prop :=
  Dyadic k (2 ^ 50) r.xp ∧ Dyadic k (2 ^ 50) r.yp ∧
  Dyadic k (2 ^ 50) (r.xp + r.w) ∧ Dyadic k (2 ^ 50) (r.yp + r.h)

instance instDecidableExact (k : ℕ) (r : QRectF) : Decidable (r.Exact k) :=
  inferInstanceAs (Decidable (_ ∧ _ ∧ _ ∧ _))

/-- Qt `bool QRectF::isValid() const`: positive width and positive height. -/
def QRectF.isValid (r : QRectF) : Bool := decide (0 < r.w) && decide (0 < r.h)

/-- No rect of one highlight intersects a rect of another highlight of the list. -/
def NonOverlapping (highlights : List Highlight) : Prop :=
  highlights.Pairwise (fun A B => ∀ a ∈ A.rects, ∀ b ∈ B.rects, a.intersects b = false)

/-- Rects of different selections that intersect lie on one text line: they have
the same `y` and the same height. -/
def LineAligned (selections : List (List QRectF)) : Prop :=
  selections.Pairwise (fun A B => ∀ a ∈ A, ∀ b ∈ B,
    a.intersects b = true → a.y = b.y ∧ a.height = b.height)

/-- The rect `a` is `b` with its left or right edge moved inwards (or `b`
itself): same `y` and height, non-negative width, horizontal extent inside
that of `b`. -/
def Within (a b : QRectF) : Prop :=
  a.yp = b.yp ∧ a.h = b.h ∧ 0 ≤ a.w ∧ b.xp ≤ a.xp ∧ a.xp + a.w ≤ b.xp + b.w

/-- What the innermost loop leaves of an existing rect while the new `rect`
stays in its list: nothing when `rect` contains it, else `settle`. -/
def survive (rect existingRect : QRectF) : Option QRectF :=
  if rect.contains existingRect then none else some (settle rect existingRect)

/-- What conflict resolution leaves of an existing highlight when the new
highlight is the single rect `rect` and no existing rect takes `rect` away. -/
def surviveHighlight (rect : QRectF) (existingHighlight : Highlight) : Option Highlight :=
  if (existingHighlight.rects.filterMap (survive rect)).isEmpty then none
  else some { existingHighlight with rects := existingHighlight.rects.filterMap (survive rect) }

/-- The value read through the dangling reference is the value seen before or an
element of the list the reference pointed into, as it was before the removal
(`staleValue` and `shiftedValue` are of this kind). -/
def ReadsOldValues (dangling : DanglingRead) : Prop :=
  ∀ (slot : ℕ) (before : List QRectF) (removed : ℤ) (seen : QRectF),
    dangling slot before removed seen = seen ∨ dangling slot before removed seen ∈ before

/-! ## Concrete data for the worked runs -/

/-- A page whose oracle answers with one rect per query. -/
def samplePage : Page where
  rectsBetween := fun a b => [⟨a.xp, a.yp, b.xp - a.xp, 20⟩]
  getPositionsForWordSelection := fun a b => (⟨a.xp - 5, a.yp⟩, ⟨b.xp + 5, b.yp⟩)
  getPositionsForLineSelection := fun a => (a, ⟨a.xp + 400, a.yp⟩)
  getTextFromSelection := fun _ _ => "text"
  pointIsAboveLink := fun _ => false
  pointIsAboveText := fun _ => true

/-- A freshly opened page item: nothing selected, no highlights, zoom 1. -/
def initialItem : PageItem :=
  { m_selectionStart := ⟨0, 0⟩, m_selectionEnd := ⟨0, 0⟩, m_highlights := [],
    m_tripleClickTimerActive := false, m_doubleClickHold := false,
    m_startedMousePressOnLink := false, bufferedSelectionRects := [], zoom := 1,
    highlightCounter := 0, effects := [] }

/-- The page item after the drag from `(10,10)` to `(60,10)` on `samplePage`. -/
def afterDrag : PageItem :=
  { initialItem with m_selectionStart := ⟨10, 10⟩, m_selectionEnd := ⟨60, 10⟩,
                     bufferedSelectionRects := [⟨10, 10, 50, 20⟩] }

/-- A page item whose buffered selection starts at `x = 1/2`. -/
def fractionalItem : PageItem :=
  { initialItem with m_selectionStart := ⟨1/2, 5⟩, m_selectionEnd := ⟨21/2, 5⟩,
                     bufferedSelectionRects := [⟨1/2, 0, 10, 10⟩] }

/-- The existing highlight of the worked runs: one rect `(0,0,100,20)`. -/
def lineHighlight : Highlight := ⟨⟨255, 0, 0, 125⟩, [⟨0, 0, 100, 20⟩]⟩

/-- Selection `(50,0,100,20)` over the existing highlight `(0,0,100,20)`. -/
def overlapItem : PageItem :=
  { initialItem with m_highlights := [lineHighlight], highlightCounter := 1,
                     bufferedSelectionRects := [⟨50, 0, 100, 20⟩] }

/-- Selection `(0,10,100,20)`, half a line below the existing highlight. -/
def stackedItem : PageItem :=
  { initialItem with m_highlights := [lineHighlight], highlightCounter := 1,
                     bufferedSelectionRects := [⟨0, 10, 100, 20⟩] }

/-- Selection `(10,0,20,20)` inside the existing highlight `(0,0,100,20)`. -/
def engulfedItem : PageItem :=
  { initialItem with m_highlights := [lineHighlight], highlightCounter := 1,
                     bufferedSelectionRects := [⟨10, 0, 20, 20⟩] }

/-- Two existing highlights on different lines and a selection `(0,0,150,20)`
that contains the only rect of the first one. -/
def engulfItem : PageItem :=
  { initialItem with
      m_highlights := [lineHighlight, ⟨⟨0, 255, 0, 125⟩, [⟨0, 30, 100, 20⟩]⟩],
      highlightCounter := 2,
      bufferedSelectionRects := [⟨0, 0, 150, 20⟩] }

/-- Three selections on two text lines (`y = 0` and `y = 30`, height 20). -/
def lineSelections : List (List QRectF) :=
  [[⟨0, 0, 100, 20⟩], [⟨50, 0, 100, 20⟩], [⟨20, 0, 60, 20⟩, ⟨0, 30, 40, 20⟩]]

/-- A rect on a text line at `y = 0.1` of height `0.2`, both as doubles (the
doubles nearest to `0.1` and to `0.2`). -/
def thinLineRect (x w : ℚ) : QRectF := ⟨x, roundDouble 0.1, w, roundDouble 0.2⟩

/-- Selection `(50, 0.1, 100, 0.2)` over the existing highlight
`(0, 0.1, 100, 0.2)` on the same line. -/
def thinOverlapItem : PageItem :=
  { initialItem with m_highlights := [⟨⟨255, 0, 0, 125⟩, [thinLineRect 0 100]⟩],
                     highlightCounter := 1,
                     bufferedSelectionRects := [thinLineRect 50 100] }

/-- Selection `(0, 0.1, 100, 0.2)` around the existing highlight
`(10, 0.1, 50, 0.2)` on the same line. -/
def thinEngulfItem : PageItem :=
  { initialItem with m_highlights := [⟨⟨255, 0, 0, 125⟩, [thinLineRect 10 50]⟩],
                     highlightCounter := 1,
                     bufferedSelectionRects := [thinLineRect 0 100] }

/-- Two selections on one line, `(39.006, 0, 50.48, 20)` and then
`(61.21, 0, 90.1, 20)`, with the doubles nearest to the decimal numbers. -/
def decimalSelections : List (List QRectF) :=
  [[⟨roundDouble 39.006, 0, roundDouble 50.48, 20⟩],
   [⟨roundDouble 61.21, 0, roundDouble 90.1, 20⟩]]

/-- A run of highlight commits: for each selection in turn the buffered rects
are that selection and `createHighlightFromCurrentSelection` is called. -/
def commitSelections (dangling : DanglingRead) :
    PageItem → List (List QRectF) → Except Fault PageItem
  | s, [] => .ok s
  | s, selection :: rest =>
    match createHighlightFromCurrentSelection dangling
        { s with bufferedSelectionRects := selection } with
    | .error e => .error e
    | .ok s' => commitSelections dangling s' rest

/-! ## Theorems -/

/-! ### Gestures -/

@[simp] theorem toInt_intCast (n : ℤ) : toInt (n : ℚ) = n := by
  simp [toInt]

@[simp] theorem mousePoint_intCast (b : MouseButton) (x y : ℤ) :
    mousePoint ⟨b, ⟨(x : ℚ), (y : ℚ)⟩⟩ = ⟨x, y⟩ := by
  simp [mousePoint]

/-- C7: free drag selection.  From a state with the triple-click timer inactive
and no double-click hold, a left press at the integer point `p`, a pointer move
to the integer point `q` and a left release at `q`, with `q` different from `p`,
lead to `m_selectionStart = p`, `m_selectionEnd = q` and the buffered rects
equal to the oracle's `rectsBetween p q`; the release does not clear them. -/
theorem free_drag_selection (page : Page) (dangling : DanglingRead) (s : PageItem) (p q : QPoint)
    (b : MouseButton)
    (htimer : s.m_tripleClickTimerActive = false) (hhold : s.m_doubleClickHold = false)
    (hqp : q ≠ p) :
    ∃ s3, mouseReleaseEvent page dangling
        (mouseMoveEvent page (mousePressEvent page s ⟨MouseButton.LeftButton, p.toPointF⟩)
          ⟨b, q.toPointF⟩)
        ⟨MouseButton.LeftButton, q.toPointF⟩ = .ok s3 ∧
      s3.m_selectionStart = p.toPointF ∧ s3.m_selectionEnd = q.toPointF ∧
      s3.bufferedSelectionRects = page.rectsBetween p.toPointF q.toPointF := by
  obtain ⟨px, py⟩ := p
  obtain ⟨qx, qy⟩ := q
  have hne : ¬ (px = qx ∧ py = qy) := by
    rintro ⟨h1, h2⟩
    exact hqp (by rw [h1, h2])
  by_cases hl : page.pointIsAboveLink ⟨px, py⟩ = true <;>
  by_cases hl2 : page.pointIsAboveLink ⟨qx, qy⟩ = true <;>
    simp [mouseReleaseEvent, mouseMoveEvent, mousePressEvent, hl, hl2, removeSelection, hhold,
      htimer, drawSelection, generateSelection, hne, QPoint.toPointF]
  split_ifs <;> simp

/-- Witness of C7: press at `(10,10)`, move to `(60,10)`, release. -/
theorem free_drag_selection_witness :
    initialItem.m_tripleClickTimerActive = false ∧ initialItem.m_doubleClickHold = false ∧
    (⟨60, 10⟩ : QPoint) ≠ ⟨10, 10⟩ ∧
    ∃ s3, mouseReleaseEvent samplePage staleValue
        (mouseMoveEvent samplePage
          (mousePressEvent samplePage initialItem
            ⟨MouseButton.LeftButton, (⟨10, 10⟩ : QPoint).toPointF⟩)
          ⟨MouseButton.NoButton, (⟨60, 10⟩ : QPoint).toPointF⟩)
        ⟨MouseButton.LeftButton, (⟨60, 10⟩ : QPoint).toPointF⟩ = .ok s3 ∧
      s3.m_selectionStart = (⟨10, 10⟩ : QPoint).toPointF ∧
      s3.m_selectionEnd = (⟨60, 10⟩ : QPoint).toPointF ∧
      s3.bufferedSelectionRects =
        samplePage.rectsBetween (⟨10, 10⟩ : QPoint).toPointF (⟨60, 10⟩ : QPoint).toPointF :=
  ⟨rfl, rfl, by decide,
    free_drag_selection samplePage staleValue initialItem ⟨10, 10⟩ ⟨60, 10⟩ MouseButton.NoButton
      rfl rfl (by decide)⟩

/-- The drag of the witness of C7 ends in `afterDrag`. -/
theorem drag_reaches_afterDrag :
    mouseReleaseEvent samplePage staleValue
        (mouseMoveEvent samplePage
          (mousePressEvent samplePage initialItem
            ⟨MouseButton.LeftButton, (⟨10, 10⟩ : QPoint).toPointF⟩)
          ⟨MouseButton.NoButton, (⟨60, 10⟩ : QPoint).toPointF⟩)
        ⟨MouseButton.LeftButton, (⟨60, 10⟩ : QPoint).toPointF⟩ = .ok afterDrag := by
  decide!

/-- C8: a plain click deselects.  From any state with the triple-click timer
inactive, a left press at the integer point `p` followed, with no pointer move,
by a left release at `p` leaves the buffered rects empty and
`m_selectionStart`, `m_selectionEnd` at the null point `(0,0)`. -/
theorem plain_click_deselects (page : Page) (dangling : DanglingRead) (s : PageItem) (p : QPoint)
    (htimer : s.m_tripleClickTimerActive = false) :
    ∃ s2, mouseReleaseEvent page dangling
        (mousePressEvent page s ⟨MouseButton.LeftButton, p.toPointF⟩)
        ⟨MouseButton.LeftButton, p.toPointF⟩ = .ok s2 ∧
      s2.bufferedSelectionRects = [] ∧
      s2.m_selectionStart = ⟨0, 0⟩ ∧ s2.m_selectionEnd = ⟨0, 0⟩ := by
  obtain ⟨px, py⟩ := p
  by_cases hl : page.pointIsAboveLink ⟨px, py⟩ = true <;>
    simp [mouseReleaseEvent, mousePressEvent, hl, removeSelection, htimer, QPoint.toPointF]

/-- Witness of C8: a click at `(10,10)` after the drag from `(10,10)` to `(60,10)`. -/
theorem plain_click_deselects_witness :
    afterDrag.m_tripleClickTimerActive = false ∧
    ∃ s2, mouseReleaseEvent samplePage staleValue
        (mousePressEvent samplePage afterDrag
          ⟨MouseButton.LeftButton, (⟨10, 10⟩ : QPoint).toPointF⟩)
        ⟨MouseButton.LeftButton, (⟨10, 10⟩ : QPoint).toPointF⟩ = .ok s2 ∧
      s2.bufferedSelectionRects = [] ∧
      s2.m_selectionStart = ⟨0, 0⟩ ∧ s2.m_selectionEnd = ⟨0, 0⟩ :=
  ⟨rfl, plain_click_deselects samplePage staleValue afterDrag ⟨10, 10⟩ rfl⟩

/-- C9, as amended: a left double click at `p` sets `(m_selectionStart,
m_selectionEnd)` to the oracle's word bounds of `(p, p)`, buffers the rects
between them, arms the triple-click timer and sets the double-click hold.  A
left press at position `pos` reads the point `q`, which is `pos` with both
coordinates truncated to `int`: while the timer is active it sets
`(m_selectionStart, m_selectionEnd)` to the oracle's line bounds at `q`, buffers
the rects between them and stops the timer; when the timer is not active it
selects no line (empty buffer, `m_selectionStart = q`, `m_selectionEnd` null). -/
theorem double_and_triple_click (page : Page) (s t : PageItem) (p pos : QPointF) :
    (let s1 := mouseDoubleClickEvent page s ⟨MouseButton.LeftButton, p⟩
     let word := page.getPositionsForWordSelection p p
     s1.m_selectionStart = word.1 ∧ s1.m_selectionEnd = word.2 ∧
     s1.bufferedSelectionRects = page.rectsBetween word.1 word.2 ∧
     s1.m_tripleClickTimerActive = true ∧ s1.m_doubleClickHold = true) ∧
    (let q := (mousePoint ⟨MouseButton.LeftButton, pos⟩).toPointF
     let t1 := mousePressEvent page t ⟨MouseButton.LeftButton, pos⟩
     let line := page.getPositionsForLineSelection q
     (t.m_tripleClickTimerActive = true →
        t1.m_selectionStart = line.1 ∧ t1.m_selectionEnd = line.2 ∧
        t1.bufferedSelectionRects = page.rectsBetween line.1 line.2 ∧
        t1.m_tripleClickTimerActive = false) ∧
     (t.m_tripleClickTimerActive = false →
        t1.m_selectionStart = q ∧ t1.m_selectionEnd = ⟨0, 0⟩ ∧
        t1.bufferedSelectionRects = [] ∧ t1.m_tripleClickTimerActive = false)) := by
  refine ⟨?_, ?_, ?_⟩
  · simp [mouseDoubleClickEvent, selectSingleWord, drawSelection, generateSelection]
  · intro ht
    by_cases hl : page.pointIsAboveLink (mousePoint ⟨MouseButton.LeftButton, pos⟩) = true <;>
      simp [mousePressEvent, hl, removeSelection, ht, selectLine, drawSelection, generateSelection]
  · intro ht
    by_cases hl : page.pointIsAboveLink (mousePoint ⟨MouseButton.LeftButton, pos⟩) = true <;>
      simp [mousePressEvent, hl, removeSelection, ht]

/-- Witness of C9 as amended: a double click at `(1/2, 0)` on the fresh item,
then a press at `(1/2, 0)` in the state the double click left (timer active). -/
theorem double_and_triple_click_witness :
    (mouseDoubleClickEvent samplePage initialItem
        ⟨MouseButton.LeftButton, ⟨1/2, 0⟩⟩).m_tripleClickTimerActive = true ∧
    (mousePressEvent samplePage
        (mouseDoubleClickEvent samplePage initialItem ⟨MouseButton.LeftButton, ⟨1/2, 0⟩⟩)
        ⟨MouseButton.LeftButton, ⟨1/2, 0⟩⟩).m_selectionStart = ⟨0, 0⟩ ∧
    (mousePressEvent samplePage
        (mouseDoubleClickEvent samplePage initialItem ⟨MouseButton.LeftButton, ⟨1/2, 0⟩⟩)
        ⟨MouseButton.LeftButton, ⟨1/2, 0⟩⟩).m_selectionEnd = ⟨400, 0⟩ :=
  have h := (double_and_triple_click samplePage initialItem
      (mouseDoubleClickEvent samplePage initialItem ⟨MouseButton.LeftButton, ⟨1/2, 0⟩⟩)
      ⟨1/2, 0⟩ ⟨1/2, 0⟩).2.1 (by decide!)
  ⟨by decide!, h.1.trans (by decide!), h.2.1.trans (by decide!)⟩

/-- Counterexample to C9 as stated: after a double click, a left press at the
point `q = (1/2, 0)` with the timer active does not select the oracle's line
bounds at `q` (it selects those at `(0, 0)`). -/
theorem triple_click_uses_truncated_point :
    (mouseDoubleClickEvent samplePage initialItem
        ⟨MouseButton.LeftButton, ⟨1/2, 0⟩⟩).m_tripleClickTimerActive = true ∧
    ¬ ((mousePressEvent samplePage
          (mouseDoubleClickEvent samplePage initialItem ⟨MouseButton.LeftButton, ⟨1/2, 0⟩⟩)
          ⟨MouseButton.LeftButton, ⟨1/2, 0⟩⟩).m_selectionStart,
        (mousePressEvent samplePage
          (mouseDoubleClickEvent samplePage initialItem ⟨MouseButton.LeftButton, ⟨1/2, 0⟩⟩)
          ⟨MouseButton.LeftButton, ⟨1/2, 0⟩⟩).m_selectionEnd)
      = samplePage.getPositionsForLineSelection ⟨1/2, 0⟩ := by
  decide!

/-- C10, as amended: on a right-button release at position `pos` the handler
tests the point `p`, which is `pos` with both coordinates truncated to `int`.
If `p` lies inside a buffered rect, the highlight set becomes the result of
conflict resolution for a new highlight made of the buffered rects as they were
before the event (followed by appending it), the buffer is emptied and
`m_selectionStart`, `m_selectionEnd` are reset; if `p` lies inside no buffered
rect the event changes nothing. -/
theorem secondary_release (page : Page) (dangling : DanglingRead) (s : PageItem) (pos : QPointF) :
    let p := (mousePoint ⟨MouseButton.RightButton, pos⟩).toPointF
    ((∃ rect ∈ s.bufferedSelectionRects, rect.containsPoint p = true) →
      mouseReleaseEvent page dangling s ⟨MouseButton.RightButton, pos⟩ =
        match removeConflictingHighlights dangling s.m_highlights
            ⟨highlightColor s.highlightCounter, s.bufferedSelectionRects⟩ with
        | .error e => .error e
        | .ok (highlights, highlight) =>
          .ok { s with m_highlights := highlights ++ [highlight],
                       bufferedSelectionRects := [],
                       m_selectionStart := ⟨0, 0⟩, m_selectionEnd := ⟨0, 0⟩,
                       highlightCounter := s.highlightCounter + 1 }) ∧
    ((∀ rect ∈ s.bufferedSelectionRects, rect.containsPoint p = false) →
      mouseReleaseEvent page dangling s ⟨MouseButton.RightButton, pos⟩ = .ok s) := by
  intro p
  constructor
  · intro h
    have habove : mouseAboveSelection s p = true := by
      simpa [mouseAboveSelection, List.any_eq_true] using h
    simp only [mouseReleaseEvent]
    rw [if_neg (by decide), if_pos trivial, if_pos habove]
    simp only [createHighlightFromCurrentSelection, removeSelection]
  · intro h
    have habove : mouseAboveSelection s p = false := by
      simp only [mouseAboveSelection, List.any_eq_false]
      intro rect hr
      simp [h rect hr]
    simp only [mouseReleaseEvent]
    rw [if_neg (by decide), if_pos trivial, if_neg (by rw [habove]; decide)]

/-! ### Rounding to the nearest double -/

theorem halvings_spec : ∀ (fuel n : ℕ), 0 < n → n ≤ fuel →
    2 ^ halvings fuel n ≤ n ∧ n < 2 ^ (halvings fuel n + 1) := by
  intro fuel
  induction fuel with
  | zero => intro n h1 h2; omega
  | succ fuel ih =>
    intro n h1 h2
    simp only [halvings]
    by_cases h : n ≤ 1
    · rw [if_pos h]
      have : n = 1 := by omega
      subst this
      simp
    · rw [if_neg h]
      obtain ⟨i1, i2⟩ := ih (n / 2) (by omega) (by omega)
      constructor
      · rw [pow_succ]; omega
      · rw [pow_succ]; omega

theorem natLog2_spec (n : ℕ) (h : 0 < n) : 2 ^ natLog2 n ≤ n ∧ n < 2 ^ (natLog2 n + 1) :=
  halvings_spec n n h (le_refl _)

theorem floorLog2_spec (p q : ℕ) (hp : 0 < p) (hq : 0 < q) :
    (2 : ℚ) ^ floorLog2 p q ≤ (p : ℚ) / q ∧ (p : ℚ) / q < 2 ^ (floorLog2 p q + 1) := by
  obtain ⟨a1, a2⟩ := natLog2_spec p hp
  obtain ⟨b1, b2⟩ := natLog2_spec q hq
  have hq' : (0 : ℚ) < q := by exact_mod_cast hq
  have h2a : (0 : ℚ) < 2 ^ natLog2 p := by positivity
  have h2b : (0 : ℚ) < 2 ^ natLog2 q := by positivity
  have ea : ((2 : ℚ) ^ ((natLog2 p : ℤ) - natLog2 q)) = 2 ^ natLog2 p / 2 ^ natLog2 q := by
    rw [zpow_sub₀ (by norm_num), zpow_natCast, zpow_natCast]
  have a1' : ((2 : ℚ) ^ natLog2 p) ≤ p := by exact_mod_cast a1
  have a2' : (p : ℚ) < 2 ^ (natLog2 p + 1) := by exact_mod_cast a2
  have b1' : ((2 : ℚ) ^ natLog2 q) ≤ q := by exact_mod_cast b1
  have b2' : (q : ℚ) < 2 ^ (natLog2 q + 1) := by exact_mod_cast b2
  unfold floorLog2
  by_cases h : q * 2 ^ natLog2 p ≤ p * 2 ^ natLog2 q
  · rw [if_pos h]
    have h' : (q : ℚ) * 2 ^ natLog2 p ≤ p * 2 ^ natLog2 q := by exact_mod_cast h
    constructor
    · rw [ea, div_le_div_iff₀ h2b hq']
      linarith
    · rw [zpow_add₀ (by norm_num), ea, zpow_one, div_mul_eq_mul_div, div_lt_div_iff₀ hq' h2b]
      rw [pow_succ] at a2'
      nlinarith
  · rw [if_neg h]
    have h' : (p : ℚ) * 2 ^ natLog2 q < q * 2 ^ natLog2 p := by
      exact_mod_cast not_le.mp h
    constructor
    · rw [zpow_sub₀ (by norm_num), ea, zpow_one, div_div, div_le_div_iff₀ (by positivity) hq']
      rw [pow_succ] at b2'
      nlinarith
    · rw [sub_add_cancel, ea, div_lt_div_iff₀ hq' h2b]
      linarith

/-- The binary exponent that `ulpExponent` starts from brackets `x`. -/
theorem binade_spec (x : ℚ) (hx : 0 < x) :
    (2 : ℚ) ^ floorLog2 x.num.natAbs x.den ≤ x ∧
      x < 2 ^ (floorLog2 x.num.natAbs x.den + 1) := by
  have hnum : 0 < x.num := Rat.num_pos.mpr hx
  have hp : 0 < x.num.natAbs := Int.natAbs_pos.mpr hnum.ne'
  have h := floorLog2_spec x.num.natAbs x.den hp x.den_pos
  have hx' : ((x.num.natAbs : ℕ) : ℚ) / (x.den : ℚ) = x := by
    have : ((x.num.natAbs : ℕ) : ℚ) = ((x.num : ℤ) : ℚ) := by
      rw [← Int.cast_natCast, Int.natAbs_of_nonneg hnum.le]
    rw [this]
    exact Rat.num_div_den x
  rw [hx'] at h
  exact h

theorem roundHalfEven_intCast (n : ℤ) : roundHalfEven n = n := by
  simp [roundHalfEven]

theorem floor_le_roundHalfEven (x : ℚ) : ⌊x⌋ ≤ roundHalfEven x := by
  unfold roundHalfEven
  split_ifs <;> omega

theorem roundHalfEven_le_floor (x : ℚ) : roundHalfEven x ≤ ⌊x⌋ + 1 := by
  unfold roundHalfEven
  split_ifs <;> omega

theorem roundHalfEven_mono {x y : ℚ} (h : x ≤ y) : roundHalfEven x ≤ roundHalfEven y := by
  have hf : ⌊x⌋ ≤ ⌊y⌋ := Int.floor_mono h
  rcases lt_or_eq_of_le hf with hlt | heq
  · have := roundHalfEven_le_floor x
    have := floor_le_roundHalfEven y
    omega
  · unfold roundHalfEven
    rw [← heq]
    have hxy : x - ⌊x⌋ ≤ y - ⌊x⌋ := by linarith
    split_ifs <;> first | omega | linarith

theorem ulpExponent_ge (x : ℚ) : -1074 ≤ ulpExponent x := le_max_right _ _

theorem ulpExponent_mono {x y : ℚ} (hx : 0 < x) (h : x ≤ y) :
    ulpExponent x ≤ ulpExponent y := by
  obtain ⟨a1, -⟩ := binade_spec x hx
  obtain ⟨-, b2⟩ := binade_spec y (lt_of_lt_of_le hx h)
  have hlt : (2 : ℚ) ^ floorLog2 x.num.natAbs x.den < 2 ^ (floorLog2 y.num.natAbs y.den + 1) :=
    lt_of_le_of_lt a1 (lt_of_le_of_lt h b2)
  have := (zpow_lt_zpow_iff_right₀ (by norm_num : (1 : ℚ) < 2)).1 hlt
  unfold ulpExponent
  omega

theorem scaled_lt (x : ℚ) (hx : 0 < x) : x / 2 ^ ulpExponent x < 2 ^ (53 : ℕ) := by
  obtain ⟨-, a2⟩ := binade_spec x hx
  have hpos : (0 : ℚ) < 2 ^ ulpExponent x := by positivity
  rw [div_lt_iff₀ hpos]
  have hle : floorLog2 x.num.natAbs x.den + 1 ≤ 53 + ulpExponent x := by
    unfold ulpExponent; omega
  have h2 : (2 : ℚ) ^ (floorLog2 x.num.natAbs x.den + 1) ≤ 2 ^ (53 + ulpExponent x) :=
    zpow_le_zpow_right₀ (by norm_num) hle
  have h3 : (2 : ℚ) ^ (53 + ulpExponent x) = 2 ^ (53 : ℕ) * 2 ^ ulpExponent x := by
    rw [zpow_add₀ (by norm_num)]; norm_cast
  linarith

theorem scaled_ge (x : ℚ) (hx : 0 < x) (hn : -1074 < ulpExponent x) :
    (2 : ℚ) ^ (52 : ℕ) ≤ x / 2 ^ ulpExponent x := by
  obtain ⟨a1, -⟩ := binade_spec x hx
  have hpos : (0 : ℚ) < 2 ^ ulpExponent x := by positivity
  rw [le_div_iff₀ hpos]
  have he : floorLog2 x.num.natAbs x.den = 52 + ulpExponent x := by
    unfold ulpExponent at hn ⊢; omega
  have h3 : (2 : ℚ) ^ (52 + ulpExponent x) = 2 ^ (52 : ℕ) * 2 ^ ulpExponent x := by
    rw [zpow_add₀ (by norm_num)]; norm_cast
  rw [he, h3] at a1
  exact a1

theorem roundMagnitude_nonneg (x : ℚ) (hx : 0 < x) : 0 ≤ roundMagnitude x := by
  unfold roundMagnitude
  have h1 : (0 : ℚ) ≤ x / 2 ^ ulpExponent x := by positivity
  have h2 : 0 ≤ roundHalfEven (x / 2 ^ ulpExponent x) :=
    le_trans (Int.floor_nonneg.mpr h1) (floor_le_roundHalfEven _)
  have h3 : (0 : ℚ) ≤ (roundHalfEven (x / 2 ^ ulpExponent x) : ℚ) := by exact_mod_cast h2
  positivity

theorem roundMagnitude_le (x : ℚ) (hx : 0 < x) :
    roundMagnitude x ≤ 2 ^ (53 : ℕ) * 2 ^ ulpExponent x := by
  unfold roundMagnitude
  have h1 := (scaled_lt x hx).le
  have h2 : roundHalfEven (x / 2 ^ ulpExponent x) ≤ roundHalfEven (((2 ^ 53 : ℕ) : ℤ) : ℚ) :=
    roundHalfEven_mono (by push_cast; exact h1)
  rw [roundHalfEven_intCast] at h2
  have h3 : (roundHalfEven (x / 2 ^ ulpExponent x) : ℚ) ≤ 2 ^ (53 : ℕ) := by exact_mod_cast h2
  have hpos : (0 : ℚ) < 2 ^ ulpExponent x := by positivity
  exact mul_le_mul_of_nonneg_right h3 hpos.le

theorem le_roundMagnitude (x : ℚ) (hx : 0 < x) (hn : -1074 < ulpExponent x) :
    2 ^ (52 : ℕ) * 2 ^ ulpExponent x ≤ roundMagnitude x := by
  unfold roundMagnitude
  have h1 := scaled_ge x hx hn
  have h2 : roundHalfEven (((2 ^ 52 : ℕ) : ℤ) : ℚ) ≤ roundHalfEven (x / 2 ^ ulpExponent x) :=
    roundHalfEven_mono (by push_cast; exact h1)
  rw [roundHalfEven_intCast] at h2
  have h3 : (2 : ℚ) ^ (52 : ℕ) ≤ (roundHalfEven (x / 2 ^ ulpExponent x) : ℚ) := by
    exact_mod_cast h2
  have hpos : (0 : ℚ) < 2 ^ ulpExponent x := by positivity
  exact mul_le_mul_of_nonneg_right h3 hpos.le

theorem roundMagnitude_mono {x y : ℚ} (hx : 0 < x) (h : x ≤ y) :
    roundMagnitude x ≤ roundMagnitude y := by
  have hy : 0 < y := lt_of_lt_of_le hx h
  rcases lt_or_eq_of_le (ulpExponent_mono hx h) with hlt | heq
  · have h1 := roundMagnitude_le x hx
    have h2 := le_roundMagnitude y hy (lt_of_le_of_lt (ulpExponent_ge x) hlt)
    have h3 : (2 : ℚ) ^ (53 : ℕ) * 2 ^ ulpExponent x ≤ 2 ^ (52 : ℕ) * 2 ^ ulpExponent y := by
      have h4 : (2 : ℚ) ^ (ulpExponent x + 1) ≤ 2 ^ ulpExponent y :=
        zpow_le_zpow_right₀ (by norm_num) (by omega)
      rw [zpow_add₀ (by norm_num), zpow_one] at h4
      have hp : (0 : ℚ) < 2 ^ ulpExponent x := by positivity
      norm_num at h4 ⊢
      nlinarith
    linarith
  · unfold roundMagnitude
    rw [← heq]
    have hpos : (0 : ℚ) < 2 ^ ulpExponent x := by positivity
    have h1 : x / 2 ^ ulpExponent x ≤ y / 2 ^ ulpExponent x :=
      div_le_div_of_nonneg_right h hpos.le
    have h2 := roundHalfEven_mono h1
    have h3 : (roundHalfEven (x / 2 ^ ulpExponent x) : ℚ) ≤
        (roundHalfEven (y / 2 ^ ulpExponent x) : ℚ) := by exact_mod_cast h2
    exact mul_le_mul_of_nonneg_right h3 hpos.le

theorem roundDouble_zero : roundDouble 0 = 0 := by simp [roundDouble]

theorem roundDouble_neg (x : ℚ) : roundDouble (-x) = - roundDouble x := by
  unfold roundDouble
  rcases lt_trichotomy x 0 with h | h | h
  · have h1 : ¬ (-x = 0) := by intro hc; linarith
    have h2 : ¬ (-x < 0) := by linarith
    have h3 : ¬ (x = 0) := by linarith
    rw [if_neg h1, if_neg h2, if_neg h3, if_pos h, neg_neg]
  · subst h; simp
  · have h1 : ¬ (-x = 0) := by intro hc; linarith
    have h2 : -x < 0 := by linarith
    have h3 : ¬ (x = 0) := by linarith
    have h4 : ¬ (x < 0) := by linarith
    rw [if_neg h1, if_pos h2, if_neg h3, if_neg h4, neg_neg]

theorem roundDouble_of_pos {x : ℚ} (h : 0 < x) : roundDouble x = roundMagnitude x := by
  unfold roundDouble
  rw [if_neg h.ne', if_neg (by linarith)]

theorem roundDouble_nonneg {x : ℚ} (h : 0 ≤ x) : 0 ≤ roundDouble x := by
  rcases lt_or_eq_of_le h with h | h
  · rw [roundDouble_of_pos h]; exact roundMagnitude_nonneg x h
  · rw [← h, roundDouble_zero]

theorem roundDouble_nonpos {x : ℚ} (h : x ≤ 0) : roundDouble x ≤ 0 := by
  have := roundDouble_nonneg (show 0 ≤ -x by linarith)
  rw [roundDouble_neg] at this
  linarith

/-- Rounding to the nearest double is monotone. -/
theorem roundDouble_mono {x y : ℚ} (h : x ≤ y) : roundDouble x ≤ roundDouble y := by
  rcases lt_trichotomy 0 x with hx | hx | hx
  · rw [roundDouble_of_pos hx, roundDouble_of_pos (lt_of_lt_of_le hx h)]
    exact roundMagnitude_mono hx h
  · rw [← hx, roundDouble_zero]
    exact roundDouble_nonneg (by linarith)
  · rcases le_or_lt 0 y with hy | hy
    · exact le_trans (roundDouble_nonpos hx.le) (roundDouble_nonneg hy)
    · have h1 : roundDouble (-y) ≤ roundDouble (-x) := by
        rw [roundDouble_of_pos (show 0 < -y by linarith),
          roundDouble_of_pos (show 0 < -x by linarith)]
        exact roundMagnitude_mono (by linarith) (by linarith)
      rw [roundDouble_neg, roundDouble_neg] at h1
      linarith

theorem roundMagnitude_eq_self (m e : ℤ) (hm0 : 0 < m) (hm : m < 2 ^ 53) (he : -1074 ≤ e) :
    roundMagnitude ((m : ℚ) * 2 ^ e) = (m : ℚ) * 2 ^ e := by
  have hpe : (0 : ℚ) < 2 ^ e := by positivity
  have hm0' : (0 : ℚ) < m := by exact_mod_cast hm0
  have hx : (0 : ℚ) < (m : ℚ) * 2 ^ e := by positivity
  obtain ⟨a1, -⟩ := binade_spec _ hx
  have hlt : (m : ℚ) * 2 ^ e < 2 ^ (53 + e) := by
    rw [zpow_add₀ (by norm_num)]
    have : (m : ℚ) < 2 ^ (53 : ℤ) := by
      have h53 : ((2 : ℚ) ^ (53 : ℤ)) = ((2 ^ 53 : ℤ) : ℚ) := by norm_num
      rw [h53]
      exact_mod_cast hm
    exact mul_lt_mul_of_pos_right this hpe
  have hl := (zpow_lt_zpow_iff_right₀ (by norm_num : (1 : ℚ) < 2)).1 (lt_of_le_of_lt a1 hlt)
  have hE : ulpExponent ((m : ℚ) * 2 ^ e) ≤ e := by
    unfold ulpExponent; omega
  obtain ⟨n, hn⟩ := Int.eq_ofNat_of_zero_le (sub_nonneg.mpr hE)
  unfold roundMagnitude
  have hscaled : (m : ℚ) * 2 ^ e / 2 ^ ulpExponent ((m : ℚ) * 2 ^ e) = ((m * 2 ^ n : ℤ) : ℚ) := by
    rw [mul_div_assoc, ← zpow_sub₀ (by norm_num), hn]
    push_cast
    rw [zpow_natCast]
  rw [hscaled, roundHalfEven_intCast]
  push_cast
  rw [mul_assoc, ← zpow_natCast, ← zpow_add₀ (by norm_num), ← hn]
  congr 2
  ring

/-- A number with at most 53 significant bits and an exponent in the range of
the doubles is a double. -/
theorem roundDouble_eq_self (m e : ℤ) (hm : |m| < 2 ^ 53) (he : -1074 ≤ e) :
    roundDouble ((m : ℚ) * 2 ^ e) = (m : ℚ) * 2 ^ e := by
  rcases lt_trichotomy m 0 with h | h | h
  · have hpos : (0 : ℚ) < ((-m : ℤ) : ℚ) * 2 ^ e := by
      have : (0 : ℚ) < ((-m : ℤ) : ℚ) := by exact_mod_cast (by omega : 0 < -m)
      positivity
    have h1 := roundMagnitude_eq_self (-m) e (by omega) (by rw [abs_of_neg h] at hm; exact hm) he
    have h2 : (m : ℚ) * 2 ^ e = - (((-m : ℤ) : ℚ) * 2 ^ e) := by push_cast; ring
    rw [h2, roundDouble_neg, roundDouble_of_pos hpos, h1]
  · subst h; simp [roundDouble_zero]
  · have hpos : (0 : ℚ) < (m : ℚ) * 2 ^ e := by
      have : (0 : ℚ) < (m : ℚ) := by exact_mod_cast h
      positivity
    rw [roundDouble_of_pos hpos]
    exact roundMagnitude_eq_self m e h (by rw [abs_of_pos h] at hm; exact hm) he

theorem roundMagnitude_form (x : ℚ) (hx : 0 < x) :
    ∃ m e : ℤ, 0 ≤ m ∧ m ≤ 2 ^ 53 ∧ -1074 ≤ e ∧ roundMagnitude x = (m : ℚ) * 2 ^ e := by
  refine ⟨roundHalfEven (x / 2 ^ ulpExponent x), ulpExponent x, ?_, ?_, ulpExponent_ge x, rfl⟩
  · have h1 : (0 : ℚ) ≤ x / 2 ^ ulpExponent x := by positivity
    exact le_trans (Int.floor_nonneg.mpr h1) (floor_le_roundHalfEven _)
  · have h1 := (scaled_lt x hx).le
    have h2 : roundHalfEven (x / 2 ^ ulpExponent x) ≤ roundHalfEven (((2 ^ 53 : ℕ) : ℤ) : ℚ) :=
      roundHalfEven_mono (by push_cast; exact h1)
    rw [roundHalfEven_intCast] at h2
    exact_mod_cast h2

theorem roundMagnitude_idem (x : ℚ) (hx : 0 < x) :
    roundDouble (roundMagnitude x) = roundMagnitude x := by
  obtain ⟨m, e, h0, h1, he, hform⟩ := roundMagnitude_form x hx
  rw [hform]
  rcases lt_or_eq_of_le h1 with h | h
  · exact roundDouble_eq_self m e (by rw [abs_of_nonneg h0]; exact h) he
  · have : (m : ℚ) * 2 ^ e = ((2 ^ 52 : ℤ) : ℚ) * 2 ^ (e + 1) := by
      rw [h, zpow_add₀ (by norm_num)]
      push_cast
      ring
    rw [this]
    exact roundDouble_eq_self (2 ^ 52) (e + 1) (by norm_num) (by omega)

/-- The result of rounding is a double. -/
theorem roundDouble_idem (x : ℚ) : roundDouble (roundDouble x) = roundDouble x := by
  rcases lt_trichotomy x 0 with h | h | h
  · have hx : 0 < -x := by linarith
    have h1 : roundDouble x = - roundMagnitude (-x) := by
      rw [← neg_neg x, roundDouble_neg, roundDouble_of_pos hx, neg_neg]
    rw [h1, roundDouble_neg, roundMagnitude_idem _ hx]
  · subst h; simp [roundDouble_zero]
  · rw [roundDouble_of_pos h, roundMagnitude_idem _ h]

theorem isDouble_roundDouble (x : ℚ) : IsDouble (roundDouble x) := roundDouble_idem x

theorem isDouble_qAdd (a b : ℚ) : IsDouble (qAdd a b) := roundDouble_idem _

theorem isDouble_qSub (a b : ℚ) : IsDouble (qSub a b) := roundDouble_idem _

theorem isDouble_zero : IsDouble 0 := roundDouble_zero

theorem roundDouble_multiple (x : ℚ) : ∃ n : ℤ, roundDouble x = (n : ℚ) * 2 ^ (-1074 : ℤ) := by
  have key : ∀ y : ℚ, 0 < y → ∃ n : ℤ, roundMagnitude y = (n : ℚ) * 2 ^ (-1074 : ℤ) := by
    intro y hy
    obtain ⟨m, e, -, -, he, hform⟩ := roundMagnitude_form y hy
    obtain ⟨k, hk⟩ := Int.eq_ofNat_of_zero_le (show 0 ≤ e + 1074 by omega)
    refine ⟨m * 2 ^ k, ?_⟩
    rw [hform]
    push_cast
    rw [mul_assoc, ← zpow_natCast, ← zpow_add₀ (by norm_num), ← hk]
    congr 2
    ring
  rcases lt_trichotomy x 0 with h | h | h
  · obtain ⟨n, hn⟩ := key (-x) (by linarith)
    refine ⟨-n, ?_⟩
    rw [← neg_neg x, roundDouble_neg, roundDouble_of_pos (by linarith), hn]
    push_cast
    ring
  · subst h; exact ⟨0, by simp [roundDouble_zero]⟩
  · obtain ⟨n, hn⟩ := key x h
    exact ⟨n, by rw [roundDouble_of_pos h, hn]⟩

theorem roundDouble_smallest : roundDouble (2 ^ (-1074 : ℤ)) = 2 ^ (-1074 : ℤ) := by
  have := roundDouble_eq_self 1 (-1074) (by norm_num) (le_refl _)
  simpa using this

/-- The difference of two different doubles is not rounded to zero. -/
theorem qSub_neg_of_lt {a b : ℚ} (ha : IsDouble a) (hb : IsDouble b) (h : a < b) :
    qSub a b < 0 := by
  obtain ⟨n, hn⟩ := roundDouble_multiple a
  obtain ⟨m, hm⟩ := roundDouble_multiple b
  rw [ha] at hn
  rw [hb] at hm
  have hp : (0 : ℚ) < 2 ^ (-1074 : ℤ) := by positivity
  have hnm : n < m := by
    by_contra hc
    have : (m : ℚ) ≤ n := by exact_mod_cast not_lt.mp hc
    have := mul_le_mul_of_nonneg_right this hp.le
    rw [hn, hm] at h
    linarith
  have h1 : a - b ≤ -(2 ^ (-1074 : ℤ)) := by
    have : (n : ℚ) + 1 ≤ m := by exact_mod_cast hnm
    have := mul_le_mul_of_nonneg_right this hp.le
    rw [hn, hm]
    linarith
  have h2 := roundDouble_mono h1
  rw [roundDouble_neg, roundDouble_smallest] at h2
  unfold qSub
  linarith

theorem qSub_pos_of_lt {a b : ℚ} (ha : IsDouble a) (hb : IsDouble b) (h : b < a) :
    0 < qSub a b := by
  have h1 := qSub_neg_of_lt hb ha h
  unfold qSub at h1 ⊢
  have : a - b = -(b - a) := by ring
  rw [this, roundDouble_neg]
  linarith

theorem qSub_nonneg {a b : ℚ} (h : b ≤ a) : 0 ≤ qSub a b :=
  roundDouble_nonneg (by linarith)

theorem qSub_nonpos {a b : ℚ} (h : a ≤ b) : qSub a b ≤ 0 :=
  roundDouble_nonpos (by linarith)

theorem lt_of_qSub_neg {a b : ℚ} (h : qSub a b < 0) : a < b := by
  by_contra hc
  have := qSub_nonneg (not_lt.mp hc)
  linarith

theorem le_qAdd {x w : ℚ} (hx : IsDouble x) (hw : 0 ≤ w) : x ≤ qAdd x w := by
  have := roundDouble_mono (show x ≤ x + w by linarith)
  rw [hx] at this
  exact this

theorem qAdd_le {x w : ℚ} (hx : IsDouble x) (hw : w ≤ 0) : qAdd x w ≤ x := by
  have := roundDouble_mono (show x + w ≤ x by linarith)
  rw [hx] at this
  exact this

/-! ### Rects on a grid: nothing is rounded -/

theorem dyadic_iff (k N : ℕ) (q : ℚ) :
    Dyadic k N q ↔ ∃ n : ℤ, |n| ≤ (N : ℤ) ∧ q = (n : ℚ) / 2 ^ k := by
  have hp : (0 : ℚ) < 2 ^ k := by positivity
  constructor
  · rintro ⟨h1, h2⟩
    have hq : ((q * 2 ^ k).num : ℚ) = q * 2 ^ k := Rat.coe_int_num_of_den_eq_one h1
    refine ⟨(q * 2 ^ k).num, ?_, ?_⟩
    · rw [← hq] at h2
      exact_mod_cast h2
    · rw [hq]; field_simp
  · rintro ⟨n, h1, h2⟩
    have hq : q * 2 ^ k = (n : ℚ) := by rw [h2]; field_simp
    refine ⟨by rw [hq]; exact Rat.den_intCast n, ?_⟩
    rw [hq]
    exact_mod_cast h1

/-- A multiple of `2 ^ (-k)` less than `2 ^ 53` steps from zero is a double. -/
theorem Dyadic.isDouble {k N : ℕ} {q : ℚ} (h : Dyadic k N q) (hk : k ≤ 1074)
    (hN : N < 2 ^ 53) : roundDouble q = q := by
  obtain ⟨n, h1, h2⟩ := (dyadic_iff k N q).1 h
  have hq : q = (n : ℚ) * 2 ^ (-(k : ℤ)) := by
    rw [h2, zpow_neg, zpow_natCast, div_eq_mul_inv]
  rw [hq]
  exact roundDouble_eq_self n (-(k : ℤ)) (by have : (N : ℤ) < 2 ^ 53 := by exact_mod_cast hN
                                             omega) (by omega)

theorem Dyadic.mono {k N M : ℕ} {q : ℚ} (h : Dyadic k N q) (hNM : N ≤ M) : Dyadic k M q :=
  ⟨h.1, le_trans h.2 (by exact_mod_cast hNM)⟩

theorem Dyadic.add {k N M : ℕ} {a b : ℚ} (ha : Dyadic k N a) (hb : Dyadic k M b) :
    Dyadic k (N + M) (a + b) := by
  obtain ⟨n, h1, h2⟩ := (dyadic_iff _ _ _).1 ha
  obtain ⟨m, h3, h4⟩ := (dyadic_iff _ _ _).1 hb
  refine (dyadic_iff _ _ _).2 ⟨n + m, ?_, ?_⟩
  · have := abs_add n m
    push_cast
    omega
  · rw [h2, h4]; push_cast; ring

theorem Dyadic.neg {k N : ℕ} {a : ℚ} (ha : Dyadic k N a) : Dyadic k N (-a) := by
  obtain ⟨n, h1, h2⟩ := (dyadic_iff _ _ _).1 ha
  refine (dyadic_iff _ _ _).2 ⟨-n, ?_, ?_⟩
  · rw [abs_neg]; exact h1
  · rw [h2]; push_cast; ring

theorem Dyadic.sub {k N M : ℕ} {a b : ℚ} (ha : Dyadic k N a) (hb : Dyadic k M b) :
    Dyadic k (N + M) (a - b) := by
  rw [sub_eq_add_neg]
  exact ha.add hb.neg

theorem Dyadic.min {k N : ℕ} {a b : ℚ} (ha : Dyadic k N a) (hb : Dyadic k N b) :
    Dyadic k N (min a b) := by
  rcases le_total a b with h | h
  · rw [min_eq_left h]; exact ha
  · rw [min_eq_right h]; exact hb

theorem Dyadic.max {k N : ℕ} {a b : ℚ} (ha : Dyadic k N a) (hb : Dyadic k N b) :
    Dyadic k N (max a b) := by
  rcases le_total a b with h | h
  · rw [max_eq_right h]; exact hb
  · rw [max_eq_left h]; exact ha

theorem qAdd_exact {k N M : ℕ} {a b : ℚ} (ha : Dyadic k N a) (hb : Dyadic k M b)
    (hk : k ≤ 1074) (hN : N + M < 2 ^ 53) : qAdd a b = a + b :=
  (ha.add hb).isDouble hk hN

theorem qSub_exact {k N M : ℕ} {a b : ℚ} (ha : Dyadic k N a) (hb : Dyadic k M b)
    (hk : k ≤ 1074) (hN : N + M < 2 ^ 53) : qSub a b = a - b :=
  (ha.sub hb).isDouble hk hN

/-! ### The nearest double -/

theorem roundHalfEven_cases (q : ℚ) :
    (roundHalfEven q = ⌊q⌋ ∧ q - ⌊q⌋ ≤ 1 / 2) ∨
    (roundHalfEven q = ⌊q⌋ + 1 ∧ 1 / 2 ≤ q - ⌊q⌋) := by
  unfold roundHalfEven
  split_ifs with a b c
  · exact Or.inl ⟨rfl, a.le⟩
  · exact Or.inr ⟨rfl, b.le⟩
  · exact Or.inl ⟨rfl, not_lt.mp b⟩
  · exact Or.inr ⟨rfl, not_lt.mp a⟩

/-- The integer that `roundHalfEven` returns is a nearest one. -/
theorem roundHalfEven_nearest (q : ℚ) (n : ℤ) :
    |(roundHalfEven q : ℚ) - q| ≤ |(n : ℚ) - q| := by
  have h1 : (⌊q⌋ : ℚ) ≤ q := Int.floor_le q
  have h2 : q < ⌊q⌋ + 1 := Int.lt_floor_add_one q
  have hn : n ≤ ⌊q⌋ ∨ ⌊q⌋ + 1 ≤ n := by omega
  have hbound : q - ⌊q⌋ ≤ |(n : ℚ) - q| ∨ (⌊q⌋ : ℚ) + 1 - q ≤ |(n : ℚ) - q| := by
    rcases hn with h | h
    · left
      have : (n : ℚ) ≤ ⌊q⌋ := by exact_mod_cast h
      have := neg_le_abs ((n : ℚ) - q)
      linarith
    · right
      have : ((⌊q⌋ : ℚ) + 1) ≤ n := by exact_mod_cast h
      have := le_abs_self ((n : ℚ) - q)
      linarith
  rcases roundHalfEven_cases q with ⟨hr, hh⟩ | ⟨hr, hh⟩
  · rw [hr, abs_le]
    rcases hbound with h | h <;> constructor <;> linarith
  · rw [hr, abs_le]
    push_cast
    rcases hbound with h | h <;> constructor <;> linarith

theorem roundHalfEven_half (q : ℚ) : |(roundHalfEven q : ℚ) - q| ≤ 1 / 2 := by
  have h1 : (⌊q⌋ : ℚ) ≤ q := Int.floor_le q
  have h2 : q < ⌊q⌋ + 1 := Int.lt_floor_add_one q
  rcases roundHalfEven_cases q with ⟨hr, hh⟩ | ⟨hr, hh⟩
  · rw [hr, abs_le]; constructor <;> linarith
  · rw [hr, abs_le]; push_cast; constructor <;> linarith

theorem roundMagnitude_of_isDouble {d : ℚ} (hd : IsDouble d) (h : 0 < d) :
    d = (roundHalfEven (d / 2 ^ ulpExponent d) : ℚ) * 2 ^ ulpExponent d := by
  have h1 : roundDouble d = d := hd
  rw [roundDouble_of_pos h] at h1
  exact h1.symm

/-- No double lies strictly between the two neighbours of `z` on the grid of
its own exponent. -/
theorem double_off_gap (z d : ℚ) (hz : 0 < z) (hd : IsDouble d) :
    d ≤ (⌊z / 2 ^ ulpExponent z⌋ : ℚ) * 2 ^ ulpExponent z ∨
    ((⌊z / 2 ^ ulpExponent z⌋ : ℚ) + 1) * 2 ^ ulpExponent z ≤ d := by
  have hpE : (0 : ℚ) < 2 ^ ulpExponent z := by positivity
  have hq0 : (0 : ℚ) ≤ z / 2 ^ ulpExponent z := by positivity
  have hf0 : (0 : ℤ) ≤ ⌊z / 2 ^ ulpExponent z⌋ := Int.floor_nonneg.mpr hq0
  have hf0' : (0 : ℚ) ≤ (⌊z / 2 ^ ulpExponent z⌋ : ℚ) := by exact_mod_cast hf0
  rcases le_or_lt d 0 with hd0 | hd0
  · left
    have : (0 : ℚ) ≤ (⌊z / 2 ^ ulpExponent z⌋ : ℚ) * 2 ^ ulpExponent z := by positivity
    linarith
  · have hform := roundMagnitude_of_isDouble hd hd0
    rcases le_or_lt (ulpExponent z) (ulpExponent d) with hE | hE
    · obtain ⟨k, hk⟩ := Int.eq_ofNat_of_zero_le (sub_nonneg.mpr hE)
      have hdN : d = ((roundHalfEven (d / 2 ^ ulpExponent d) * 2 ^ k : ℤ) : ℚ) *
          2 ^ ulpExponent z := by
        have e1 : ulpExponent d = (k : ℤ) + ulpExponent z := by omega
        push_cast
        rw [mul_assoc, ← zpow_natCast, ← zpow_add₀ (by norm_num), ← e1]
        exact hform
      generalize roundHalfEven (d / 2 ^ ulpExponent d) * 2 ^ k = N at hdN
      have hN : N ≤ ⌊z / 2 ^ ulpExponent z⌋ ∨ ⌊z / 2 ^ ulpExponent z⌋ + 1 ≤ N := by omega
      rcases hN with h | h
      · left
        rw [hdN]
        have : (N : ℚ) ≤ (⌊z / 2 ^ ulpExponent z⌋ : ℚ) := by exact_mod_cast h
        exact mul_le_mul_of_nonneg_right this hpE.le
      · right
        rw [hdN]
        have : (⌊z / 2 ^ ulpExponent z⌋ : ℚ) + 1 ≤ (N : ℚ) := by exact_mod_cast h
        exact mul_le_mul_of_nonneg_right this hpE.le
    · left
      have hn : -1074 < ulpExponent z := lt_of_le_of_lt (ulpExponent_ge d) hE
      have h1 := scaled_ge z hz hn
      have h2 : ((2 ^ 52 : ℕ) : ℤ) ≤ ⌊z / 2 ^ ulpExponent z⌋ := by
        rw [Int.le_floor]; push_cast; exact h1
      have h2' : (2 : ℚ) ^ (52 : ℕ) ≤ (⌊z / 2 ^ ulpExponent z⌋ : ℚ) := by exact_mod_cast h2
      have h3 := roundMagnitude_le d hd0
      have h4 : roundMagnitude d = d := by
        have : roundDouble d = d := hd
        rwa [roundDouble_of_pos hd0] at this
      rw [h4] at h3
      have h5 : (2 : ℚ) ^ (ulpExponent d + 1) ≤ 2 ^ ulpExponent z :=
        zpow_le_zpow_right₀ (by norm_num) (by omega)
      rw [zpow_add₀ (by norm_num), zpow_one] at h5
      have hpd : (0 : ℚ) < 2 ^ ulpExponent d := by positivity
      have h6 : (2 : ℚ) ^ (52 : ℕ) * 2 ^ ulpExponent z ≤
          (⌊z / 2 ^ ulpExponent z⌋ : ℚ) * 2 ^ ulpExponent z :=
        mul_le_mul_of_nonneg_right h2' hpE.le
      norm_num at h3 h6 ⊢
      nlinarith

theorem roundMagnitude_sub (z : ℚ) :
    roundMagnitude z - z =
      ((roundHalfEven (z / 2 ^ ulpExponent z) : ℚ) - z / 2 ^ ulpExponent z) *
        2 ^ ulpExponent z := by
  have hpE : (0 : ℚ) < 2 ^ ulpExponent z := by positivity
  unfold roundMagnitude
  field_simp

theorem roundMagnitude_nearest (z d : ℚ) (hz : 0 < z) (hd : IsDouble d) :
    |roundMagnitude z - z| ≤ |d - z| := by
  have hpE : (0 : ℚ) < 2 ^ ulpExponent z := by positivity
  have hzq : z = z / 2 ^ ulpExponent z * 2 ^ ulpExponent z := by field_simp
  rw [roundMagnitude_sub, abs_mul, abs_of_pos hpE]
  have h1 : (⌊z / 2 ^ ulpExponent z⌋ : ℚ) ≤ z / 2 ^ ulpExponent z := Int.floor_le _
  have h2 : z / 2 ^ ulpExponent z < ⌊z / 2 ^ ulpExponent z⌋ + 1 := Int.lt_floor_add_one _
  rcases double_off_gap z d hz hd with h | h
  · have hn := roundHalfEven_nearest (z / 2 ^ ulpExponent z) ⌊z / 2 ^ ulpExponent z⌋
    rw [abs_of_nonpos (by linarith : (⌊z / 2 ^ ulpExponent z⌋ : ℚ) - z / 2 ^ ulpExponent z ≤ 0)]
      at hn
    have h3 := mul_le_mul_of_nonneg_right hn hpE.le
    have h4 := neg_le_abs (d - z)
    have h5 : -((⌊z / 2 ^ ulpExponent z⌋ : ℚ) - z / 2 ^ ulpExponent z) * 2 ^ ulpExponent z =
        z - (⌊z / 2 ^ ulpExponent z⌋ : ℚ) * 2 ^ ulpExponent z := by
      field_simp
    linarith
  · have hn := roundHalfEven_nearest (z / 2 ^ ulpExponent z) (⌊z / 2 ^ ulpExponent z⌋ + 1)
    push_cast at hn
    rw [abs_of_nonneg
      (by linarith : 0 ≤ (⌊z / 2 ^ ulpExponent z⌋ : ℚ) + 1 - z / 2 ^ ulpExponent z)] at hn
    have h3 := mul_le_mul_of_nonneg_right hn hpE.le
    have h4 := le_abs_self (d - z)
    have h5 : ((⌊z / 2 ^ ulpExponent z⌋ : ℚ) + 1 - z / 2 ^ ulpExponent z) * 2 ^ ulpExponent z =
        ((⌊z / 2 ^ ulpExponent z⌋ : ℚ) + 1) * 2 ^ ulpExponent z - z := by
      field_simp
    linarith

theorem isDouble_neg {d : ℚ} (hd : IsDouble d) : IsDouble (-d) := by
  unfold IsDouble at hd ⊢
  rw [roundDouble_neg, hd]

/-- Rounding returns a double nearest to the number rounded. -/
theorem roundDouble_nearest (z d : ℚ) (hd : IsDouble d) :
    |roundDouble z - z| ≤ |d - z| := by
  rcases lt_trichotomy z 0 with h | h | h
  · have hz : 0 < -z := by linarith
    have h1 := roundMagnitude_nearest (-z) (-d) hz (isDouble_neg hd)
    have h2 : roundDouble z = - roundMagnitude (-z) := by
      rw [← neg_neg z, roundDouble_neg, roundDouble_of_pos hz, neg_neg]
    rw [h2]
    have e1 : -roundMagnitude (-z) - z = -(roundMagnitude (-z) - -z) := by ring
    have e2 : d - z = -(-d - -z) := by ring
    rw [e1, e2, abs_neg, abs_neg]
    exact h1
  · subst h
    rw [roundDouble_zero]
    simp
  · rw [roundDouble_of_pos h]
    exact roundMagnitude_nearest z d h hd

/-- A number below the midpoint of two doubles is not rounded up to the upper
one. -/
theorem roundDouble_lt_of_lt_mid {z lo x : ℚ} (hlo : IsDouble lo)
    (hz : z < (lo + x) / 2) (h : lo < x) : roundDouble z < x := by
  by_contra hc
  have hc' : x ≤ roundDouble z := not_lt.mp hc
  rcases le_or_lt z lo with h1 | h1
  · have := roundDouble_mono h1
    rw [hlo] at this
    linarith
  · have h2 := roundDouble_nearest z lo hlo
    rw [abs_of_neg (by linarith : lo - z < 0)] at h2
    have h3 := le_abs_self (roundDouble z - z)
    linarith

/-! ### The relative error of a sum of doubles -/

theorem roundMagnitude_rel (z : ℚ) (hz : 0 < z) (hm : ∃ n : ℤ, z = (n : ℚ) * 2 ^ (-1074 : ℤ)) :
    |roundMagnitude z - z| ≤ z / 2 ^ (53 : ℕ) := by
  have hpE : (0 : ℚ) < 2 ^ ulpExponent z := by positivity
  rcases lt_or_eq_of_le (ulpExponent_ge z) with hE | hE
  · rw [roundMagnitude_sub, abs_mul, abs_of_pos hpE]
    have h1 := roundHalfEven_half (z / 2 ^ ulpExponent z)
    have h2 := mul_le_mul_of_nonneg_right h1 hpE.le
    have h3 := scaled_ge z hz hE
    rw [le_div_iff₀ hpE] at h3
    have h4 : (1 : ℚ) / 2 * 2 ^ ulpExponent z ≤ z / 2 ^ (53 : ℕ) := by
      rw [le_div_iff₀ (by positivity)]
      norm_num at h3 ⊢
      linarith
    linarith
  · obtain ⟨n, hn⟩ := hm
    have hq : z / 2 ^ ulpExponent z = ((n : ℤ) : ℚ) := by
      rw [← hE, hn]
      field_simp
    rw [roundMagnitude_sub, hq, roundHalfEven_intCast]
    simp only [sub_self, zero_mul, abs_zero]
    positivity

/-- A sum of two doubles is rounded with a relative error of at most
`2 ^ (-53)`, also where the doubles are subnormal. -/
theorem roundDouble_rel {a b : ℚ} (ha : IsDouble a) (hb : IsDouble b) :
    |roundDouble (a + b) - (a + b)| ≤ |a + b| / 2 ^ (53 : ℕ) := by
  obtain ⟨n, hn⟩ := roundDouble_multiple a
  obtain ⟨m, hm⟩ := roundDouble_multiple b
  rw [ha] at hn
  rw [hb] at hm
  have hsum : a + b = ((n + m : ℤ) : ℚ) * 2 ^ (-1074 : ℤ) := by
    rw [hn, hm]; push_cast; ring
  rcases lt_trichotomy (a + b) 0 with h | h | h
  · have hz : 0 < -(a + b) := by linarith
    have h1 := roundMagnitude_rel (-(a + b)) hz ⟨-(n + m), by rw [hsum]; push_cast; ring⟩
    have h2 : roundDouble (a + b) = - roundMagnitude (-(a + b)) := by
      rw [← neg_neg (a + b), roundDouble_neg, roundDouble_of_pos hz, neg_neg]
    rw [h2, abs_of_neg h]
    have e1 : -roundMagnitude (-(a + b)) - (a + b) =
        -(roundMagnitude (-(a + b)) - -(a + b)) := by ring
    rw [e1, abs_neg]
    exact h1
  · rw [h, roundDouble_zero]
    simp
  · rw [roundDouble_of_pos h, abs_of_pos h]
    exact roundMagnitude_rel (a + b) h ⟨n + m, hsum⟩

theorem qAdd_rel {a b : ℚ} (ha : IsDouble a) (hb : IsDouble b) :
    |qAdd a b - (a + b)| ≤ |a + b| / 2 ^ (53 : ℕ) :=
  roundDouble_rel ha hb

theorem qSub_rel {a b : ℚ} (ha : IsDouble a) (hb : IsDouble b) :
    |qSub a b - (a - b)| ≤ |a - b| / 2 ^ (53 : ℕ) := by
  have := roundDouble_rel ha (isDouble_neg hb)
  rw [← sub_eq_add_neg] at this
  exact this

/-! ### Geometry -/

namespace QRectF

theorem l1_le_r1 (a : QRectF) (h : IsDouble a.xp) : a.l1 ≤ a.r1 := by
  unfold l1 r1
  split_ifs with hw
  · exact qAdd_le h hw.le
  · exact le_qAdd h (not_lt.mp hw)

theorem t1_le_b1 (a : QRectF) (h : IsDouble a.yp) : a.t1 ≤ a.b1 := by
  unfold t1 b1
  split_ifs with hw
  · exact qAdd_le h hw.le
  · exact le_qAdd h (not_lt.mp hw)

theorem contains_iff (a r : QRectF) :
    a.contains r = true ↔
      a.l1 ≠ a.r1 ∧ r.l1 ≠ r.r1 ∧ a.l1 ≤ r.l1 ∧ r.r1 ≤ a.r1 ∧
      a.t1 ≠ a.b1 ∧ r.t1 ≠ r.b1 ∧ a.t1 ≤ r.t1 ∧ r.b1 ≤ a.b1 := by
  unfold contains
  split_ifs with h1 h2 h3 h4 h5 h6
  · simp [h1]
  · simp [h2]
  · simp only [false_iff, Bool.false_eq_true]
    rintro ⟨-, -, h, h', -⟩
    rcases h3 with h3 | h3 <;> linarith
  · simp [h4]
  · simp [h5]
  · simp only [false_iff, Bool.false_eq_true]
    rintro ⟨-, -, -, -, -, -, h, h'⟩
    rcases h6 with h6 | h6 <;> linarith
  · simp only [not_or, not_lt, gt_iff_lt] at h3 h6
    simp [h1, h2, h3, h4, h5, h6]

theorem intersects_iff (a r : QRectF) :
    a.intersects r = true ↔
      a.l1 ≠ a.r1 ∧ r.l1 ≠ r.r1 ∧ a.l1 < r.r1 ∧ r.l1 < a.r1 ∧
      a.t1 ≠ a.b1 ∧ r.t1 ≠ r.b1 ∧ a.t1 < r.b1 ∧ r.t1 < a.b1 := by
  unfold intersects
  split_ifs with h1 h2 h3 h4 h5 h6
  · simp [h1]
  · simp [h2]
  · simp only [false_iff, Bool.false_eq_true]
    rintro ⟨-, -, h, h', -⟩
    rcases h3 with h3 | h3 <;> linarith
  · simp [h4]
  · simp [h5]
  · simp only [false_iff, Bool.false_eq_true]
    rintro ⟨-, -, -, -, -, -, h, h'⟩
    rcases h6 with h6 | h6 <;> linarith
  · simp only [not_or, not_le, ge_iff_le] at h3 h6
    simp [h1, h2, h3, h4, h5, h6]

theorem intersected_of_intersects {a r : QRectF} (h : a.intersects r = true) :
    a.intersected r =
      { xp := max a.l1 r.l1, yp := max a.t1 r.t1,
        w := qSub (min a.r1 r.r1) (max a.l1 r.l1),
        h := qSub (min a.b1 r.b1) (max a.t1 r.t1) } := by
  rw [intersects_iff] at h
  obtain ⟨h1, h2, h3, h4, h5, h6, h7, h8⟩ := h
  unfold intersected
  rw [if_neg h1, if_neg h2, if_neg (by simp [h3, h4]), if_neg h5, if_neg h6,
    if_neg (by simp [h7, h8])]

theorem intersects_comm (a r : QRectF) : a.intersects r = r.intersects a := by
  rw [Bool.eq_iff_iff, intersects_iff, intersects_iff]
  tauto

theorem intersected_of_not_intersects {a r : QRectF} (h : a.intersects r = false) :
    a.intersected r = null := by
  unfold intersects at h
  unfold intersected
  split_ifs at h ⊢ <;> rfl

end QRectF

theorem intersects_of_contains_contains {a r e : QRectF} (he : e.OfDoubles)
    (h1 : a.contains r = true) (h2 : r.contains e = true) : a.intersects e = true := by
  rw [QRectF.contains_iff] at h1 h2
  rw [QRectF.intersects_iff]
  obtain ⟨a1, a2, a3, a4, a5, a6, a7, a8⟩ := h1
  obtain ⟨b1, b2, b3, b4, b5, b6, b7, b8⟩ := h2
  have e1 := lt_of_le_of_ne (QRectF.l1_le_r1 e he.1) b2
  have e2 := lt_of_le_of_ne (QRectF.t1_le_b1 e he.2.1) b6
  refine ⟨a1, b2, by linarith, by linarith, a5, b6, by linarith, by linarith⟩

theorem intersects_self_of_contains {r e : QRectF} (he : e.OfDoubles)
    (h : r.contains e = true) : e.intersects e = true := by
  rw [QRectF.contains_iff] at h
  rw [QRectF.intersects_iff]
  obtain ⟨-, b2, -, -, -, b6, -, -⟩ := h
  exact ⟨b2, b2, lt_of_le_of_ne (QRectF.l1_le_r1 e he.1) b2,
    lt_of_le_of_ne (QRectF.l1_le_r1 e he.1) b2,
    b6, b6, lt_of_le_of_ne (QRectF.t1_le_b1 e he.2.1) b6,
    lt_of_le_of_ne (QRectF.t1_le_b1 e he.2.1) b6⟩

/-- The rect that `shrinkRectangle` returns keeps the vertical extent. -/
theorem shrinkRectangle_vertical (v a : QRectF) :
    (shrinkRectangle v a).yp = a.yp ∧ (shrinkRectangle v a).h = a.h := by
  simp only [shrinkRectangle, QRectF.setWidth, QRectF.setX]
  split_ifs <;> exact ⟨rfl, rfl⟩

/-- Horizontal extents, in double arithmetic, for an existing rect `a` of
non-negative width: if the rect that `shrinkRectangle` returns is not null and
lies inside the horizontal extent of the new rect `v`, while `a` itself does
not, then it overlaps the horizontal extent of `a`. -/
theorem shrinkRectangle_overlaps_of_nonneg (v a : QRectF) (hv : IsDouble v.xp) (hax : IsDouble a.xp)
    (haw : IsDouble a.w) (hw : 0 ≤ a.w)
    (i1 : a.l1 ≠ a.r1) (i3 : a.l1 < v.r1) (i4 : v.l1 < a.r1)
    (hout : a.l1 < v.l1 ∨ v.r1 < a.r1)
    (hs : (shrinkRectangle v a).l1 ≠ (shrinkRectangle v a).r1)
    (c1 : v.l1 ≤ (shrinkRectangle v a).l1) (c2 : (shrinkRectangle v a).r1 ≤ v.r1) :
    a.l1 < (shrinkRectangle v a).r1 ∧ (shrinkRectangle v a).l1 < a.r1 := by
  have hi' : a.intersected v =
      { xp := max a.l1 v.l1, yp := max a.t1 v.t1,
        w := qSub (min a.r1 v.r1) (max a.l1 v.l1),
        h := qSub (min a.b1 v.b1) (max a.t1 v.t1) } ∨ a.intersected v = QRectF.null := by
    by_cases h : a.intersects v = true
    · exact Or.inl (QRectF.intersected_of_intersects h)
    · exact Or.inr (QRectF.intersected_of_not_intersects (by simpa using h))
  have hal : a.l1 = a.xp := by simp [QRectF.l1, not_lt.mpr hw]
  have har : a.r1 = qAdd a.xp a.w := by simp [QRectF.r1, not_lt.mpr hw]
  have hvlr := QRectF.l1_le_r1 v hv
  have hv1 : v.l1 ≤ v.xp := by
    unfold QRectF.l1; split_ifs with h
    · exact qAdd_le hv h.le
    · exact le_refl _
  have hv2 : v.xp ≤ v.r1 := by
    unfold QRectF.r1; split_ifs with h
    · exact le_refl _
    · exact le_qAdd hv (not_lt.mp h)
  have halr : a.xp < qAdd a.xp a.w := by
    rw [hal, har] at i1
    exact lt_of_le_of_ne (le_qAdd hax hw) i1
  rw [hal] at i3 hout
  rw [har] at i4 hout
  rw [hal, har]
  -- the width of the intersection, as computed
  obtain ⟨iw, hiw0, hiw, hiwle⟩ : ∃ iw : ℚ, 0 ≤ iw ∧ (a.intersected v).w = iw ∧
      (v.r1 < qAdd a.xp a.w → v.l1 ≤ a.xp → iw ≤ a.w) := by
    rcases hi' with h | h
    · refine ⟨_, ?_, by rw [h], ?_⟩
      · apply qSub_nonneg
        rw [hal, har]
        simp only [le_min_iff, max_le_iff]
        exact ⟨⟨halr.le, i4.le⟩, i3.le, hvlr⟩
      · intro h1 h2
        rw [hal, har, min_eq_right h1.le, max_eq_left h2]
        have h3 : v.r1 - a.xp ≤ a.w := by
          by_contra hc
          have h4 : a.xp + a.w ≤ v.r1 := by linarith
          have h5 := roundDouble_mono h4
          have h6 : roundDouble v.r1 = v.r1 := by
            unfold QRectF.r1; split_ifs
            · exact hv
            · exact isDouble_qAdd _ _
          rw [h6] at h5
          unfold qAdd at h1
          linarith
        have h7 := roundDouble_mono h3
        rw [haw] at h7
        exact h7
    · exact ⟨0, le_refl _, by rw [h]; rfl, fun _ _ => hw⟩
  by_cases hright : qSub a.xp v.xp < 0
  · -- the right part of `a` is cut off
    have hxlt : a.xp < v.xp := lt_of_qSub_neg hright
    have hshape : shrinkRectangle v a = ⟨a.xp, a.yp, qSub a.w iw, a.h⟩ := by
      simp only [shrinkRectangle, QRectF.x, QRectF.width, if_pos hright, QRectF.setWidth, hiw]
    rw [hshape] at hs c1 c2 ⊢
    by_cases hsw : qSub a.w iw < 0
    · exfalso
      have hl : (⟨a.xp, a.yp, qSub a.w iw, a.h⟩ : QRectF).l1 = qAdd a.xp (qSub a.w iw) := by
        simp only [QRectF.l1, if_pos hsw]
      have hr : (⟨a.xp, a.yp, qSub a.w iw, a.h⟩ : QRectF).r1 = a.xp := by
        simp only [QRectF.r1, if_pos hsw]
      rw [hl, hr] at hs
      rw [hl] at c1
      rw [hr] at c2
      have h1 : qAdd a.xp (qSub a.w iw) < a.xp := lt_of_le_of_ne (qAdd_le hax hsw.le) hs
      have h2 : v.l1 < a.xp := lt_of_le_of_lt c1 h1
      rcases hout with h | h
      · linarith
      · have := hiwle h h2.le
        have := qSub_nonneg this
        linarith
    · have hl : (⟨a.xp, a.yp, qSub a.w iw, a.h⟩ : QRectF).l1 = a.xp := by
        simp only [QRectF.l1, if_neg hsw]
      have hr : (⟨a.xp, a.yp, qSub a.w iw, a.h⟩ : QRectF).r1 = qAdd a.xp (qSub a.w iw) := by
        simp only [QRectF.r1, if_neg hsw]
      rw [hl, hr] at hs
      rw [hl, hr]
      exact ⟨lt_of_le_of_ne (le_qAdd hax (not_lt.mp hsw)) hs, halr⟩
  · -- the left part of `a` is cut off
    have hxle : v.xp ≤ a.xp := by
      by_contra hc
      exact hright (qSub_neg_of_lt hax hv (not_le.mp hc))
    have hvl : v.l1 ≤ a.xp := le_trans hv1 hxle
    have hvr : v.r1 < qAdd a.xp a.w := by
      rcases hout with h | h
      · linarith
      · exact h
    have hpos : a.xp ≤ qAdd a.xp iw := le_qAdd hax hiw0
    have hdiff : 0 ≤ qSub (qAdd a.xp iw) a.xp := qSub_nonneg hpos
    have hshape : shrinkRectangle v a =
        ⟨qAdd a.xp (qSub (qAdd a.xp iw) a.xp), a.yp, qSub a.w (qSub (qAdd a.xp iw) a.xp), a.h⟩ := by
      simp only [shrinkRectangle, QRectF.x, QRectF.width, if_neg hright, QRectF.setX, hiw]
    rw [hshape] at hs c1 c2 ⊢
    generalize hX : qAdd a.xp (qSub (qAdd a.xp iw) a.xp) = X at hs c1 c2 ⊢
    generalize hW : qSub a.w (qSub (qAdd a.xp iw) a.xp) = W at hs c1 c2 ⊢
    have hsx : a.xp ≤ X := by rw [← hX]; exact le_qAdd hax hdiff
    have hXd : IsDouble X := by rw [← hX]; exact isDouble_qAdd _ _
    by_cases hsw : W < 0
    · have hl : (⟨X, a.yp, W, a.h⟩ : QRectF).l1 = qAdd X W := by
        simp only [QRectF.l1, if_pos hsw]
      have hr : (⟨X, a.yp, W, a.h⟩ : QRectF).r1 = X := by
        simp only [QRectF.r1, if_pos hsw]
      rw [hl, hr] at hs
      rw [hr] at c2
      rw [hl, hr]
      have h1 := lt_of_le_of_ne (qAdd_le hXd hsw.le) hs
      refine ⟨?_, by linarith⟩
      apply lt_of_le_of_ne hsx
      intro heq
      have h2 : a.w < qSub (qAdd a.xp iw) a.xp := by
        apply lt_of_qSub_neg
        rw [hW]; exact hsw
      have h3 : qAdd a.xp a.w ≤ qAdd a.xp (qSub (qAdd a.xp iw) a.xp) :=
        roundDouble_mono (by linarith)
      rw [hX] at h3
      linarith
    · have hl : (⟨X, a.yp, W, a.h⟩ : QRectF).l1 = X := by
        simp only [QRectF.l1, if_neg hsw]
      have hr : (⟨X, a.yp, W, a.h⟩ : QRectF).r1 = qAdd X W := by
        simp only [QRectF.r1, if_neg hsw]
      rw [hl, hr] at hs
      rw [hr] at c2
      rw [hl, hr]
      have h1 := lt_of_le_of_ne (le_qAdd hXd (not_lt.mp hsw)) hs
      exact ⟨by linarith, by linarith⟩

/-- The left cut of a rect of negative width, in double arithmetic.  The rect
spans `[x + w, x]` with `w < 0`, a double `lo` lies strictly inside, and `setX`
is called with `x + (x - lo)`: the left edge that results, computed from the
new `x` and the new width, stays to the left of `x`. -/
theorem left_cut_stays_left {x w lo : ℚ} (hx : IsDouble x) (hw : IsDouble w) (hlo : IsDouble lo)
    (h1 : qAdd x w < lo) (h2 : lo < x) :
    qAdd (qAdd x (qSub (qAdd x (qSub x lo)) x)) (qSub w (qSub (qAdd x (qSub x lo)) x)) < x := by
  have hxw : x + w < lo := by
    by_contra hc
    have := roundDouble_mono (not_lt.mp hc)
    rw [hlo] at this
    unfold qAdd at h1
    linarith
  -- the width of the intersection
  have hiw0 : 0 ≤ qSub x lo := qSub_nonneg h2.le
  have hiw := qSub_rel hx hlo
  rw [abs_of_pos (by linarith : 0 < x - lo), abs_le] at hiw
  generalize qSub x lo = iw at hiw0 hiw ⊢
  -- the position handed to `setX`
  have hpos0 : x ≤ qAdd x iw := le_qAdd hx hiw0
  have hpos : |qAdd x iw - (x + iw)| ≤ |x - (x + iw)| := roundDouble_nearest (x + iw) x hx
  have e1 : x - (x + iw) = -iw := by ring
  rw [e1, abs_neg, abs_of_nonneg hiw0, abs_le] at hpos
  have hposd : IsDouble (qAdd x iw) := isDouble_qAdd _ _
  generalize qAdd x iw = pos at hpos0 hpos hposd ⊢
  -- the difference that `setX` computes
  have hd0 : 0 ≤ qSub pos x := qSub_nonneg hpos0
  have hd := qSub_rel hposd hx
  rw [abs_of_nonneg (by linarith : 0 ≤ pos - x)] at hd
  have hdd : IsDouble (qSub pos x) := isDouble_qSub _ _
  generalize qSub pos x = d at hd0 hd hdd ⊢
  -- the new `x` and the new width
  have hX : |qAdd x d - (x + d)| ≤ |pos - (x + d)| := roundDouble_nearest (x + d) pos hposd
  have e2 : pos - (x + d) = -(d - (pos - x)) := by ring
  rw [e2, abs_neg] at hX
  have hX' := le_trans hX hd
  rw [abs_le] at hX' hd
  have hW := qSub_rel hw hdd
  have hwd : w - d < 0 := by linarith
  rw [abs_of_neg hwd, abs_le] at hW
  apply roundDouble_lt_of_lt_mid hlo _ h2
  have hu : (0 : ℚ) < 1 / 2 ^ (53 : ℕ) := by positivity
  norm_num at hiw hd hX' hW ⊢
  linarith

theorem qAdd_zero {x : ℚ} (hx : IsDouble x) : qAdd x 0 = x := by
  unfold qAdd
  rw [add_zero]
  exact hx

theorem qSub_zero {x : ℚ} (hx : IsDouble x) : qSub x 0 = x := by
  unfold qSub
  rw [sub_zero]
  exact hx

theorem qSub_self (x : ℚ) : qSub x x = 0 := by
  unfold qSub
  rw [sub_self]
  exact roundDouble_zero

theorem qSub_le {x w : ℚ} (hx : IsDouble x) (hw : 0 ≤ w) : qSub x w ≤ x := by
  have := roundDouble_mono (show x - w ≤ x by linarith)
  rw [hx] at this
  exact this

theorem QRectF.isDouble_l1 (v : QRectF) (hv : IsDouble v.xp) : IsDouble v.l1 := by
  unfold QRectF.l1
  split_ifs
  · exact isDouble_qAdd _ _
  · exact hv

/-- Horizontal extents, in double arithmetic, for an existing rect `a` of
negative width: if the rect that `shrinkRectangle` returns is not null and lies
inside the horizontal extent of the new rect `v`, while `a` itself does not,
then it overlaps the horizontal extent of `a`. -/
theorem shrinkRectangle_overlaps_of_neg (v a : QRectF) (hv : IsDouble v.xp)
    (hax : IsDouble a.xp) (haw : IsDouble a.w) (hw : a.w < 0)
    (i1 : a.l1 ≠ a.r1) (i3 : a.l1 < v.r1) (i4 : v.l1 < a.r1)
    (hout : a.l1 < v.l1 ∨ v.r1 < a.r1)
    (hs : (shrinkRectangle v a).l1 ≠ (shrinkRectangle v a).r1)
    (c2 : (shrinkRectangle v a).r1 ≤ v.r1) :
    a.l1 < (shrinkRectangle v a).r1 ∧ (shrinkRectangle v a).l1 < a.r1 := by
  have hi' : a.intersected v =
      { xp := max a.l1 v.l1, yp := max a.t1 v.t1,
        w := qSub (min a.r1 v.r1) (max a.l1 v.l1),
        h := qSub (min a.b1 v.b1) (max a.t1 v.t1) } ∨ a.intersected v = QRectF.null := by
    by_cases h : a.intersects v = true
    · exact Or.inl (QRectF.intersected_of_intersects h)
    · exact Or.inr (QRectF.intersected_of_not_intersects (by simpa using h))
  have hal : a.l1 = qAdd a.xp a.w := by simp [QRectF.l1, hw]
  have har : a.r1 = a.xp := by simp [QRectF.r1, hw]
  have hvlr := QRectF.l1_le_r1 v hv
  have hvl := QRectF.isDouble_l1 v hv
  have halr : qAdd a.xp a.w < a.xp := by
    rw [hal, har] at i1
    exact lt_of_le_of_ne (qAdd_le hax hw.le) i1
  rw [hal] at i3 hout
  rw [har] at i4 hout
  rw [hal, har]
  -- the width of the intersection, as computed
  obtain ⟨iw, hiw0, hiw, hiweq⟩ : ∃ iw : ℚ, 0 ≤ iw ∧ (a.intersected v).w = iw ∧
      (iw = 0 ∨ iw = qSub (min a.xp v.r1) (max (qAdd a.xp a.w) v.l1)) := by
    rcases hi' with h | h
    · refine ⟨_, ?_, by rw [h], Or.inr (by rw [hal, har])⟩
      apply qSub_nonneg
      rw [hal, har]
      simp only [le_min_iff, max_le_iff]
      exact ⟨⟨halr.le, i4.le⟩, i3.le, hvlr⟩
    · exact ⟨0, le_refl _, by rw [h]; rfl, Or.inl rfl⟩
  by_cases hright : qSub a.xp v.xp < 0
  · -- the width is made smaller
    have hshape : shrinkRectangle v a = ⟨a.xp, a.yp, qSub a.w iw, a.h⟩ := by
      simp only [shrinkRectangle, QRectF.x, QRectF.width, if_pos hright, QRectF.setWidth, hiw]
    rw [hshape] at hs ⊢
    have hsw : qSub a.w iw < 0 := lt_of_le_of_lt (qSub_le haw hiw0) hw
    have hl : (⟨a.xp, a.yp, qSub a.w iw, a.h⟩ : QRectF).l1 = qAdd a.xp (qSub a.w iw) := by
      simp only [QRectF.l1, if_pos hsw]
    have hr : (⟨a.xp, a.yp, qSub a.w iw, a.h⟩ : QRectF).r1 = a.xp := by
      simp only [QRectF.r1, if_pos hsw]
    rw [hl, hr] at hs
    rw [hl, hr]
    exact ⟨halr, lt_of_le_of_ne (qAdd_le hax hsw.le) hs⟩
  · -- `setX` moves `x` and adds to the width
    have hpos : a.xp ≤ qAdd a.xp iw := le_qAdd hax hiw0
    have hdiff : 0 ≤ qSub (qAdd a.xp iw) a.xp := qSub_nonneg hpos
    have hshape : shrinkRectangle v a =
        ⟨qAdd a.xp (qSub (qAdd a.xp iw) a.xp), a.yp, qSub a.w (qSub (qAdd a.xp iw) a.xp), a.h⟩ := by
      simp only [shrinkRectangle, QRectF.x, QRectF.width, if_neg hright, QRectF.setX, hiw]
    rw [hshape] at hs c2 ⊢
    have hsw : qSub a.w (qSub (qAdd a.xp iw) a.xp) < 0 := lt_of_le_of_lt (qSub_le haw hdiff) hw
    have hsx : a.xp ≤ qAdd a.xp (qSub (qAdd a.xp iw) a.xp) := le_qAdd hax hdiff
    have hl : (⟨qAdd a.xp (qSub (qAdd a.xp iw) a.xp), a.yp,
        qSub a.w (qSub (qAdd a.xp iw) a.xp), a.h⟩ : QRectF).l1 =
        qAdd (qAdd a.xp (qSub (qAdd a.xp iw) a.xp)) (qSub a.w (qSub (qAdd a.xp iw) a.xp)) := by
      simp only [QRectF.l1, if_pos hsw]
    have hr : (⟨qAdd a.xp (qSub (qAdd a.xp iw) a.xp), a.yp,
        qSub a.w (qSub (qAdd a.xp iw) a.xp), a.h⟩ : QRectF).r1 =
        qAdd a.xp (qSub (qAdd a.xp iw) a.xp) := by
      simp only [QRectF.r1, if_pos hsw]
    rw [hr] at c2
    rw [hl, hr]
    refine ⟨lt_of_lt_of_le halr hsx, ?_⟩
    have hxr : a.xp ≤ v.r1 := le_trans hsx c2
    have hlo : qAdd a.xp a.w < v.l1 := by
      rcases hout with h | h
      · exact h
      · linarith
    rcases hiweq with h0 | h0
    · rw [h0, qAdd_zero hax, qSub_self, qAdd_zero hax, qSub_zero haw]
      exact halr
    · rw [min_eq_left hxr, max_eq_right hlo.le] at h0
      rw [h0]
      exact left_cut_stays_left hax haw hvl hlo i4

/-- Horizontal extents, in double arithmetic: if the rect that `shrinkRectangle`
returns for an existing rect `a` is not null and lies inside the horizontal
extent of the new rect `v`, while `a` itself does not, then it overlaps the
horizontal extent of `a`. -/
theorem shrinkRectangle_overlaps (v a : QRectF) (hv : IsDouble v.xp) (hax : IsDouble a.xp)
    (haw : IsDouble a.w)
    (i1 : a.l1 ≠ a.r1) (i3 : a.l1 < v.r1) (i4 : v.l1 < a.r1)
    (hout : a.l1 < v.l1 ∨ v.r1 < a.r1)
    (hs : (shrinkRectangle v a).l1 ≠ (shrinkRectangle v a).r1)
    (c1 : v.l1 ≤ (shrinkRectangle v a).l1) (c2 : (shrinkRectangle v a).r1 ≤ v.r1) :
    a.l1 < (shrinkRectangle v a).r1 ∧ (shrinkRectangle v a).l1 < a.r1 := by
  rcases le_or_lt 0 a.w with hw | hw
  · exact shrinkRectangle_overlaps_of_nonneg v a hv hax haw hw i1 i3 i4 hout hs c1 c2
  · exact shrinkRectangle_overlaps_of_neg v a hv hax haw hw i1 i3 i4 hout hs c2

/-! ### Conflict resolution on one existing rect -/

/-- One existing highlight with one rect against a new highlight with one rect:
the four outcomes of the innermost loop body. -/
theorem removeConflictingHighlights_single (dangling : DanglingRead) (c cn : QColor)
    (e r : QRectF) :
    removeConflictingHighlights dangling [⟨c, [e]⟩] ⟨cn, [r]⟩ =
      if r.contains e then .ok ([], ⟨cn, [r]⟩)
      else if e.contains r then .ok ([⟨c, [e]⟩], ⟨cn, []⟩)
      else if r.intersects e && onSameLine r e then
        .ok ([⟨c, [shrinkRectangle r e]⟩], ⟨cn, [r]⟩)
      else .ok ([⟨c, [e]⟩], ⟨cn, [r]⟩) := by
  by_cases h1 : r.contains e = true
  · simp [removeConflictingHighlights, highlightLoop, rectLoop, innerLoop, qAt, removeAt, h1]
  · by_cases h2 : e.contains r = true
    · simp [removeConflictingHighlights, highlightLoop, rectLoop, innerLoop, qAt, removeAt, h1, h2]
    · by_cases h3 : r.intersects e = true
      · by_cases h4 : onSameLine r e = true
        · have h4' := h4
          simp only [onSameLine] at h4'
          simp [removeConflictingHighlights, highlightLoop, rectLoop, innerLoop, qAt, removeAt,
            h1, h2, h3, h4, h4']
        · have h4' := h4
          simp only [onSameLine] at h4'
          simp [removeConflictingHighlights, highlightLoop, rectLoop, innerLoop, qAt, removeAt,
            h1, h2, h3, h4, h4']
      · simp [removeConflictingHighlights, highlightLoop, rectLoop, innerLoop, qAt, removeAt,
          h1, h2, h3]

/-- The highlight set after `createHighlightFromCurrentSelection` is the set left
by `removeConflictingHighlights` followed by the new highlight. -/
theorem createHighlight_highlights (dangling : DanglingRead) (s : PageItem)
    (highlights : List Highlight) (highlight : Highlight)
    (h : removeConflictingHighlights dangling s.m_highlights
      ⟨highlightColor s.highlightCounter, s.bufferedSelectionRects⟩ = .ok (highlights, highlight)) :
    ∃ s', createHighlightFromCurrentSelection dangling s = .ok s' ∧
      s'.m_highlights = highlights ++ [highlight] := by
  simp only [createHighlightFromCurrentSelection, removeSelection]
  rw [h]
  exact ⟨_, rfl, rfl⟩

/-- C2, the run at its witness: the selection `(10,0,20,20)` lies inside the
existing rect `(0,0,100,20)`; the commit leaves the existing highlight as it was
and appends a highlight whose rect list is empty. -/
theorem engulfed_appends_empty_highlight :
    createHighlightFromCurrentSelection staleValue engulfedItem =
      .ok { initialItem with
              m_highlights := [lineHighlight, ⟨⟨0, 255, 0, 125⟩, []⟩],
              highlightCounter := 2 } := by
  decide!

/-- C6, runs at failing inputs.  First run (the reference keeps its value after
the removal): the existing highlight has the rects `(0,0,100,20)` and
`(0,0,200,20)`, which both contain the second rect `(10,0,20,20)` of the
selection; the first rect `(0,40,50,20)` of the selection is contained in
neither and is removed all the same.  Second run (the reference yields the
element that moved to its index): the existing highlight covers the lines
`y = 30` and `y = 60`, the selection runs over three lines, and its first rect
`(50,0,50,20)`, which no existing rect contains, is removed.  In both runs the
highlight appended has no rects. -/
theorem uncontained_rect_removed :
    ((⟨0, 0, 100, 20⟩ : QRectF).contains ⟨0, 40, 50, 20⟩ = false ∧
     (⟨0, 0, 200, 20⟩ : QRectF).contains ⟨0, 40, 50, 20⟩ = false ∧
     commitSelections staleValue initialItem
        [[⟨0, 0, 100, 20⟩, ⟨0, 0, 200, 20⟩], [⟨0, 40, 50, 20⟩, ⟨10, 0, 20, 20⟩]] =
      .ok { initialItem with
              m_highlights := [⟨⟨255, 0, 0, 125⟩, [⟨0, 0, 100, 20⟩, ⟨0, 0, 200, 20⟩]⟩,
                               ⟨⟨0, 255, 0, 125⟩, []⟩],
              highlightCounter := 2 }) ∧
    ((⟨0, 30, 100, 20⟩ : QRectF).contains ⟨50, 0, 50, 20⟩ = false ∧
     (⟨0, 60, 100, 20⟩ : QRectF).contains ⟨50, 0, 50, 20⟩ = false ∧
     commitSelections shiftedValue initialItem
        [[⟨0, 30, 100, 20⟩, ⟨0, 60, 100, 20⟩],
         [⟨50, 0, 50, 20⟩, ⟨0, 30, 90, 20⟩, ⟨0, 60, 40, 20⟩]] =
      .ok { initialItem with
              m_highlights := [⟨⟨255, 0, 0, 125⟩, [⟨0, 30, 100, 20⟩, ⟨0, 60, 100, 20⟩]⟩,
                               ⟨⟨0, 255, 0, 125⟩, []⟩],
              highlightCounter := 2 }) := by
  decide!

/-- Counterexample to C10 as stated: the release position `(3/4, 5)` lies inside
the buffered rect `(1/2, 0, 10, 10)`, yet the right-button release changes
nothing (the handler tests the truncated point `(0, 5)`). -/
theorem secondary_release_tests_truncated_point :
    (∃ rect ∈ fractionalItem.bufferedSelectionRects, rect.containsPoint ⟨3/4, 5⟩ = true) ∧
    mouseReleaseEvent samplePage staleValue fractionalItem ⟨MouseButton.RightButton, ⟨3/4, 5⟩⟩ =
      .ok fractionalItem ∧
    fractionalItem.bufferedSelectionRects ≠ [] := by
  refine ⟨⟨⟨1/2, 0, 10, 10⟩, by decide!, by decide!⟩, by decide!, by decide!⟩

/-- Counterexample to C1 as stated: from the empty set, committing
`(0,0,100,20)` and then `(0,10,100,20)` leaves two highlights whose rects
intersect. -/
theorem stacked_lines_overlap :
    commitSelections staleValue initialItem [[⟨0, 0, 100, 20⟩], [⟨0, 10, 100, 20⟩]] =
      .ok { initialItem with
              m_highlights := [⟨⟨255, 0, 0, 125⟩, [⟨0, 0, 100, 20⟩]⟩,
                               ⟨⟨0, 255, 0, 125⟩, [⟨0, 10, 100, 20⟩]⟩],
              highlightCounter := 2 } ∧
    (⟨0, 0, 100, 20⟩ : QRectF).intersects ⟨0, 10, 100, 20⟩ = true := by
  decide!

/-! ### The index loops compute the recursive form -/

theorem map_eq_ok {α β : Type} (f : α → β) (x : Except Fault α) (b : β) :
    x.map f = .ok b ↔ ∃ a, x = .ok a ∧ f a = b := by
  cases x <;> simp [Except.map]

theorem bind_eq_ok {α β : Type} (f : α → Except Fault β) (x : Except Fault α) (b : β) :
    x.bind f = .ok b ↔ ∃ a, x = .ok a ∧ f a = .ok b := by
  cases x <;> simp [Except.bind]

theorem qAt_natCast {α : Type} (l : List α) (k : ℕ) (h : k < l.length) :
    qAt l (k : ℤ) = .ok l[k] := by
  simp [qAt, h]

theorem removeAt_natCast {α : Type} (l : List α) (k : ℕ) (h : k < l.length) :
    removeAt l (k : ℤ) = .ok (l.eraseIdx k) := by
  simp [removeAt, h]

theorem innerScan_alive (dangling : DanglingRead) (slot : ℕ) (post : List QRectF) :
    ∀ (todo pre : List QRectF) (alive : Bool) (rect : QRectF)
      (out : List QRectF × List QRectF × Bool),
      innerScan dangling slot post todo pre alive rect = .ok out →
      out.2.2 = true → alive = true ∧ out.2.1 = pre := by
  intro todo
  induction todo with
  | nil =>
    intro pre alive rect out h ha
    simp only [innerScan, Except.ok.injEq] at h
    subst h
    exact ⟨ha, rfl⟩
  | cons e todo ih =>
    intro pre alive rect out h ha
    simp only [innerScan] at h
    by_cases h1 : rect.contains e = true
    · rw [if_pos h1] at h
      exact ih _ _ _ _ h ha
    · rw [if_neg h1] at h
      by_cases h2 : e.contains rect = true
      · rw [if_pos h2] at h
        cases alive with
        | true =>
          rw [if_pos rfl] at h
          obtain ⟨a, ha1, rfl⟩ := (map_eq_ok _ _ _).1 h
          exact absurd (ih _ _ _ _ ha1 ha).1 (by simp)
        | false =>
          rw [if_neg (by simp)] at h
          by_cases h3 : pre = []
          · rw [if_pos h3] at h
            cases h
          · rw [if_neg h3] at h
            obtain ⟨a, ha1, rfl⟩ := (map_eq_ok _ _ _).1 h
            exact absurd (ih _ _ _ _ ha1 ha).1 (by simp)
      · rw [if_neg h2] at h
        obtain ⟨a, ha1, rfl⟩ := (map_eq_ok _ _ _).1 h
        exact ih _ _ _ a ha1 ha

theorem take_eraseIdx_self {α : Type} (l : List α) (k : ℕ) (h : k ≤ l.length) :
    (l.eraseIdx k).take k = l.take k := by
  rw [List.eraseIdx_eq_take_drop_succ, List.take_append_of_le_length (by simp [h])]
  simp

theorem drop_eraseIdx_self {α : Type} (l : List α) (k : ℕ) (h : k ≤ l.length) :
    (l.eraseIdx k).drop k = l.drop (k + 1) := by
  rw [List.eraseIdx_eq_take_drop_succ]
  have : (List.take k l).length = k := by simp [h]
  rw [List.drop_append_eq_append_drop, this]
  simp [List.drop_eq_nil_of_le, this]

theorem take_set_succ {α : Type} (l : List α) (k : ℕ) (a : α) (h : k < l.length) :
    (l.set k a).take (k + 1) = l.take k ++ [a] := by
  have hlen : (List.take k l).length = k := by simp [h.le]
  rw [List.set_eq_take_append_cons_drop, if_pos h, List.take_append_eq_append_take, hlen]
  simp [List.take_of_length_le, hlen]

theorem drop_set_succ {α : Type} (l : List α) (k : ℕ) (a : α) :
    (l.set k a).drop (k + 1) = l.drop (k + 1) := by
  rw [List.drop_set, if_pos (by omega)]

theorem take_succ_getElem {α : Type} (l : List α) (k : ℕ) (h : k < l.length) :
    l.take (k + 1) = l.take k ++ [l[k]] := by
  rw [List.take_succ]
  simp [h]

theorem eraseIdx_append_cons {α : Type} (pre post : List α) (a : α) :
    (pre ++ a :: post).eraseIdx pre.length = pre ++ post := by
  simp [List.eraseIdx_append_of_length_le]

theorem eraseIdx_dropLast {α : Type} (pre post : List α) (h : pre ≠ []) :
    (pre ++ post).eraseIdx (pre.length - 1) = pre.dropLast ++ post := by
  have hlen : 0 < pre.length := List.length_pos.mpr h
  rw [List.eraseIdx_append_of_lt_length (by omega)]
  congr 1
  rw [List.eraseIdx_eq_take_drop_succ, List.dropLast_eq_take]
  have : pre.length - 1 + 1 = pre.length := by omega
  rw [this]; simp

theorem map_map_ok {α β γ : Type} (f : α → β) (g : β → γ) (x : Except Fault α) :
    (x.map f).map g = x.map (fun a => g (f a)) := by
  cases x <;> rfl

theorem map_congr_ok {α β : Type} (f g : α → β) (x : Except Fault α)
    (h : ∀ a, x = .ok a → f a = g a) : x.map f = x.map g := by
  cases x with
  | error e => rfl
  | ok a => simp [Except.map, h a rfl]

theorem dead_out_eq (existing : List QRectF) (k : ℕ) (hlt : k < existing.length)
    (a : List QRectF × List QRectF × Bool) (rect' rect : QRectF) (post : List QRectF)
    (hdead : a.2.2 = false) :
    (List.take (k + 1) existing ++ a.1, joinRects a.2.1 a.2.2 rect' post, indexOf a.2.1 a.2.2) =
      (List.take k existing ++ existing[k] :: a.1, joinRects a.2.1 a.2.2 rect post,
        indexOf a.2.1 a.2.2) := by
  refine Prod.ext ?_ (Prod.ext ?_ rfl)
  · show List.take (k + 1) existing ++ a.1 = List.take k existing ++ existing[k] :: a.1
    rw [take_succ_getElem _ _ hlt, List.append_assoc]; rfl
  · show joinRects a.2.1 a.2.2 _ post = joinRects a.2.1 a.2.2 rect post
    rw [hdead]; rfl

theorem innerLoop_eq_innerScan (dangling : DanglingRead) (slot : ℕ) (post : List QRectF) :
    ∀ (fuel : ℕ) (existing pre : List QRectF) (alive : Bool) (rect : QRectF) (k : ℕ),
      k ≤ existing.length → existing.length - k < fuel →
      innerLoop dangling slot fuel existing (joinRects pre alive rect post) (indexOf pre alive)
          rect (k : ℤ) =
        (innerScan dangling slot post (existing.drop k) pre alive rect).map
          (fun out => (existing.take k ++ out.1, joinRects out.2.1 out.2.2 rect post,
            indexOf out.2.1 out.2.2)) := by
  intro fuel
  induction fuel with
  | zero => intro existing pre alive rect k _ h; omega
  | succ fuel ih =>
    intro existing pre alive rect k hk hfuel
    rcases Nat.lt_or_ge k existing.length with hlt | hge
    · have hdrop : existing.drop k = existing[k] :: existing.drop (k + 1) :=
        List.drop_eq_getElem_cons hlt
      rw [hdrop]
      simp only [innerLoop, innerScan]
      rw [if_pos (by exact_mod_cast hlt), qAt_natCast _ _ hlt]
      simp only
      by_cases h1 : rect.contains existing[k] = true
      · rw [if_pos h1, if_pos h1, removeAt_natCast _ _ hlt]
        simp only
        have hlen : (existing.eraseIdx k).length = existing.length - 1 := by
          rw [List.length_eraseIdx, if_pos hlt]
        have := ih (existing.eraseIdx k) pre alive rect k (by omega) (by omega)
        rw [show ((k : ℤ) - 1 + 1) = (k : ℤ) by ring, this, take_eraseIdx_self _ _ hk,
          drop_eraseIdx_self _ _ hk]
      · rw [if_neg h1, if_neg h1]
        by_cases h2 : existing[k].contains rect = true
        · rw [if_pos h2, if_pos h2]
          cases alive with
          | true =>
            have hrem : removeAt (joinRects pre true rect post) (indexOf pre true) =
                .ok (joinRects pre false rect post) := by
              simp only [joinRects, indexOf, if_true]
              rw [removeAt_natCast _ _ (by simp), eraseIdx_append_cons]
              simp
            rw [hrem, if_pos rfl]
            simp only
            have := ih existing pre false
              (dangling slot (joinRects pre true rect post) (indexOf pre true) rect) (k + 1)
              (by omega) (by omega)
            have hidx : indexOf pre true - 1 = indexOf pre false := by simp [indexOf]
            rw [hidx]
            rw [Nat.cast_succ] at this
            rw [show joinRects pre false rect post = joinRects pre false
              (dangling slot (joinRects pre true rect post) (indexOf pre true) rect) post from rfl,
              this, map_map_ok]
            apply map_congr_ok
            intro a ha
            have hdead : a.2.2 = false := by
              by_contra hc
              have := (innerScan_alive _ _ _ _ _ _ _ _ ha (by simpa using hc)).1
              simp at this
            exact dead_out_eq existing k hlt a _ rect post hdead
          | false =>
            by_cases h3 : pre = []
            · subst h3
              simp [removeAt, joinRects, indexOf, Except.map]
            · have hpos : 0 < pre.length := List.length_pos.mpr h3
              have hrem : removeAt (joinRects pre false rect post) (indexOf pre false) =
                  .ok (joinRects pre.dropLast false rect post) := by
                simp only [joinRects, indexOf, Bool.false_eq_true, if_false]
                rw [show ((pre.length : ℤ) - 1) = ((pre.length - 1 : ℕ) : ℤ) by omega,
                  removeAt_natCast _ _ (by simp; omega), eraseIdx_dropLast _ _ h3]
              rw [hrem, if_neg (by simp), if_neg h3]
              simp only
              have := ih existing pre.dropLast false
                (dangling slot (joinRects pre false rect post) (indexOf pre false) rect) (k + 1)
                (by omega) (by omega)
              have hidx : indexOf pre false - 1 = indexOf pre.dropLast false := by
                simp [indexOf]; omega
              rw [hidx]
              rw [Nat.cast_succ] at this
              rw [show joinRects pre.dropLast false rect post = joinRects pre.dropLast false
                (dangling slot (joinRects pre false rect post) (indexOf pre false) rect) post
                from rfl, this, map_map_ok]
              apply map_congr_ok
              intro a ha
              have hdead : a.2.2 = false := by
                by_contra hc
                have := (innerScan_alive _ _ _ _ _ _ _ _ ha (by simpa using hc)).1
                simp at this
              exact dead_out_eq existing k hlt a _ rect post hdead
        · rw [if_neg h2, if_neg h2]
          have hstep : ∀ (ex' : List QRectF), ex'.length = existing.length →
              ex'.take (k + 1) = existing.take k ++ [settle rect existing[k]] →
              ex'.drop (k + 1) = existing.drop (k + 1) →
              innerLoop dangling slot fuel ex' (joinRects pre alive rect post) (indexOf pre alive)
                  rect ((k : ℤ) + 1) =
                (innerScan dangling slot post (existing.drop (k + 1)) pre alive rect).map
                  (fun out => (existing.take k ++ settle rect existing[k] :: out.1,
                    joinRects out.2.1 out.2.2 rect post, indexOf out.2.1 out.2.2)) := by
            intro ex' hl ht hd
            have := ih ex' pre alive rect (k + 1) (by omega) (by omega)
            rw [Nat.cast_succ] at this
            rw [this, ht, hd]
            simp
          rw [map_map_ok]
          by_cases h3 : rect.intersects existing[k] = true
          · rw [if_pos h3]
            by_cases h4 : onSameLine rect existing[k] = true
            · have h4' := h4
              simp only [onSameLine] at h4'
              simp only [h4', if_true, Int.toNat_ofNat]
              have hs : settle rect existing[k] = shrinkRectangle rect existing[k] := by
                simp [settle, h3, h4]
              rw [hstep _ (by simp) (by rw [take_set_succ _ _ _ hlt, hs]) (drop_set_succ _ _ _)]
            · have h4' := h4
              simp only [onSameLine] at h4'
              simp only [h4', Bool.false_eq_true, if_false]
              have hs : settle rect existing[k] = existing[k] := by
                simp [settle, h3, h4]
              rw [hstep _ rfl (by rw [take_succ_getElem _ _ hlt, hs]) rfl]
          · rw [if_neg h3]
            have hs : settle rect existing[k] = existing[k] := by
              simp [settle, h3]
            rw [hstep _ rfl (by rw [take_succ_getElem _ _ hlt, hs]) rfl]
    · have hk' : k = existing.length := le_antisymm hk hge
      subst hk'
      simp [innerLoop, innerScan, Except.map]


theorem rectLoop_eq_rectScan (dangling : DanglingRead) :
    ∀ (fuel : ℕ) (existing pre post : List QRectF), post.length < fuel →
      rectLoop dangling fuel existing (pre ++ post) (pre.length : ℤ) =
        rectScan dangling existing pre post := by
  intro fuel
  induction fuel with
  | zero => intro existing pre post h; omega
  | succ fuel ih =>
    intro existing pre post hfuel
    cases post with
    | nil => simp [rectLoop, rectScan]
    | cons rect post =>
      simp only [rectLoop, rectScan]
      have hlt : pre.length < (pre ++ rect :: post).length := by simp
      have hget : (pre ++ rect :: post)[pre.length] = rect :=
        List.getElem_append_right (le_refl _) |>.trans (by simp)
      rw [if_pos (by exact_mod_cast hlt), qAt_natCast _ _ hlt]
      simp only [hget, Int.toNat_ofNat]
      have hinner := innerLoop_eq_innerScan dangling pre.length post (existing.length + 1)
        existing pre true rect 0 (by omega) (by omega)
      have hj : joinRects pre true rect post = pre ++ rect :: post := by simp [joinRects]
      have hi : indexOf pre true = (pre.length : ℤ) := by simp [indexOf]
      rw [hj, hi] at hinner
      rw [show ((0 : ℕ) : ℤ) = 0 from rfl] at hinner
      rw [hinner]
      cases hscan : innerScan dangling pre.length post (List.drop 0 existing) pre true rect with
      | error e =>
        rw [List.drop_zero] at hscan
        simp [Except.map, Except.bind, hscan]
      | ok out =>
        rw [List.drop_zero] at hscan
        simp only [Except.map, Except.bind, hscan, List.take_zero, List.nil_append]
        cases halive : out.2.2 with
        | true =>
          have := ih out.1 (out.2.1 ++ [rect]) post (by simpa using hfuel)
          simp only [joinRects, indexOf, if_true]
          rw [← this]
          simp
        | false =>
          have := ih out.1 out.2.1 post (by simpa using hfuel)
          simp only [joinRects, indexOf, Bool.false_eq_true, if_false]
          rw [← this]
          simp


theorem eraseIdx_set_self {α : Type} (l : List α) (k : ℕ) (a : α) :
    (l.set k a).eraseIdx k = l.eraseIdx k := by
  induction l generalizing k with
  | nil => simp
  | cons x l ih =>
    cases k with
    | zero => simp
    | succ k => simp [ih]

theorem highlightLoop_eq_highlightScan (dangling : DanglingRead) :
    ∀ (fuel : ℕ) (highlights : List Highlight) (rects : List QRectF) (k : ℕ),
      k ≤ highlights.length → highlights.length - k < fuel →
      highlightLoop dangling fuel highlights rects (k : ℤ) =
        (highlightScan dangling (highlights.drop k) rects).map
          (fun out => (highlights.take k ++ out.1, out.2)) := by
  intro fuel
  induction fuel with
  | zero => intro highlights rects k _ h; omega
  | succ fuel ih =>
    intro highlights rects k hk hfuel
    rcases Nat.lt_or_ge k highlights.length with hlt | hge
    · have hdrop : highlights.drop k = highlights[k] :: highlights.drop (k + 1) :=
        List.drop_eq_getElem_cons hlt
      rw [hdrop]
      simp only [highlightLoop, highlightScan]
      rw [if_pos (by exact_mod_cast hlt), qAt_natCast _ _ hlt]
      simp only
      have hrect := rectLoop_eq_rectScan dangling (rects.length + 1) highlights[k].rects []
        rects (by omega)
      simp only [List.nil_append, List.length_nil, Nat.cast_zero] at hrect
      rw [hrect]
      cases hscan : rectScan dangling highlights[k].rects [] rects with
      | error e => simp [Except.map, Except.bind]
      | ok out =>
        simp only [Except.bind, Int.toNat_ofNat]
        by_cases hempty : out.1.isEmpty = true
        · rw [if_pos hempty, removeAt_natCast _ _ (by simpa using hlt), eraseIdx_set_self]
          simp only
          have hlen : (highlights.eraseIdx k).length = highlights.length - 1 := by
            rw [List.length_eraseIdx, if_pos hlt]
          have := ih (highlights.eraseIdx k) out.2 k (by omega) (by omega)
          rw [show ((k : ℤ) - 1 + 1) = (k : ℤ) by ring, this, take_eraseIdx_self _ _ hk,
            drop_eraseIdx_self _ _ hk, map_map_ok]
          simp [hempty]
        · rw [if_neg hempty]
          have := ih (highlights.set k { highlights[k] with rects := out.1 }) out.2 (k + 1)
            (by simpa using hlt) (by simp; omega)
          rw [Nat.cast_succ] at this
          rw [this, take_set_succ _ _ _ hlt, drop_set_succ, map_map_ok]
          simp [hempty]
    · have hk' : k = highlights.length := le_antisymm hk hge
      subst hk'
      simp [highlightLoop, highlightScan, Except.map]

/-- The index loops of `removeConflictingHighlights` compute the recursive form. -/
theorem removeConflictingHighlights_eq (dangling : DanglingRead) (highlights : List Highlight)
    (highlight : Highlight) :
    removeConflictingHighlights dangling highlights highlight =
      (highlightScan dangling highlights highlight.rects).map
        (fun out => (out.1, { highlight with rects := out.2 })) := by
  have := highlightLoop_eq_highlightScan dangling (highlights.length + 1) highlights
    highlight.rects 0 (by omega) (by omega)
  simp only [Nat.cast_zero, List.drop_zero, List.take_zero, List.nil_append] at this
  simp only [removeConflictingHighlights, this]
  cases highlightScan dangling highlights highlight.rects <;> rfl


/-! ### One commit -/

theorem createHighlight_ok (dangling : DanglingRead) (s s' : PageItem)
    (h : createHighlightFromCurrentSelection dangling s = .ok s') :
    ∃ out, highlightScan dangling s.m_highlights s.bufferedSelectionRects = .ok out ∧
      s'.m_highlights =
        out.1 ++ [⟨highlightColor s.highlightCounter, out.2⟩] := by
  simp only [createHighlightFromCurrentSelection, removeSelection,
    removeConflictingHighlights_eq] at h
  cases hscan : highlightScan dangling s.m_highlights s.bufferedSelectionRects with
  | error e => simp [hscan, Except.map] at h
  | ok out =>
    simp only [hscan, Except.map, Except.ok.injEq] at h
    subst h
    exact ⟨out, rfl, rfl⟩

/-! ### A single new rect that no existing rect contains -/

theorem innerScan_survive (dangling : DanglingRead) (slot : ℕ) (post : List QRectF)
    (rect : QRectF) :
    ∀ (todo pre : List QRectF),
      (∀ a ∈ todo, a.contains rect = true → rect.contains a = true) →
      innerScan dangling slot post todo pre true rect =
        .ok (todo.filterMap (survive rect), pre, true) := by
  intro todo
  induction todo with
  | nil => intro pre _; rfl
  | cons e todo ih =>
    intro pre h
    have h' : ∀ a ∈ todo, a.contains rect = true → rect.contains a = true :=
      fun a ha => h a (List.mem_cons_of_mem _ ha)
    simp only [innerScan]
    by_cases h1 : rect.contains e = true
    · rw [if_pos h1, ih pre h']
      simp [survive, h1]
    · have h2 : ¬ e.contains rect = true := fun hc => h1 (h e (List.mem_cons_self _ _) hc)
      rw [if_neg h1, if_neg h2, ih pre h']
      simp [survive, h1, Except.map]

theorem rectScan_single (dangling : DanglingRead) (existing : List QRectF) (rect : QRectF)
    (h : ∀ a ∈ existing, a.contains rect = true → rect.contains a = true) :
    rectScan dangling existing [] [rect] = .ok (existing.filterMap (survive rect), [rect]) := by
  simp only [rectScan, innerScan_survive dangling 0 [] rect existing [] h, List.length_nil,
    Except.bind]
  simp

theorem highlightScan_single (dangling : DanglingRead) (rect : QRectF) :
    ∀ (highlights : List Highlight),
      (∀ A ∈ highlights, ∀ a ∈ A.rects, a.contains rect = true → rect.contains a = true) →
      highlightScan dangling highlights [rect] =
        .ok (highlights.filterMap (surviveHighlight rect), [rect]) := by
  intro highlights
  induction highlights with
  | nil => intro _; rfl
  | cons E todo ih =>
    intro h
    have h' := ih (fun A hA => h A (List.mem_cons_of_mem _ hA))
    simp only [highlightScan, rectScan_single dangling E.rects rect (h E (List.mem_cons_self _ _)),
      Except.bind, h', Except.map]
    by_cases hemp : (E.rects.filterMap (survive rect)).isEmpty = true
    · simp [surviveHighlight, hemp]
    · simp [surviveHighlight, hemp]


/-! ### The fuel is enough -/

theorem map_eq_error {α β : Type} (f : α → β) (x : Except Fault α) (e : Fault) :
    x.map f = .error e ↔ x = .error e := by
  cases x <;> simp [Except.map]

theorem bind_eq_error {α β : Type} (f : α → Except Fault β) (x : Except Fault α) (e : Fault) :
    x.bind f = .error e ↔ x = .error e ∨ ∃ a, x = .ok a ∧ f a = .error e := by
  cases x <;> simp [Except.bind]

theorem innerScan_fault (dangling : DanglingRead) (slot : ℕ) (post : List QRectF) :
    ∀ (todo pre : List QRectF) (alive : Bool) (rect : QRectF) (f : Fault),
      innerScan dangling slot post todo pre alive rect = .error f → f = .indexOutOfRange := by
  intro todo
  induction todo with
  | nil => intro pre alive rect f h; cases h
  | cons e todo ih =>
    intro pre alive rect f h
    simp only [innerScan] at h
    by_cases h1 : rect.contains e = true
    · rw [if_pos h1] at h
      exact ih _ _ _ _ h
    · rw [if_neg h1] at h
      by_cases h2 : e.contains rect = true
      · rw [if_pos h2] at h
        cases alive with
        | true =>
          rw [if_pos rfl, map_eq_error] at h
          exact ih _ _ _ _ h
        | false =>
          rw [if_neg (by simp)] at h
          by_cases h3 : pre = []
          · rw [if_pos h3] at h
            cases h
            rfl
          · rw [if_neg h3, map_eq_error] at h
            exact ih _ _ _ _ h
      · rw [if_neg h2, map_eq_error] at h
        exact ih _ _ _ _ h

theorem rectScan_fault (dangling : DanglingRead) :
    ∀ (post existing pre : List QRectF) (f : Fault),
      rectScan dangling existing pre post = .error f → f = .indexOutOfRange := by
  intro post
  induction post with
  | nil => intro existing pre f h; cases h
  | cons rect post ih =>
    intro existing pre f h
    simp only [rectScan] at h
    rcases (bind_eq_error _ _ _).1 h with h | ⟨a, -, h⟩
    · exact innerScan_fault _ _ _ _ _ _ _ _ h
    · exact ih _ _ _ h

theorem highlightScan_fault (dangling : DanglingRead) :
    ∀ (highlights : List Highlight) (rects : List QRectF) (f : Fault),
      highlightScan dangling highlights rects = .error f → f = .indexOutOfRange := by
  intro highlights
  induction highlights with
  | nil => intro rects f h; cases h
  | cons E todo ih =>
    intro rects f h
    simp only [highlightScan] at h
    rcases (bind_eq_error _ _ _).1 h with h | ⟨a, -, h⟩
    · exact rectScan_fault _ _ _ _ _ h
    · rw [map_eq_error] at h
      exact ih _ _ h

/-- The function `removeConflictingHighlights` never runs out of fuel: it stops without a
result only on a `QList` index out of range. -/
theorem removeConflictingHighlights_fault (dangling : DanglingRead)
    (highlights : List Highlight) (highlight : Highlight) (f : Fault)
    (h : removeConflictingHighlights dangling highlights highlight = .error f) :
    f = .indexOutOfRange := by
  rw [removeConflictingHighlights_eq, map_eq_error] at h
  exact highlightScan_fault _ _ _ _ h

/-- A run of commits stops without a result only on a `QList` index out of
range. -/
theorem commitSelections_fault (dangling : DanglingRead) :
    ∀ (selections : List (List QRectF)) (s : PageItem) (f : Fault),
      commitSelections dangling s selections = .error f → f = .indexOutOfRange := by
  intro selections
  induction selections with
  | nil => intro s f h; cases h
  | cons sel rest ih =>
    intro s f h
    simp only [commitSelections] at h
    cases hc : createHighlightFromCurrentSelection dangling
        { s with bufferedSelectionRects := sel } with
    | error e =>
      simp only [hc, Except.error.injEq] at h
      subst h
      simp only [createHighlightFromCurrentSelection] at hc
      cases hr : removeConflictingHighlights dangling
          (removeSelection { s with bufferedSelectionRects := sel }).m_highlights
          ⟨highlightColor (removeSelection { s with bufferedSelectionRects := sel }).highlightCounter,
            sel⟩ with
      | error e' =>
        simp only [removeSelection] at hr
        simp only [removeSelection, hr, Except.error.injEq] at hc
        subst hc
        exact removeConflictingHighlights_fault _ _ _ _ hr
      | ok out =>
        simp only [removeSelection] at hr
        simp [removeSelection, hr] at hc
    | ok s1 =>
      simp only [hc] at h
      exact ih _ _ h


/-! ### Engulf -/

theorem nonOverlapping_of_ne {highlights : List Highlight} (hno : NonOverlapping highlights)
    {A B : Highlight} (hA : A ∈ highlights) (hB : B ∈ highlights) (hne : A ≠ B) :
    ∀ a ∈ A.rects, ∀ b ∈ B.rects, a.intersects b = false := by
  have hsymm : Symmetric (fun A B : Highlight =>
      ∀ a ∈ A.rects, ∀ b ∈ B.rects, a.intersects b = false) := by
    intro X Y h b hb a ha
    rw [QRectF.intersects_comm]
    exact h a ha b hb
  exact List.Pairwise.forall hsymm hno hA hB hne

/-- An existing rect `a` that the new rect `r` intersects but does not contain is
not shrunk to a rect that `r` contains and that is disjoint from `a`. -/
theorem intersects_shrinkRectangle (r a : QRectF) (hr : r.OfDoubles) (ha : a.OfDoubles)
    (hi : r.intersects a = true) (hn : r.contains a = false)
    (hc : r.contains (shrinkRectangle r a) = true) :
    a.intersects (shrinkRectangle r a) = true := by
  obtain ⟨i1, i2, i3, i4, i5, i6, i7, i8⟩ := (QRectF.intersects_iff r a).1 hi
  obtain ⟨c1, c2, c3, c4, c5, c6, c7, c8⟩ := (QRectF.contains_iff r _).1 hc
  obtain ⟨hy, hh⟩ := shrinkRectangle_vertical r a
  have ht : (shrinkRectangle r a).t1 = a.t1 := by simp only [QRectF.t1, hy, hh]
  have hb : (shrinkRectangle r a).b1 = a.b1 := by simp only [QRectF.b1, hy, hh]
  rw [ht] at c6 c7
  rw [hb] at c6 c8
  have hout : a.l1 < r.l1 ∨ r.r1 < a.r1 := by
    by_contra hcon
    simp only [not_or, not_lt] at hcon
    rw [Bool.eq_false_iff] at hn
    exact hn ((QRectF.contains_iff r a).2 ⟨i1, i2, hcon.1, hcon.2, i5, i6, c7, c8⟩)
  obtain ⟨o1, o2⟩ := shrinkRectangle_overlaps r a hr.1 ha.1 ha.2.2.1 i2 i4 i3 hout c2 c3 c4
  have hab := lt_of_le_of_ne (QRectF.t1_le_b1 a ha.2.1) i6
  rw [QRectF.intersects_iff, ht, hb]
  exact ⟨i2, c2, o1, o2, i6, i6, hab, hab⟩

/-- C3: engulf.  In a highlight set in which no two rects of different
highlights intersect, let `E` be a highlight whose only rect is `e`, and let the
selection be the single rect `r` with `r.contains(e)`.  After the commit the set
is `kept ++ [N]`: its last highlight is the new one with rect list exactly
`[r]`, and `E` is not among the highlights `kept` before it.  The coordinates
are doubles (`hd`, `hr`); widths and heights may have either sign. -/
theorem engulf (dangling : DanglingRead) (s : PageItem) (E : Highlight) (e r : QRectF)
    (hno : NonOverlapping s.m_highlights) (hE : E ∈ s.m_highlights) (hEr : E.rects = [e])
    (hN : s.bufferedSelectionRects = [r]) (hc : r.contains e = true)
    (hd : ∀ A ∈ s.m_highlights, ∀ a ∈ A.rects, a.OfDoubles) (hr : r.OfDoubles) :
    ∃ s' kept, createHighlightFromCurrentSelection dangling s = .ok s' ∧
      s'.m_highlights = kept ++ [⟨highlightColor s.highlightCounter, [r]⟩] ∧
      E ∉ kept := by
  have hed : e.OfDoubles := hd E hE e (by rw [hEr]; exact List.mem_singleton_self e)
  have hcond : ∀ A ∈ s.m_highlights, ∀ a ∈ A.rects,
      a.contains r = true → r.contains a = true := by
    intro A hA a ha hac
    by_cases hAE : A = E
    · subst hAE
      rw [hEr, List.mem_singleton] at ha
      rw [ha]; exact hc
    · have := nonOverlapping_of_ne hno hA hE hAE a ha e (by rw [hEr]; exact List.mem_singleton_self e)
      rw [intersects_of_contains_contains hed hac hc] at this
      cases this
  have hscan := highlightScan_single dangling r s.m_highlights hcond
  have hrun : removeConflictingHighlights dangling s.m_highlights
      ⟨highlightColor s.highlightCounter, s.bufferedSelectionRects⟩ =
      .ok (s.m_highlights.filterMap (surviveHighlight r),
        ⟨highlightColor s.highlightCounter, [r]⟩) := by
    rw [removeConflictingHighlights_eq, hN]
    simp only [hscan, Except.map]
  obtain ⟨s', hs', hset⟩ := createHighlight_highlights dangling s _ _ hrun
  refine ⟨s', _, hs', hset, ?_⟩
  intro hmem
  obtain ⟨A, hA, hgA⟩ := List.mem_filterMap.1 hmem
  simp only [surviveHighlight] at hgA
  split_ifs at hgA with hemp
  simp only [Option.some.injEq] at hgA
  have hrects : A.rects.filterMap (survive r) = [e] := by
    rw [← hEr, ← hgA]
  have hmem_e : e ∈ A.rects.filterMap (survive r) := by
    rw [hrects]; exact List.mem_singleton_self e
  obtain ⟨a, ha, hsa⟩ := List.mem_filterMap.1 hmem_e
  simp only [survive] at hsa
  split_ifs at hsa with hra
  simp only [Option.some.injEq] at hsa
  by_cases hAE : A = E
  · subst hAE
    rw [hEr, List.mem_singleton] at ha
    subst ha
    exact hra hc
  · have hdis := nonOverlapping_of_ne hno hA hE hAE a ha e
      (by rw [hEr]; exact List.mem_singleton_self e)
    simp only [settle] at hsa
    split_ifs at hsa with hsh
    · simp only [Bool.and_eq_true] at hsh
      have := intersects_shrinkRectangle r a hr (hd A hA a ha) hsh.1
        (by simpa using hra) (by rw [hsa]; exact hc)
      rw [hsa, hdis] at this
      cases this
    · rw [hsa, intersects_self_of_contains hed hc] at hdis
      cases hdis

/-- Witness of C3: the selection `(0,0,150,20)` contains `(0,0,100,20)`, the
only rect of the first highlight. -/
theorem engulf_witness :
    NonOverlapping engulfItem.m_highlights ∧
    (⟨0, 0, 150, 20⟩ : QRectF).contains ⟨0, 0, 100, 20⟩ = true ∧
    ∃ s' kept, createHighlightFromCurrentSelection staleValue engulfItem = .ok s' ∧
      s'.m_highlights = kept ++ [⟨highlightColor engulfItem.highlightCounter, [⟨0, 0, 150, 20⟩]⟩] ∧
      lineHighlight ∉ kept :=
  have hno : NonOverlapping engulfItem.m_highlights := by unfold NonOverlapping; decide!
  ⟨hno, by decide!,
    engulf staleValue engulfItem lineHighlight ⟨0, 0, 100, 20⟩ ⟨0, 0, 150, 20⟩ hno
      (by decide!) rfl rfl (by decide!) (by decide!) (by decide!)⟩

/-- The run of the witness of C3 in numbers. -/
theorem engulf_run :
    createHighlightFromCurrentSelection staleValue engulfItem =
      .ok { initialItem with
              m_highlights := [⟨⟨0, 255, 0, 125⟩, [⟨0, 30, 100, 20⟩]⟩,
                               ⟨⟨255, 0, 0, 125⟩, [⟨0, 0, 150, 20⟩]⟩],
              highlightCounter := 3 } := by
  decide!

/-- Witness of C10 as amended: a right-button release at `(20, 15)` inside the
buffered rect `(10,10,50,20)` commits it. -/
theorem secondary_release_witness :
    (∃ rect ∈ afterDrag.bufferedSelectionRects,
      rect.containsPoint (mousePoint ⟨MouseButton.RightButton, ⟨20, 15⟩⟩).toPointF = true) ∧
    mouseReleaseEvent samplePage staleValue afterDrag ⟨MouseButton.RightButton, ⟨20, 15⟩⟩ =
      .ok { initialItem with
              m_highlights := [⟨⟨255, 0, 0, 125⟩, [⟨10, 10, 50, 20⟩]⟩],
              highlightCounter := 1 } :=
  have hin : ∃ rect ∈ afterDrag.bufferedSelectionRects,
      rect.containsPoint (mousePoint ⟨MouseButton.RightButton, ⟨20, 15⟩⟩).toPointF = true :=
    ⟨⟨10, 10, 50, 20⟩, by decide!, by decide!⟩
  ⟨hin, ((secondary_release samplePage staleValue afterDrag ⟨20, 15⟩).1 hin).trans (by decide!)⟩

/-! ### The operations on grid rects -/

namespace QRectF

theorem Exact.dyadic_w {k : ℕ} {r : QRectF} (h : r.Exact k) : Dyadic k (2 ^ 50 + 2 ^ 50) r.w := by
  have := h.2.2.1.sub h.1
  rw [add_sub_cancel_left] at this
  exact this

theorem Exact.dyadic_h {k : ℕ} {r : QRectF} (h : r.Exact k) : Dyadic k (2 ^ 50 + 2 ^ 50) r.h := by
  have := h.2.2.2.sub h.2.1
  rw [add_sub_cancel_left] at this
  exact this

theorem Exact.right_eq {k : ℕ} {r : QRectF} (h : r.Exact k) (hk : k ≤ 1074) :
    qAdd r.xp r.w = r.xp + r.w :=
  h.2.2.1.isDouble hk (by norm_num)

theorem Exact.bottom_eq {k : ℕ} {r : QRectF} (h : r.Exact k) (hk : k ≤ 1074) :
    qAdd r.yp r.h = r.yp + r.h :=
  h.2.2.2.isDouble hk (by norm_num)

theorem Exact.l1_eq {k : ℕ} {r : QRectF} (h : r.Exact k) (hk : k ≤ 1074) :
    r.l1 = if r.w < 0 then r.xp + r.w else r.xp := by
  unfold l1; rw [h.right_eq hk]

theorem Exact.r1_eq {k : ℕ} {r : QRectF} (h : r.Exact k) (hk : k ≤ 1074) :
    r.r1 = if r.w < 0 then r.xp else r.xp + r.w := by
  unfold r1; rw [h.right_eq hk]

theorem Exact.t1_eq {k : ℕ} {r : QRectF} (h : r.Exact k) (hk : k ≤ 1074) :
    r.t1 = if r.h < 0 then r.yp + r.h else r.yp := by
  unfold t1; rw [h.bottom_eq hk]

theorem Exact.b1_eq {k : ℕ} {r : QRectF} (h : r.Exact k) (hk : k ≤ 1074) :
    r.b1 = if r.h < 0 then r.yp else r.yp + r.h := by
  unfold b1; rw [h.bottom_eq hk]

theorem Exact.dyadic_l1 {k : ℕ} {r : QRectF} (h : r.Exact k) (hk : k ≤ 1074) :
    Dyadic k (2 ^ 50) r.l1 := by
  rw [h.l1_eq hk]; split_ifs
  · exact h.2.2.1
  · exact h.1

theorem Exact.dyadic_r1 {k : ℕ} {r : QRectF} (h : r.Exact k) (hk : k ≤ 1074) :
    Dyadic k (2 ^ 50) r.r1 := by
  rw [h.r1_eq hk]; split_ifs
  · exact h.1
  · exact h.2.2.1

theorem Exact.dyadic_t1 {k : ℕ} {r : QRectF} (h : r.Exact k) (hk : k ≤ 1074) :
    Dyadic k (2 ^ 50) r.t1 := by
  rw [h.t1_eq hk]; split_ifs
  · exact h.2.2.2
  · exact h.2.1

theorem Exact.dyadic_b1 {k : ℕ} {r : QRectF} (h : r.Exact k) (hk : k ≤ 1074) :
    Dyadic k (2 ^ 50) r.b1 := by
  rw [h.b1_eq hk]; split_ifs
  · exact h.2.1
  · exact h.2.2.2

theorem Exact.ofDoubles {k : ℕ} {r : QRectF} (h : r.Exact k) (hk : k ≤ 1074) : r.OfDoubles :=
  ⟨h.1.isDouble hk (by norm_num), h.2.1.isDouble hk (by norm_num),
    h.dyadic_w.isDouble hk (by norm_num), h.dyadic_h.isDouble hk (by norm_num)⟩

/-- On the grid the intersection is computed without rounding. -/
theorem Exact.intersected_eq {k : ℕ} {a r : QRectF} (ha : a.Exact k) (hr : r.Exact k)
    (hk : k ≤ 1074) (h : a.intersects r = true) :
    a.intersected r =
      { xp := max a.l1 r.l1, yp := max a.t1 r.t1,
        w := min a.r1 r.r1 - max a.l1 r.l1, h := min a.b1 r.b1 - max a.t1 r.t1 } := by
  rw [intersected_of_intersects h]
  rw [qSub_exact ((ha.dyadic_r1 hk).min (hr.dyadic_r1 hk)) ((ha.dyadic_l1 hk).max (hr.dyadic_l1 hk))
      hk (by norm_num),
    qSub_exact ((ha.dyadic_b1 hk).min (hr.dyadic_b1 hk)) ((ha.dyadic_t1 hk).max (hr.dyadic_t1 hk))
      hk (by norm_num)]

end QRectF

/-- On the grid `shrinkRectangle` computes without rounding: the width of the
intersection is taken off the width, on the right when `existingRect` starts
left of `newRect`, else on the left. -/
theorem shrinkRectangle_exact {k : ℕ} {newRect existingRect : QRectF} (hn : newRect.Exact k)
    (he : existingRect.Exact k) (hk : k ≤ 1074)
    (hi : existingRect.intersects newRect = true) :
    shrinkRectangle newRect existingRect =
      if existingRect.xp < newRect.xp then
        ⟨existingRect.xp, existingRect.yp,
          existingRect.w - (min existingRect.r1 newRect.r1 - max existingRect.l1 newRect.l1),
          existingRect.h⟩
      else
        ⟨existingRect.xp + (min existingRect.r1 newRect.r1 - max existingRect.l1 newRect.l1),
          existingRect.yp,
          existingRect.w - (min existingRect.r1 newRect.r1 - max existingRect.l1 newRect.l1),
          existingRect.h⟩ := by
  have hiw : Dyadic k (2 ^ 50 + 2 ^ 50)
      (min existingRect.r1 newRect.r1 - max existingRect.l1 newRect.l1) :=
    ((he.dyadic_r1 hk).min (hn.dyadic_r1 hk)).sub ((he.dyadic_l1 hk).max (hn.dyadic_l1 hk))
  have hx : qSub existingRect.xp newRect.xp = existingRect.xp - newRect.xp :=
    qSub_exact he.1 hn.1 hk (by norm_num)
  have hpos := qAdd_exact he.1 hiw hk (by norm_num)
  have hposd := he.1.add hiw
  have hdiff : qSub (existingRect.xp +
        (min existingRect.r1 newRect.r1 - max existingRect.l1 newRect.l1)) existingRect.xp =
      min existingRect.r1 newRect.r1 - max existingRect.l1 newRect.l1 := by
    rw [qSub_exact hposd he.1 hk (by norm_num)]; ring
  have hw := qSub_exact he.dyadic_w hiw hk (by norm_num)
  simp only [shrinkRectangle, QRectF.Exact.intersected_eq he hn hk hi, QRectF.x, QRectF.width,
    QRectF.setWidth, QRectF.setX, hx, hpos, hdiff, hw, sub_neg]

/-- On the grid the same-line test compares the exact heights. -/
theorem onSameLine_exact {k : ℕ} {rect existingRect : QRectF} (hr : rect.Exact k)
    (he : existingRect.Exact k) (hk : k ≤ 1074) (hi : rect.intersects existingRect = true) :
    onSameLine rect existingRect =
      (min rect.b1 existingRect.b1 - max rect.t1 existingRect.t1 ==
        (if rect.h ≤ existingRect.h then rect else existingRect).h) := by
  simp only [onSameLine, QRectF.Exact.intersected_eq hr he hk hi, QRectF.height]

/-! ### Partial overlap on one line -/

/-- C4, as amended: partial overlap on the same line, for rects on a grid on
which the double arithmetic is exact (`QRectF.Exact`: corners that are multiples
of `2 ^ (-k)`, at most `2 ^ 50` steps from zero).  The set holds one highlight
with the single rect `e`, the selection is the single rect `r`; `e` and `r` have
the same `y` and the same positive height, their horizontal extents
`[x, right]` overlap in a segment of positive length and neither rect contains
the other.  After the commit the set is `[E', N]` with `N.rects = [r]` and
`E'.rects = [e']`, where `e'` is `(e.x, e.y, r.x - e.x, e.height)` when
`e.x < r.x` and `(r.right, e.y, e.right - r.right, e.height)` otherwise. -/
theorem partial_overlap_same_line (dangling : DanglingRead) (s : PageItem) (c : QColor)
    (e r : QRectF) (k : ℕ)
    (hS : s.m_highlights = [⟨c, [e]⟩]) (hN : s.bufferedSelectionRects = [r])
    (hy : e.y = r.y) (hh : e.height = r.height) (hpos : 0 < e.height)
    (hov : max e.x r.x < min e.right r.right)
    (hre : r.contains e = false) (her : e.contains r = false)
    (hk : k ≤ 1074) (hex : e.Exact k) (hrx : r.Exact k) :
    ∃ s', createHighlightFromCurrentSelection dangling s = .ok s' ∧
      s'.m_highlights =
        [⟨c, [if e.x < r.x then ⟨e.x, e.y, r.x - e.x, e.height⟩
              else ⟨r.right, e.y, e.right - r.right, e.height⟩]⟩,
         ⟨highlightColor s.highlightCounter, [r]⟩] := by
  have e1 := hex.right_eq hk
  have e2 := hrx.right_eq hk
  have e3 := hex.bottom_eq hk
  have e4 := hrx.bottom_eq hk
  obtain ⟨ex, ey, ew, eh⟩ := e
  obtain ⟨rx, ry, rw, rh⟩ := r
  simp only [QRectF.x, QRectF.y, QRectF.height, QRectF.right] at hy hh hpos hov e1 e2 e3 e4 ⊢
  subst hy hh
  rw [e1, e2] at hov
  rw [e1, e2]
  have hew : 0 < ew := by
    have h1 := le_max_left ex rx
    have h2 := min_le_left (ex + ew) (rx + rw)
    linarith
  have hrw : 0 < rw := by
    have h1 := le_max_right ex rx
    have h2 := min_le_right (ex + ew) (rx + rw)
    linarith
  have hx1 : ex < rx + rw := lt_of_le_of_lt (le_max_left _ _) (lt_of_lt_of_le hov (min_le_right _ _))
  have hx2 : rx < ex + ew := lt_of_le_of_lt (le_max_right _ _) (lt_of_lt_of_le hov (min_le_left _ _))
  have hre' := hre
  have her' := her
  rw [Bool.eq_false_iff, Ne, QRectF.contains_iff] at hre' her'
  simp only [QRectF.l1, QRectF.r1, QRectF.t1, QRectF.b1, not_lt.mpr hew.le, not_lt.mpr hrw.le,
    not_lt.mpr hpos.le, if_false, e1, e2, e3] at hre' her'
  have hint : QRectF.intersects ⟨rx, ey, rw, eh⟩ ⟨ex, ey, ew, eh⟩ = true := by
    rw [QRectF.intersects_iff]
    simp only [QRectF.l1, QRectF.r1, QRectF.t1, QRectF.b1, not_lt.mpr hew.le, not_lt.mpr hrw.le,
      not_lt.mpr hpos.le, if_false, e1, e2, e3]
    refine ⟨by linarith, by linarith, hx2, hx1, by linarith, by linarith, by linarith, by linarith⟩
  have hint' : QRectF.intersects ⟨ex, ey, ew, eh⟩ ⟨rx, ey, rw, eh⟩ = true := by
    rw [QRectF.intersects_comm]; exact hint
  have hline : onSameLine ⟨rx, ey, rw, eh⟩ ⟨ex, ey, ew, eh⟩ = true := by
    rw [onSameLine_exact hrx hex hk hint]
    simp only [QRectF.l1, QRectF.r1, QRectF.t1, QRectF.b1, not_lt.mpr hew.le, not_lt.mpr hrw.le,
      not_lt.mpr hpos.le, if_false, e1, e2, e3]
    simp
  have hshrink : shrinkRectangle ⟨rx, ey, rw, eh⟩ ⟨ex, ey, ew, eh⟩ =
      if ex < rx then ⟨ex, ey, rx - ex, eh⟩ else ⟨rx + rw, ey, ex + ew - (rx + rw), eh⟩ := by
    rw [shrinkRectangle_exact hrx hex hk hint']
    simp only [QRectF.l1, QRectF.r1, QRectF.t1, QRectF.b1, not_lt.mpr hew.le, not_lt.mpr hrw.le,
      not_lt.mpr hpos.le, if_false, e1, e2, e3]
    by_cases hlt : ex < rx
    · have h3 : ex + ew < rx + rw := by
        by_contra hcon
        exact her' ⟨by linarith, by linarith, hlt.le, by linarith, by linarith, by linarith,
          le_refl _, le_refl _⟩
      rw [if_pos hlt, if_pos hlt, max_eq_right hlt.le, min_eq_left h3.le]
      congr 1; ring
    · have hge : rx ≤ ex := not_lt.mp hlt
      have h3 : rx + rw < ex + ew := by
        by_contra hcon
        exact hre' ⟨by linarith, by linarith, hge, by linarith, by linarith, by linarith,
          le_refl _, le_refl _⟩
      rw [if_neg hlt, if_neg hlt, max_eq_left hge, min_eq_right h3.le]
      congr 1 <;> ring
  have hrun := removeConflictingHighlights_single dangling c (highlightColor s.highlightCounter)
    ⟨ex, ey, ew, eh⟩ ⟨rx, ey, rw, eh⟩
  rw [hre, her, hint, hline, hshrink] at hrun
  simp only [Bool.false_eq_true, if_false, Bool.and_self, if_true] at hrun
  have := createHighlight_highlights dangling s _ _ (by rw [hS, hN]; exact hrun)
  simpa using this

/-- Witness of C4 as amended: `e = (0,0,100,20)` and `r = (50,0,100,20)`. -/
theorem partial_overlap_same_line_witness :
    ∃ s', createHighlightFromCurrentSelection staleValue overlapItem = .ok s' ∧
      s'.m_highlights =
        [⟨⟨255, 0, 0, 125⟩,
          [if (⟨0, 0, 100, 20⟩ : QRectF).x < (⟨50, 0, 100, 20⟩ : QRectF).x then
              ⟨(⟨0, 0, 100, 20⟩ : QRectF).x, (⟨0, 0, 100, 20⟩ : QRectF).y,
                (⟨50, 0, 100, 20⟩ : QRectF).x - (⟨0, 0, 100, 20⟩ : QRectF).x,
                (⟨0, 0, 100, 20⟩ : QRectF).height⟩
            else
              ⟨(⟨50, 0, 100, 20⟩ : QRectF).right, (⟨0, 0, 100, 20⟩ : QRectF).y,
                (⟨0, 0, 100, 20⟩ : QRectF).right - (⟨50, 0, 100, 20⟩ : QRectF).right,
                (⟨0, 0, 100, 20⟩ : QRectF).height⟩]⟩,
         ⟨highlightColor overlapItem.highlightCounter, [⟨50, 0, 100, 20⟩]⟩] :=
  partial_overlap_same_line staleValue overlapItem ⟨255, 0, 0, 125⟩ ⟨0, 0, 100, 20⟩
    ⟨50, 0, 100, 20⟩ 0 rfl rfl (by decide!) (by decide!) (by decide!) (by decide!) (by decide!)
    (by decide!) (by decide) (by decide!) (by decide!)

/-- The run of the witness of C4 in numbers: the existing rect becomes
`(0,0,50,20)` and the new rect `(50,0,100,20)` is appended unchanged. -/
theorem partial_overlap_same_line_run :
    createHighlightFromCurrentSelection staleValue overlapItem =
      .ok { initialItem with
              m_highlights := [⟨⟨255, 0, 0, 125⟩, [⟨0, 0, 50, 20⟩]⟩,
                               ⟨⟨0, 255, 0, 125⟩, [⟨50, 0, 100, 20⟩]⟩],
              highlightCounter := 2 } := by
  decide!

/-! ### Shrinking and intersection on the grid -/

theorem within_refl (a : QRectF) (h : 0 ≤ a.w) : Within a a :=
  ⟨rfl, rfl, h, le_refl _, le_refl _⟩

theorem within_trans {a b c : QRectF} (h1 : Within a b) (h2 : Within b c) : Within a c := by
  obtain ⟨h11, h12, h13, h14, h15⟩ := h1
  obtain ⟨h21, h22, h23, h24, h25⟩ := h2
  exact ⟨h11.trans h21, h12.trans h22, h13, by linarith, by linarith⟩

theorem Dyadic.between {k N M : ℕ} {q a b : ℚ} (hq : Dyadic k N q) (ha : Dyadic k M a)
    (hb : Dyadic k M b) (h1 : a ≤ q) (h2 : q ≤ b) : Dyadic k M q := by
  refine ⟨hq.1, ?_⟩
  have hp : (0 : ℚ) < 2 ^ k := by positivity
  have h3 := mul_le_mul_of_nonneg_right h1 hp.le
  have h4 := mul_le_mul_of_nonneg_right h2 hp.le
  have h5 := abs_le.1 ha.2
  have h6 := abs_le.1 hb.2
  exact abs_le.2 ⟨by linarith, by linarith⟩

theorem within_l1_r1 {k : ℕ} {a b : QRectF} (h : Within a b) (ha : a.Exact k) (hb : b.Exact k)
    (hk : k ≤ 1074) :
    a.l1 = a.xp ∧ a.r1 = a.xp + a.w ∧ b.l1 = b.xp ∧ b.r1 = b.xp + b.w ∧
    a.t1 = b.t1 ∧ a.b1 = b.b1 := by
  obtain ⟨h1, h2, h3, h4, h5⟩ := h
  have hbw : 0 ≤ b.w := by linarith
  refine ⟨?_, ?_, ?_, ?_, ?_, ?_⟩
  · rw [ha.l1_eq hk, if_neg (not_lt.mpr h3)]
  · rw [ha.r1_eq hk, if_neg (not_lt.mpr h3)]
  · rw [hb.l1_eq hk, if_neg (not_lt.mpr hbw)]
  · rw [hb.r1_eq hk, if_neg (not_lt.mpr hbw)]
  · simp only [QRectF.t1, h1, h2]
  · simp only [QRectF.b1, h1, h2]

theorem intersects_of_within {k : ℕ} {a b c : QRectF} (h : Within a b) (ha : a.Exact k)
    (hb : b.Exact k) (hk : k ≤ 1074) (hi : a.intersects c = true) :
    b.intersects c = true := by
  obtain ⟨e1, e2, e3, e4, e5, e6⟩ := within_l1_r1 h ha hb hk
  obtain ⟨h1, h2, h3, h4, h5⟩ := h
  rw [QRectF.intersects_iff] at hi ⊢
  obtain ⟨i1, i2, i3, i4, i5, i6, i7, i8⟩ := hi
  rw [e1, e2] at i1
  rw [e1] at i3
  rw [e2] at i4
  rw [e5, e6] at i5
  rw [e5] at i7
  rw [e6] at i8
  rw [e3, e4]
  have hw : 0 < a.w := by
    rcases lt_or_eq_of_le h3 with h | h
    · exact h
    · exact absurd (by rw [← h]; ring) i1
  refine ⟨by intro hc; linarith, i2, by linarith, by linarith, i5, i6, i7, i8⟩

theorem not_intersects_of_within {k : ℕ} {a b c : QRectF} (h : Within a b) (ha : a.Exact k)
    (hb : b.Exact k) (hk : k ≤ 1074) (hi : b.intersects c = false) :
    a.intersects c = false := by
  rw [Bool.eq_false_iff] at hi ⊢
  exact fun hc => hi (intersects_of_within h ha hb hk hc)

theorem intersects_of_within_right {k : ℕ} {a b c : QRectF} (h : Within a b) (ha : a.Exact k)
    (hb : b.Exact k) (hk : k ≤ 1074) (hi : c.intersects a = true) :
    c.intersects b = true := by
  rw [QRectF.intersects_comm] at hi ⊢
  exact intersects_of_within h ha hb hk hi

/-- On the grid, for `e` of non-negative width: the width of the intersection
with `v`, as `shrinkRectangle` uses it, lies between 0 and the width of `e`. -/
theorem intersection_width_bounds {k : ℕ} (v e : QRectF) (hv : v.Exact k) (he : e.Exact k)
    (hk : k ≤ 1074) (hw : 0 ≤ e.w) (hi : v.intersects e = true) :
    0 ≤ min e.r1 v.r1 - max e.l1 v.l1 ∧ min e.r1 v.r1 - max e.l1 v.l1 ≤ e.w := by
  have hi' : e.intersects v = true := by rw [QRectF.intersects_comm]; exact hi
  obtain ⟨i1, i2, i3, i4, -⟩ := (QRectF.intersects_iff e v).1 hi'
  have hl : e.l1 = e.xp := by rw [he.l1_eq hk, if_neg (not_lt.mpr hw)]
  have hr : e.r1 = e.xp + e.w := by rw [he.r1_eq hk, if_neg (not_lt.mpr hw)]
  have hvv := QRectF.l1_le_r1 v (hv.ofDoubles hk).1
  rw [hl] at i3
  rw [hr] at i4
  rw [hl, hr]
  constructor
  · simp only [sub_nonneg, le_min_iff, max_le_iff]
    exact ⟨⟨by linarith, by linarith⟩, by linarith, hvv⟩
  · have := min_le_left (e.xp + e.w) v.r1
    have := le_max_left e.xp v.l1
    linarith

theorem within_shrinkRectangle {k : ℕ} (v e : QRectF) (hv : v.Exact k) (he : e.Exact k)
    (hk : k ≤ 1074) (hw : 0 ≤ e.w) (hi : v.intersects e = true) :
    Within (shrinkRectangle v e) e := by
  have hi' : e.intersects v = true := by rw [QRectF.intersects_comm]; exact hi
  obtain ⟨hiw1, hiw2⟩ := intersection_width_bounds v e hv he hk hw hi
  rw [shrinkRectangle_exact hv he hk hi']
  unfold Within
  split_ifs <;> refine ⟨rfl, rfl, ?_, ?_, ?_⟩ <;> simp only <;> linarith

/-- On the grid the rect that `shrinkRectangle` returns is on the grid again. -/
theorem exact_shrinkRectangle {k : ℕ} (v e : QRectF) (hv : v.Exact k) (he : e.Exact k)
    (hk : k ≤ 1074) (hw : 0 ≤ e.w) (hi : v.intersects e = true) :
    (shrinkRectangle v e).Exact k := by
  have hi' : e.intersects v = true := by rw [QRectF.intersects_comm]; exact hi
  obtain ⟨h1, h2, h3, h4, h5⟩ := within_shrinkRectangle v e hv he hk hw hi
  have hiw : Dyadic k (2 ^ 50 + 2 ^ 50) (min e.r1 v.r1 - max e.l1 v.l1) :=
    ((he.dyadic_r1 hk).min (hv.dyadic_r1 hk)).sub ((he.dyadic_l1 hk).max (hv.dyadic_l1 hk))
  have hx : ∃ N, Dyadic k N (shrinkRectangle v e).xp ∧
      Dyadic k N ((shrinkRectangle v e).xp + (shrinkRectangle v e).w) := by
    rw [shrinkRectangle_exact hv he hk hi']
    split_ifs
    · refine ⟨2 ^ 50 + (2 ^ 50 + 2 ^ 50), he.1.mono (by norm_num), ?_⟩
      have := he.2.2.1.sub hiw
      simp only
      rw [show e.xp + (e.w - (min e.r1 v.r1 - max e.l1 v.l1)) =
        e.xp + e.w - (min e.r1 v.r1 - max e.l1 v.l1) by ring]
      exact this
    · refine ⟨2 ^ 50 + (2 ^ 50 + 2 ^ 50), he.1.add hiw, ?_⟩
      simp only
      rw [show e.xp + (min e.r1 v.r1 - max e.l1 v.l1) +
        (e.w - (min e.r1 v.r1 - max e.l1 v.l1)) = e.xp + e.w by ring]
      exact he.2.2.1.mono (by norm_num)
  obtain ⟨N, hx1, hx2⟩ := hx
  refine ⟨hx1.between he.1 he.2.2.1 h4 (by linarith), ?_,
    hx2.between he.1 he.2.2.1 (by linarith) h5, ?_⟩
  · rw [h1]; exact he.2.1
  · rw [h1, h2]; exact he.2.2.2

theorem within_settle {k : ℕ} (v e : QRectF) (hv : v.Exact k) (he : e.Exact k)
    (hk : k ≤ 1074) (hw : 0 ≤ e.w) : Within (settle v e) e := by
  unfold settle
  split_ifs with h
  · simp only [Bool.and_eq_true] at h
    exact within_shrinkRectangle v e hv he hk hw h.1
  · exact within_refl e hw

theorem exact_settle {k : ℕ} (v e : QRectF) (hv : v.Exact k) (he : e.Exact k)
    (hk : k ≤ 1074) (hw : 0 ≤ e.w) : (settle v e).Exact k := by
  unfold settle
  split_ifs with h
  · simp only [Bool.and_eq_true] at h
    exact exact_shrinkRectangle v e hv he hk hw h.1
  · exact he

theorem shrinkRectangle_same_line {k : ℕ} (ex rx y ew rw h : ℚ) (hk : k ≤ 1074)
    (he : QRectF.Exact k ⟨ex, y, ew, h⟩) (hr : QRectF.Exact k ⟨rx, y, rw, h⟩)
    (hew : 0 < ew) (hrw : 0 < rw)
    (hpos : 0 < h) (hx1 : ex < rx + rw) (hx2 : rx < ex + ew)
    (hre : QRectF.contains ⟨rx, y, rw, h⟩ ⟨ex, y, ew, h⟩ = false)
    (her : QRectF.contains ⟨ex, y, ew, h⟩ ⟨rx, y, rw, h⟩ = false) :
    shrinkRectangle ⟨rx, y, rw, h⟩ ⟨ex, y, ew, h⟩ =
      (if ex < rx then ⟨ex, y, rx - ex, h⟩ else ⟨rx + rw, y, ex + ew - (rx + rw), h⟩) ∧
    (ex < rx ∨ rx + rw < ex + ew) := by
  have e1 := he.right_eq hk
  have e2 := hr.right_eq hk
  have e3 := he.bottom_eq hk
  simp only at e1 e2 e3
  rw [Bool.eq_false_iff, Ne, QRectF.contains_iff] at hre her
  simp only [QRectF.l1, QRectF.r1, QRectF.t1, QRectF.b1, not_lt.mpr hew.le, not_lt.mpr hrw.le,
    not_lt.mpr hpos.le, if_false, e1, e2, e3] at hre her
  have hint' : QRectF.intersects ⟨ex, y, ew, h⟩ ⟨rx, y, rw, h⟩ = true := by
    rw [QRectF.intersects_iff]
    simp only [QRectF.l1, QRectF.r1, QRectF.t1, QRectF.b1, not_lt.mpr hew.le, not_lt.mpr hrw.le,
      not_lt.mpr hpos.le, if_false, e1, e2, e3]
    refine ⟨by linarith, by linarith, hx1, hx2, by linarith, by linarith, by linarith, by linarith⟩
  rw [shrinkRectangle_exact hr he hk hint']
  simp only [QRectF.l1, QRectF.r1, QRectF.t1, QRectF.b1, not_lt.mpr hew.le, not_lt.mpr hrw.le,
    not_lt.mpr hpos.le, if_false, e1, e2, e3]
  by_cases hlt : ex < rx
  · have h3 : ex + ew < rx + rw := by
      by_contra hcon
      exact her ⟨by linarith, by linarith, hlt.le, by linarith, by linarith, by linarith,
        le_refl _, le_refl _⟩
    rw [if_pos hlt, if_pos hlt, max_eq_right hlt.le, min_eq_left h3.le]
    refine ⟨?_, Or.inl hlt⟩
    congr 1; ring
  · have hge : rx ≤ ex := not_lt.mp hlt
    have h3 : rx + rw < ex + ew := by
      by_contra hcon
      exact hre ⟨by linarith, by linarith, hge, by linarith, by linarith, by linarith,
        le_refl _, le_refl _⟩
    rw [if_neg hlt, if_neg hlt, max_eq_left hge, min_eq_right h3.le]
    refine ⟨?_, Or.inr h3⟩
    congr 1 <;> ring

theorem settle_disjoint {k : ℕ} (r e : QRectF) (hk : k ≤ 1074) (hrx : r.Exact k)
    (hex : e.Exact k) (hr : r.isValid = true) (hw : 0 ≤ e.w)
    (hline : r.intersects e = true → r.y = e.y ∧ r.height = e.height)
    (h1 : r.contains e = false) (h2 : e.contains r = false) :
    (settle r e).intersects r = false := by
  by_cases hi : r.intersects e = true
  · obtain ⟨hy, hh⟩ := hline hi
    have hsx := exact_settle r e hrx hex hk hw
    have e1 := hex.right_eq hk
    have e2 := hrx.right_eq hk
    have e3 := hrx.bottom_eq hk
    obtain ⟨ex, ey, ew, eh⟩ := e
    obtain ⟨rx, ry, rw, rh⟩ := r
    simp only [QRectF.y, QRectF.height] at hy hh
    subst hy hh
    simp only [QRectF.isValid, Bool.and_eq_true, decide_eq_true_eq] at hr
    obtain ⟨hrw, hpos⟩ := hr
    simp only at hw e1 e2 e3
    have hi0 := (QRectF.intersects_iff _ _).1 hi
    simp only [QRectF.l1, QRectF.r1, QRectF.t1, QRectF.b1, not_lt.mpr hw, not_lt.mpr hrw.le,
      not_lt.mpr hpos.le, if_false, e1, e2, e3] at hi0
    obtain ⟨-, i2, i3, i4, -⟩ := hi0
    have hew : 0 < ew := by
      rcases lt_or_eq_of_le hw with h | h
      · exact h
      · exact absurd (by rw [← h]; ring) i2
    have hline' : onSameLine ⟨rx, ry, rw, rh⟩ ⟨ex, ry, ew, rh⟩ = true := by
      rw [onSameLine_exact hrx hex hk hi]
      simp only [QRectF.l1, QRectF.r1, QRectF.t1, QRectF.b1, not_lt.mpr hew.le,
        not_lt.mpr hrw.le, not_lt.mpr hpos.le, if_false, e1, e2, e3]
      simp
    have hs : settle ⟨rx, ry, rw, rh⟩ ⟨ex, ry, ew, rh⟩ =
        shrinkRectangle ⟨rx, ry, rw, rh⟩ ⟨ex, ry, ew, rh⟩ := by
      simp [settle, hi, hline']
    obtain ⟨hshr, hside⟩ :=
      shrinkRectangle_same_line ex rx ry ew rw rh hk hex hrx hew hrw hpos i4 i3 h1 h2
    rw [hs, hshr] at hsx
    rw [hs, hshr, Bool.eq_false_iff, Ne, QRectF.intersects_iff]
    by_cases hlt : ex < rx
    · rw [if_pos hlt] at hsx ⊢
      have e4 := hsx.right_eq hk
      simp only at e4
      simp only [QRectF.l1, QRectF.r1, not_lt.mpr hrw.le, not_lt.mpr (sub_pos.mpr hlt).le,
        if_false, e2, e4]
      rintro ⟨-, -, -, h, -⟩
      linarith
    · rw [if_neg hlt] at hsx ⊢
      have e4 := hsx.right_eq hk
      simp only at e4
      have h3 : rx + rw < ex + ew := hside.resolve_left hlt
      have h4 : ¬ (ex + ew - (rx + rw) < 0) := by linarith
      simp only [QRectF.l1, QRectF.r1, not_lt.mpr hrw.le, h4, if_false, e2, e4]
      rintro ⟨-, -, h, -⟩
      linarith
  · have hs : settle r e = e := by simp [settle, hi]
    rw [hs, QRectF.intersects_comm]
    simpa using hi

theorem joinRects_exact {k : ℕ} {pre post : List QRectF} {rect : QRectF} (alive : Bool)
    (hpre : ∀ x ∈ pre, x.Exact k) (hrect : rect.Exact k) (hpost : ∀ x ∈ post, x.Exact k) :
    ∀ x ∈ joinRects pre alive rect post, x.Exact k := by
  intro x hx
  unfold joinRects at hx
  rcases List.mem_append.1 hx with h | h
  · exact hpre x h
  · cases alive with
    | true =>
      simp only [if_true, List.mem_cons] at h
      rcases h with h | h
      · rw [h]; exact hrect
      · exact hpost x h
    | false =>
      simp only [Bool.false_eq_true, if_false] at h
      exact hpost x h

theorem dangling_exact {k : ℕ} {dangling : DanglingRead} (hd : ReadsOldValues dangling)
    (slot : ℕ) (before : List QRectF) (removed : ℤ) (seen : QRectF)
    (hb : ∀ x ∈ before, x.Exact k) (hs : seen.Exact k) :
    (dangling slot before removed seen).Exact k := by
  rcases hd slot before removed seen with h | h
  · rw [h]; exact hs
  · exact hb _ h

/-! ### What the scans preserve -/

theorem innerScan_spec (dangling : DanglingRead) (hd : ReadsOldValues dangling) (k : ℕ)
    (hk : k ≤ 1074) (slot : ℕ) (post : List QRectF) (hpost : ∀ x ∈ post, x.Exact k) :
    ∀ (todo pre : List QRectF) (alive : Bool) (rect : QRectF)
      (out : List QRectF × List QRectF × Bool),
      innerScan dangling slot post todo pre alive rect = .ok out →
      (∀ e ∈ todo, 0 ≤ e.w ∧ e.Exact k) → (∀ x ∈ pre, x.Exact k) → rect.Exact k →
      (∀ e' ∈ out.1, ∃ e ∈ todo, Within e' e) ∧
      (∀ e' ∈ out.1, e'.Exact k) ∧
      (∀ x ∈ out.2.1, x ∈ pre) ∧
      (out.2.2 = true → rect.isValid = true →
        (∀ e ∈ todo, rect.intersects e = true → rect.y = e.y ∧ rect.height = e.height) →
        ∀ e' ∈ out.1, e'.intersects rect = false) := by
  intro todo
  induction todo with
  | nil =>
    intro pre alive rect out h _ _ _
    simp only [innerScan, Except.ok.injEq] at h
    subst h
    simp
  | cons e todo ih =>
    intro pre alive rect out h hw hpre hrect
    have hw' : ∀ e ∈ todo, 0 ≤ e.w ∧ e.Exact k := fun x hx => hw x (List.mem_cons_of_mem _ hx)
    obtain ⟨hwe, hee⟩ := hw e (List.mem_cons_self _ _)
    simp only [innerScan] at h
    by_cases h1 : rect.contains e = true
    · rw [if_pos h1] at h
      obtain ⟨i1, iE, i2, i3⟩ := ih _ _ _ _ h hw' hpre hrect
      refine ⟨?_, iE, i2, ?_⟩
      · intro e' he'
        obtain ⟨e0, h0, h0'⟩ := i1 e' he'
        exact ⟨e0, List.mem_cons_of_mem _ h0, h0'⟩
      · intro ha hv hl
        exact i3 ha hv (fun x hx => hl x (List.mem_cons_of_mem _ hx))
    · rw [if_neg h1] at h
      by_cases h2 : e.contains rect = true
      · rw [if_pos h2] at h
        have key : ∀ (pre0 : List QRectF) (rect0 : QRectF),
            (∀ x ∈ pre0, x ∈ pre) → rect0.Exact k →
            (innerScan dangling slot post todo pre0 false rect0).map
              (fun out => (e :: out.1, out.2)) = .ok out →
            (∀ e' ∈ out.1, ∃ e0 ∈ e :: todo, Within e' e0) ∧
            (∀ e' ∈ out.1, e'.Exact k) ∧
            (∀ x ∈ out.2.1, x ∈ pre) ∧ out.2.2 = false := by
          intro pre0 rect0 hsub hr0 hmap
          obtain ⟨a, ha1, rfl⟩ := (map_eq_ok _ _ _).1 hmap
          obtain ⟨i1, iE, i2, -⟩ := ih _ _ _ _ ha1 hw' (fun x hx => hpre x (hsub x hx)) hr0
          refine ⟨?_, ?_, fun x hx => hsub x (i2 x hx), ?_⟩
          · intro e' he'
            rcases List.mem_cons.1 he' with rfl | he'
            · exact ⟨e', List.mem_cons_self _ _, within_refl _ hwe⟩
            · obtain ⟨e0, h0, h0'⟩ := i1 e' he'
              exact ⟨e0, List.mem_cons_of_mem _ h0, h0'⟩
          · intro e' he'
            rcases List.mem_cons.1 he' with rfl | he'
            · exact hee
            · exact iE e' he'
          · by_contra hc
            have := (innerScan_alive _ _ _ _ _ _ _ _ ha1 (by simpa using hc)).1
            simp at this
        cases alive with
        | true =>
          rw [if_pos rfl] at h
          obtain ⟨k1, kE, k2, k3⟩ := key _ _ (fun x hx => hx)
            (dangling_exact hd _ _ _ _ (joinRects_exact true hpre hrect hpost) hrect) h
          exact ⟨k1, kE, k2, fun ha => absurd ha (by simp [k3])⟩
        | false =>
          rw [if_neg (by simp)] at h
          by_cases h3 : pre = []
          · rw [if_pos h3] at h
            cases h
          · rw [if_neg h3] at h
            obtain ⟨k1, kE, k2, k3⟩ := key _ _ (fun x hx => List.dropLast_subset _ hx)
              (dangling_exact hd _ _ _ _ (joinRects_exact false hpre hrect hpost) hrect) h
            exact ⟨k1, kE, k2, fun ha => absurd ha (by simp [k3])⟩
      · rw [if_neg h2] at h
        obtain ⟨a, ha1, rfl⟩ := (map_eq_ok _ _ _).1 h
        obtain ⟨i1, iE, i2, i3⟩ := ih _ _ _ a ha1 hw' hpre hrect
        refine ⟨?_, ?_, i2, ?_⟩
        · intro e' he'
          rcases List.mem_cons.1 he' with rfl | he'
          · exact ⟨e, List.mem_cons_self _ _, within_settle _ _ hrect hee hk hwe⟩
          · obtain ⟨e0, h0, h0'⟩ := i1 e' he'
            exact ⟨e0, List.mem_cons_of_mem _ h0, h0'⟩
        · intro e' he'
          rcases List.mem_cons.1 he' with rfl | he'
          · exact exact_settle _ _ hrect hee hk hwe
          · exact iE e' he'
        · intro ha hv hl e' he'
          rcases List.mem_cons.1 he' with rfl | he'
          · exact settle_disjoint rect e hk hrect hee hv hwe (hl e (List.mem_cons_self _ _))
              (by simpa using h1) (by simpa using h2)
          · exact i3 ha hv (fun x hx => hl x (List.mem_cons_of_mem _ hx)) e' he'

theorem rectScan_spec (dangling : DanglingRead) (hd : ReadsOldValues dangling) (k : ℕ)
    (hk : k ≤ 1074) :
    ∀ (post existing pre : List QRectF) (out : List QRectF × List QRectF),
      rectScan dangling existing pre post = .ok out →
      (∀ e ∈ existing, 0 ≤ e.w ∧ e.Exact k) → (∀ x ∈ pre, x.Exact k) →
      (∀ x ∈ post, x.Exact k) →
      (∀ e' ∈ out.1, ∃ e ∈ existing, Within e' e) ∧
      (∀ e' ∈ out.1, 0 ≤ e'.w ∧ e'.Exact k) ∧
      (∀ x ∈ out.2, x ∈ pre ∨ x ∈ post) ∧
      ((∀ p ∈ pre, ∀ e ∈ existing, e.intersects p = false) →
        (∀ r ∈ post, r.isValid = true) →
        (∀ r ∈ post, ∀ e ∈ existing,
          r.intersects e = true → r.y = e.y ∧ r.height = e.height) →
        ∀ r ∈ out.2, ∀ e' ∈ out.1, e'.intersects r = false) := by
  intro post
  induction post with
  | nil =>
    intro existing pre out h hw _ _
    simp only [rectScan, Except.ok.injEq] at h
    subst h
    refine ⟨fun e' he' => ⟨e', he', within_refl _ (hw e' he').1⟩, hw, fun x hx => Or.inl hx, ?_⟩
    intro hp _ _ r hr e' he'
    exact hp r hr e' he'
  | cons rect post ih =>
    intro existing pre out h hw hpre hpost
    have hrect : rect.Exact k := hpost rect (List.mem_cons_self _ _)
    have hpost' : ∀ x ∈ post, x.Exact k := fun x hx => hpost x (List.mem_cons_of_mem _ hx)
    simp only [rectScan] at h
    obtain ⟨a, ha, hrest⟩ := (bind_eq_ok _ _ _).1 h
    obtain ⟨i1, iE, i2, i3⟩ := innerScan_spec dangling hd k hk _ _ hpost' _ _ _ _ _ ha hw hpre hrect
    have hw1 : ∀ e ∈ a.1, 0 ≤ e.w ∧ e.Exact k := by
      intro e he
      obtain ⟨e0, -, h0⟩ := i1 e he
      exact ⟨h0.2.2.1, iE e he⟩
    have hpre1 : ∀ x ∈ (if a.2.2 = true then a.2.1 ++ [rect] else a.2.1), x.Exact k := by
      intro x hx
      by_cases hal : a.2.2 = true
      · rw [if_pos hal] at hx
        rcases List.mem_append.1 hx with hx | hx
        · exact hpre x (i2 x hx)
        · rw [List.mem_singleton] at hx
          rw [hx]; exact hrect
      · rw [if_neg hal] at hx
        exact hpre x (i2 x hx)
    obtain ⟨j1, jE, j2, j3⟩ := ih _ _ _ hrest hw1 hpre1 hpost'
    refine ⟨?_, jE, ?_, ?_⟩
    · intro e' he'
      obtain ⟨e1, h1, h1'⟩ := j1 e' he'
      obtain ⟨e0, h0, h0'⟩ := i1 e1 h1
      exact ⟨e0, h0, within_trans h1' h0'⟩
    · intro x hx
      rcases j2 x hx with hx | hx
      · by_cases hal : a.2.2 = true
        · rw [if_pos hal] at hx
          rcases List.mem_append.1 hx with hx | hx
          · exact Or.inl (i2 x hx)
          · rw [List.mem_singleton] at hx
            exact Or.inr (by rw [hx]; exact List.mem_cons_self _ _)
        · rw [if_neg hal] at hx
          exact Or.inl (i2 x hx)
      · exact Or.inr (List.mem_cons_of_mem _ hx)
    · intro hp hv hl
      apply j3
      · intro p hp' e he
        obtain ⟨e0, h0, h0'⟩ := i1 e he
        by_cases hal : a.2.2 = true
        · rw [if_pos hal] at hp'
          rcases List.mem_append.1 hp' with hp' | hp'
          · exact not_intersects_of_within h0' (iE e he) (hw e0 h0).2 hk (hp p (i2 p hp') e0 h0)
          · rw [List.mem_singleton] at hp'
            subst hp'
            exact i3 hal (hv p (List.mem_cons_self _ _))
              (fun x hx => hl p (List.mem_cons_self _ _) x hx) e he
        · rw [if_neg hal] at hp'
          exact not_intersects_of_within h0' (iE e he) (hw e0 h0).2 hk (hp p (i2 p hp') e0 h0)
      · exact fun r hr => hv r (List.mem_cons_of_mem _ hr)
      · intro r hr e he hi
        obtain ⟨e0, h0, h0'⟩ := i1 e he
        have := hl r (List.mem_cons_of_mem _ hr) e0 h0
          (intersects_of_within_right h0' (iE e he) (hw e0 h0).2 hk hi)
        simp only [QRectF.y, QRectF.height] at this ⊢
        exact ⟨this.1.trans h0'.1.symm, this.2.trans h0'.2.1.symm⟩

theorem highlightScan_spec (dangling : DanglingRead) (hd : ReadsOldValues dangling) (k : ℕ)
    (hk : k ≤ 1074) :
    ∀ (highlights : List Highlight) (rects : List QRectF)
      (out : List Highlight × List QRectF),
      highlightScan dangling highlights rects = .ok out →
      (∀ A ∈ highlights, ∀ a ∈ A.rects, 0 ≤ a.w ∧ a.Exact k) →
      (∀ x ∈ rects, x.Exact k) →
      (∀ A' ∈ out.1, ∃ A ∈ highlights, ∀ a' ∈ A'.rects,
        ∃ a ∈ A.rects, Within a' a ∧ a'.Exact k) ∧
      (NonOverlapping highlights → NonOverlapping out.1) ∧
      (∀ x ∈ out.2, x ∈ rects) ∧
      ((∀ r ∈ rects, r.isValid = true) →
        (∀ r ∈ rects, ∀ A ∈ highlights, ∀ a ∈ A.rects,
          r.intersects a = true → r.y = a.y ∧ r.height = a.height) →
        ∀ A' ∈ out.1, ∀ a' ∈ A'.rects, ∀ r ∈ out.2, a'.intersects r = false) := by
  intro highlights
  induction highlights with
  | nil =>
    intro rects out h _ _
    simp only [highlightScan, Except.ok.injEq] at h
    subst h
    simp [NonOverlapping]
  | cons E todo ih =>
    intro rects out h hw hrects
    simp only [highlightScan] at h
    obtain ⟨a, ha, hrest⟩ := (bind_eq_ok _ _ _).1 h
    obtain ⟨b, hb, rfl⟩ := (map_eq_ok _ _ _).1 hrest
    have hwE : ∀ e ∈ E.rects, 0 ≤ e.w ∧ e.Exact k := hw E (List.mem_cons_self _ _)
    have hwT : ∀ A ∈ todo, ∀ a ∈ A.rects, 0 ≤ a.w ∧ a.Exact k :=
      fun A hA => hw A (List.mem_cons_of_mem _ hA)
    obtain ⟨i1, iE, i2, i3⟩ := rectScan_spec dangling hd k hk _ _ _ _ ha hwE (by simp) hrects
    have hsub2 : ∀ x ∈ a.2, x ∈ rects := by
      intro x hx
      rcases i2 x hx with h | h
      · cases h
      · exact h
    obtain ⟨j1, j2, j3, j4⟩ := ih _ _ hb hwT (fun x hx => hrects x (hsub2 x hx))
    -- every highlight kept comes from one of the list
    have hfrom : ∀ A' ∈ (if a.1.isEmpty = true then b.1
          else { E with rects := a.1 } :: b.1),
        (A' = { E with rects := a.1 } ∨ A' ∈ b.1) := by
      intro A' hA'
      by_cases hemp : a.1.isEmpty = true
      · rw [if_pos hemp] at hA'
        exact Or.inr hA'
      · rw [if_neg hemp] at hA'
        rcases List.mem_cons.1 hA' with h | h
        · exact Or.inl h
        · exact Or.inr h
    refine ⟨?_, ?_, ?_, ?_⟩
    · intro A' hA'
      rcases hfrom A' hA' with rfl | hA'
      · refine ⟨E, List.mem_cons_self _ _, ?_⟩
        intro a' ha'
        obtain ⟨a0, h0, h0'⟩ := i1 a' ha'
        exact ⟨a0, h0, h0', (iE a' ha').2⟩
      · obtain ⟨A, hA, hA''⟩ := j1 A' hA'
        exact ⟨A, List.mem_cons_of_mem _ hA, hA''⟩
    · intro hno
      simp only [NonOverlapping, List.pairwise_cons] at hno
      obtain ⟨hE, hT⟩ := hno
      have hkept := j2 hT
      by_cases hemp : a.1.isEmpty = true
      · rw [if_pos hemp]
        exact hkept
      · rw [if_neg hemp]
        simp only [NonOverlapping, List.pairwise_cons]
        refine ⟨?_, hkept⟩
        intro B' hB' x hx y hy
        obtain ⟨B, hB, hB''⟩ := j1 B' hB'
        obtain ⟨x0, hx0, hx0'⟩ := i1 x hx
        obtain ⟨y0, hy0, hy0', hyE⟩ := hB'' y hy
        have h0 := hE B hB x0 hx0 y0 hy0
        have h1 := not_intersects_of_within hx0' (iE x hx).2 (hwE x0 hx0).2 hk h0
        rw [QRectF.intersects_comm] at h1 ⊢
        exact not_intersects_of_within hy0' hyE (hwT B hB y0 hy0).2 hk h1
    · intro x hx
      exact hsub2 x (j3 x hx)
    · intro hv hl A' hA' a' ha' r hr
      rcases hfrom A' hA' with rfl | hA'
      · refine i3 (by simp) hv (fun r hr e he => hl r hr E (List.mem_cons_self _ _) e he)
          r (j3 r hr) a' ha'
      · exact j4 (fun r hr => hv r (hsub2 r hr))
          (fun r hr A hA x hx => hl r (hsub2 r hr) A (List.mem_cons_of_mem _ hA) x hx)
          A' hA' a' ha' r hr

/-! ### Runs of commits -/

theorem commitSelections_invariant (dangling : DanglingRead) (hd : ReadsOldValues dangling)
    (k : ℕ) (hk : k ≤ 1074) :
    ∀ (selections : List (List QRectF)) (s s' : PageItem),
      commitSelections dangling s selections = .ok s' →
      NonOverlapping s.m_highlights →
      (∀ A ∈ s.m_highlights, ∀ a ∈ A.rects, 0 ≤ a.w ∧ a.Exact k) →
      (∀ A ∈ s.m_highlights, ∀ a ∈ A.rects, ∀ sel ∈ selections, ∀ r ∈ sel,
        r.intersects a = true → r.y = a.y ∧ r.height = a.height) →
      (∀ sel ∈ selections, ∀ r ∈ sel, r.isValid = true ∧ r.Exact k) →
      LineAligned selections →
      NonOverlapping s'.m_highlights := by
  intro selections
  induction selections with
  | nil =>
    intro s s' h hno _ _ _ _
    simp only [commitSelections, Except.ok.injEq] at h
    subst h
    exact hno
  | cons sel rest ih =>
    intro s s' h hno hw hl hv hlines
    simp only [commitSelections] at h
    cases hc : createHighlightFromCurrentSelection dangling
        { s with bufferedSelectionRects := sel } with
    | error e => simp [hc] at h
    | ok s1 =>
      simp only [hc] at h
      obtain ⟨out, hscan, hs1⟩ := createHighlight_ok dangling _ _ hc
      simp only at hscan hs1
      have hvsel : ∀ r ∈ sel, r.isValid = true :=
        fun r hr => (hv sel (List.mem_cons_self _ _) r hr).1
      have hxsel : ∀ r ∈ sel, r.Exact k :=
        fun r hr => (hv sel (List.mem_cons_self _ _) r hr).2
      obtain ⟨j1, j2, j3, j4⟩ := highlightScan_spec dangling hd k hk _ _ _ hscan hw hxsel
      have j4' := j4 hvsel (fun r hr A hA a ha => hl A hA a ha sel (List.mem_cons_self _ _) r hr)
      simp only [LineAligned, List.pairwise_cons] at hlines
      obtain ⟨hsel, hrest⟩ := hlines
      apply ih s1 s' h
      · rw [hs1]
        simp only [NonOverlapping, List.pairwise_append, List.pairwise_cons, List.Pairwise.nil,
          and_true, List.mem_singleton, forall_eq, List.not_mem_nil, false_implies,
          implies_true, true_and]
        exact ⟨j2 hno, j4'⟩
      · rw [hs1]
        intro A hA a ha
        rcases List.mem_append.1 hA with hA | hA
        · obtain ⟨A0, -, hA0⟩ := j1 A hA
          obtain ⟨a0, -, ha0, haE⟩ := hA0 a ha
          exact ⟨ha0.2.2.1, haE⟩
        · rw [List.mem_singleton] at hA
          subst hA
          have := hvsel a (j3 a ha)
          simp only [QRectF.isValid, Bool.and_eq_true, decide_eq_true_eq] at this
          exact ⟨this.1.le, hxsel a (j3 a ha)⟩
      · rw [hs1]
        intro A hA a ha sel' hsel' r hr hi
        rcases List.mem_append.1 hA with hA | hA
        · obtain ⟨A0, hA0m, hA0⟩ := j1 A hA
          obtain ⟨a0, ha0m, ha0, haE⟩ := hA0 a ha
          have := hl A0 hA0m a0 ha0m sel' (List.mem_cons_of_mem _ hsel') r hr
            (intersects_of_within_right ha0 haE (hw A0 hA0m a0 ha0m).2 hk hi)
          simp only [QRectF.y, QRectF.height] at this ⊢
          exact ⟨this.1.trans ha0.1.symm, this.2.trans ha0.2.1.symm⟩
        · rw [List.mem_singleton] at hA
          subst hA
          have := hsel sel' hsel' a (j3 a ha) r hr (by rw [QRectF.intersects_comm]; exact hi)
          exact ⟨this.1.symm, this.2.symm⟩
      · exact fun sel' hsel' => hv sel' (List.mem_cons_of_mem _ hsel')
      · exact hrest

theorem readsOldValues_staleValue : ReadsOldValues staleValue :=
  fun _ _ _ _ => Or.inl rfl

theorem readsOldValues_shiftedValue : ReadsOldValues shiftedValue := by
  intro slot before removed seen
  unfold shiftedValue
  cases h : (before.eraseIdx removed.toNat)[slot]? with
  | none => exact Or.inl rfl
  | some x =>
    refine Or.inr ?_
    simp only [Option.getD_some]
    exact List.mem_of_mem_eraseIdx (List.getElem?_mem h)

/-- C1, as amended: starting from an empty highlight set, take any finite run of
highlight commits whose selections are made of rects of positive width and
height, with corners on a grid on which the double arithmetic is exact
(`QRectF.Exact`), such that rects of different selections that intersect have
the same `y` and the same height, and in which no commit stops on an
out-of-range `removeAt` (a read through the dangling reference yielding an old
value of the list).  Then no rect of one highlight intersects a rect of a
different highlight. -/
theorem non_overlap_invariant (dangling : DanglingRead) (s s' : PageItem)
    (selections : List (List QRectF)) (k : ℕ)
    (hempty : s.m_highlights = [])
    (hvalid : ∀ sel ∈ selections, ∀ r ∈ sel, r.isValid = true)
    (hlines : LineAligned selections)
    (hk : k ≤ 1074) (hgrid : ∀ sel ∈ selections, ∀ r ∈ sel, r.Exact k)
    (hread : ReadsOldValues dangling)
    (hrun : commitSelections dangling s selections = .ok s') :
    NonOverlapping s'.m_highlights := by
  apply commitSelections_invariant dangling hread k hk selections s s' hrun
  · rw [hempty]; exact List.Pairwise.nil
  · rw [hempty]; simp
  · rw [hempty]; simp
  · exact fun sel hsel r hr => ⟨hvalid sel hsel r hr, hgrid sel hsel r hr⟩
  · exact hlines

/-- Witness of C1 as amended: three commits on two text lines. -/
theorem non_overlap_invariant_witness :
    ∃ s', commitSelections staleValue initialItem lineSelections = .ok s' ∧
      s'.m_highlights =
        [⟨⟨255, 0, 0, 125⟩, [⟨0, 0, 20, 20⟩]⟩, ⟨⟨0, 255, 0, 125⟩, [⟨80, 0, 70, 20⟩]⟩,
         ⟨⟨255, 0, 0, 125⟩, [⟨20, 0, 60, 20⟩, ⟨0, 30, 40, 20⟩]⟩] ∧
      NonOverlapping s'.m_highlights :=
  have hrun : commitSelections staleValue initialItem lineSelections =
      .ok { initialItem with
              m_highlights :=
                [⟨⟨255, 0, 0, 125⟩, [⟨0, 0, 20, 20⟩]⟩, ⟨⟨0, 255, 0, 125⟩, [⟨80, 0, 70, 20⟩]⟩,
                 ⟨⟨255, 0, 0, 125⟩, [⟨20, 0, 60, 20⟩, ⟨0, 30, 40, 20⟩]⟩],
              highlightCounter := 3 } := by decide!
  ⟨_, hrun, rfl,
    non_overlap_invariant staleValue initialItem _ lineSelections 0 rfl (by decide!)
      (by unfold LineAligned; decide!) (by decide) (by decide!)
      (fun _ _ _ _ => Or.inl rfl) hrun⟩

/-! ### `shrinkRectangle` on its own -/

/-- C18, as amended: shrinking never grows or moves a rect vertically, for rects
on a grid on which the double arithmetic is exact (`QRectF.Exact`).  For
`existingRect` of non-negative width and `newRect` intersecting it,
`shrinkRectangle(newRect, existingRect)` has the `y` and the height of
`existingRect`, a width `>= 0`, its left edge `>=` and its right edge `<=` those
of `existingRect`, and its width is the width of `existingRect` minus the width
of the intersection.  (That the other extents are non-negative is not needed;
`y` and height are those of `existingRect` for all rects:
`shrinkRectangle_vertical`.) -/
theorem shrink_stays_within (newRect existingRect : QRectF) (k : ℕ)
    (hw : 0 ≤ existingRect.width)
    (hi : newRect.intersects existingRect = true)
    (hk : k ≤ 1074) (hn : newRect.Exact k) (he : existingRect.Exact k) :
    (shrinkRectangle newRect existingRect).y = existingRect.y ∧
    (shrinkRectangle newRect existingRect).height = existingRect.height ∧
    0 ≤ (shrinkRectangle newRect existingRect).width ∧
    existingRect.left ≤ (shrinkRectangle newRect existingRect).left ∧
    (shrinkRectangle newRect existingRect).right ≤ existingRect.right ∧
    (shrinkRectangle newRect existingRect).width =
      existingRect.width - (existingRect.intersected newRect).width := by
  have hi' : existingRect.intersects newRect = true := by
    rw [QRectF.intersects_comm]; exact hi
  obtain ⟨h1, h2, h3, h4, h5⟩ := within_shrinkRectangle newRect existingRect hn he hk hw hi
  have hs := exact_shrinkRectangle newRect existingRect hn he hk hw hi
  refine ⟨h1, h2, h3, h4, ?_, ?_⟩
  · simp only [QRectF.right]
    rw [hs.right_eq hk, he.right_eq hk]
    exact h5
  · rw [QRectF.Exact.intersected_eq he hn hk hi', shrinkRectangle_exact hn he hk hi']
    simp only [QRectF.width]
    split_ifs <;> rfl

/-- Witness of C18 as amended: `newRect = (50,0,100,20)`,
`existingRect = (0,0,100,20)`. -/
theorem shrink_stays_within_witness :
    shrinkRectangle ⟨50, 0, 100, 20⟩ ⟨0, 0, 100, 20⟩ = ⟨0, 0, 50, 20⟩ ∧
    (shrinkRectangle ⟨50, 0, 100, 20⟩ ⟨0, 0, 100, 20⟩).width =
      (⟨0, 0, 100, 20⟩ : QRectF).width -
        ((⟨0, 0, 100, 20⟩ : QRectF).intersected ⟨50, 0, 100, 20⟩).width :=
  ⟨by decide!,
    (shrink_stays_within ⟨50, 0, 100, 20⟩ ⟨0, 0, 100, 20⟩ 0 (by decide!) (by decide!)
      (by decide) (by decide!) (by decide!)).2.2.2.2.2⟩

/-- Counterexample to C18 as stated.  First pair, `existingRect =
(17.492, 0, 62.1, 20)` and `newRect = (0.3, 0, 57.202, 20)` (the doubles nearest
to these numbers): widths and heights are not negative, the rects intersect,
and the right edge of the rect returned lies beyond the right edge of
`existingRect`.  Second pair, `existingRect = (0.1, 0, 0.2, 20)` and
`newRect = (0, 5, 100, 20)`: the rect returned has a negative width. -/
theorem shrink_passes_right_edge :
    ((0 : ℚ) ≤ roundDouble 62.1 ∧ (0 : ℚ) ≤ roundDouble 57.202 ∧
     (⟨roundDouble 0.3, 0, roundDouble 57.202, 20⟩ : QRectF).intersects
        ⟨roundDouble 17.492, 0, roundDouble 62.1, 20⟩ = true ∧
     (⟨roundDouble 17.492, 0, roundDouble 62.1, 20⟩ : QRectF).right <
       (shrinkRectangle ⟨roundDouble 0.3, 0, roundDouble 57.202, 20⟩
          ⟨roundDouble 17.492, 0, roundDouble 62.1, 20⟩).right) ∧
    ((0 : ℚ) ≤ roundDouble 0.2 ∧
     (⟨0, 5, 100, 20⟩ : QRectF).intersects ⟨roundDouble 0.1, 0, roundDouble 0.2, 20⟩ = true ∧
     (shrinkRectangle ⟨0, 5, 100, 20⟩ ⟨roundDouble 0.1, 0, roundDouble 0.2, 20⟩).width < 0) := by
  decide!

/-- C15, as amended: let `newRect` and `existingRect` have positive width and
height and corners on a grid on which the double arithmetic is exact
(`QRectF.Exact`), intersect, pass the same-line test (the height of their
intersection is the height of the shorter one) and contain each other in
neither direction.  If `newRect` does not lie strictly inside the horizontal
extent of `existingRect` (its left edge is not to the right of the left edge of
`existingRect`, or its right edge not to the left of the right edge), then
`shrinkRectangle(newRect, existingRect)` does not intersect `newRect`.  (The
same-line test and the two containment conditions stand as in the claim; the
proof does not need them.) -/
theorem shrink_clears_new_rect (newRect existingRect : QRectF) (k : ℕ)
    (hn : newRect.isValid = true) (he : existingRect.isValid = true)
    (hi : newRect.intersects existingRect = true)
    (_hline : onSameLine newRect existingRect = true)
    (_hne : newRect.contains existingRect = false)
    (_hen : existingRect.contains newRect = false)
    (hside : ¬ (existingRect.left < newRect.left ∧ newRect.right < existingRect.right))
    (hk : k ≤ 1074) (hnx : newRect.Exact k) (hex : existingRect.Exact k) :
    (shrinkRectangle newRect existingRect).intersects newRect = false := by
  have e1 := hex.right_eq hk
  have e2 := hnx.right_eq hk
  have hew0 : 0 ≤ existingRect.w := by
    simp only [QRectF.isValid, Bool.and_eq_true, decide_eq_true_eq] at he
    exact he.1.le
  have hsx := exact_shrinkRectangle newRect existingRect hnx hex hk hew0 hi
  have hi' : existingRect.intersects newRect = true := by
    rw [QRectF.intersects_comm]; exact hi
  have hshr0 := shrinkRectangle_exact hnx hex hk hi'
  obtain ⟨rx, ry, rw, rh⟩ := newRect
  obtain ⟨ex, ey, ew, eh⟩ := existingRect
  simp only [QRectF.isValid, Bool.and_eq_true, decide_eq_true_eq] at hn he
  obtain ⟨hrw, hrh⟩ := hn
  obtain ⟨hew, heh⟩ := he
  simp only at e1 e2
  simp only [QRectF.left, QRectF.right, e1, e2] at hside
  have hi0 := (QRectF.intersects_iff _ _).1 hi'
  simp only [QRectF.l1, QRectF.r1, QRectF.t1, QRectF.b1, not_lt.mpr hew.le, not_lt.mpr hrw.le,
    not_lt.mpr heh.le, not_lt.mpr hrh.le, if_false, e1, e2] at hi0
  obtain ⟨-, -, i3, i4, -⟩ := hi0
  have hshr : shrinkRectangle ⟨rx, ry, rw, rh⟩ ⟨ex, ey, ew, eh⟩ =
      if ex < rx then ⟨ex, ey, ew - (min (ex + ew) (rx + rw) - max ex rx), eh⟩
      else ⟨ex + (min (ex + ew) (rx + rw) - max ex rx), ey,
        ew - (min (ex + ew) (rx + rw) - max ex rx), eh⟩ := by
    rw [hshr0]
    simp only [QRectF.l1, QRectF.r1, not_lt.mpr hew.le, not_lt.mpr hrw.le, if_false, e1, e2]
  rw [hshr] at hsx
  rw [hshr, Bool.eq_false_iff, Ne, QRectF.intersects_iff]
  by_cases hlt : ex < rx
  · have h3 : ex + ew ≤ rx + rw := by
      by_contra hcon
      exact hside ⟨hlt, not_le.mp hcon⟩
    rw [if_pos hlt, max_eq_right hlt.le, min_eq_left h3] at hsx ⊢
    have e4 := hsx.right_eq hk
    simp only at e4
    have hw' : ¬ (ew - (ex + ew - rx) < 0) := by linarith
    simp only [QRectF.l1, QRectF.r1, not_lt.mpr hrw.le, hw', if_false, e2, e4]
    rintro ⟨-, -, -, h, -⟩
    linarith
  · have hge : rx ≤ ex := not_lt.mp hlt
    rw [if_neg hlt, max_eq_left hge] at hsx ⊢
    rcases le_total (ex + ew) (rx + rw) with h3 | h3
    · rw [min_eq_left h3] at hsx ⊢
      have e4 := hsx.right_eq hk
      simp only at e4
      have hw' : ¬ (ew - (ex + ew - ex) < 0) := by linarith
      simp only [QRectF.l1, QRectF.r1, hw', if_false, e4]
      rintro ⟨h, -⟩
      exact h (by ring)
    · rw [min_eq_right h3] at hsx ⊢
      have e4 := hsx.right_eq hk
      simp only at e4
      have hw' : ¬ (ew - (rx + rw - ex) < 0) := by linarith
      simp only [QRectF.l1, QRectF.r1, not_lt.mpr hrw.le, hw', if_false, e2, e4]
      rintro ⟨-, -, h, -⟩
      linarith

/-- Witness of C15 as amended: `newRect = (50,0,100,20)` overlaps the right part
of `existingRect = (0,0,100,20)`. -/
theorem shrink_clears_new_rect_witness :
    shrinkRectangle ⟨50, 0, 100, 20⟩ ⟨0, 0, 100, 20⟩ = ⟨0, 0, 50, 20⟩ ∧
    (shrinkRectangle ⟨50, 0, 100, 20⟩ ⟨0, 0, 100, 20⟩).intersects ⟨50, 0, 100, 20⟩ = false :=
  ⟨by decide!,
    shrink_clears_new_rect ⟨50, 0, 100, 20⟩ ⟨0, 0, 100, 20⟩ 0 (by decide!) (by decide!)
      (by decide!) (by decide!) (by decide!) (by decide!) (by decide!) (by decide) (by decide!)
      (by decide!)⟩

/-- Counterexample to C15 as stated: `newRect = (40,-5,20,30)` and
`existingRect = (0,0,100,20)` have positive extents, intersect, pass the
same-line test and contain each other in neither direction; the shrunken rect
`(0,0,80,20)` still intersects `newRect`. -/
theorem shrink_leaves_overlap_in_the_middle :
    (⟨40, -5, 20, 30⟩ : QRectF).isValid = true ∧ (⟨0, 0, 100, 20⟩ : QRectF).isValid = true ∧
    (⟨40, -5, 20, 30⟩ : QRectF).intersects ⟨0, 0, 100, 20⟩ = true ∧
    ((⟨40, -5, 20, 30⟩ : QRectF).intersected ⟨0, 0, 100, 20⟩).height =
      (⟨0, 0, 100, 20⟩ : QRectF).height ∧
    (⟨0, 0, 100, 20⟩ : QRectF).height ≤ (⟨40, -5, 20, 30⟩ : QRectF).height ∧
    (⟨40, -5, 20, 30⟩ : QRectF).contains ⟨0, 0, 100, 20⟩ = false ∧
    (⟨0, 0, 100, 20⟩ : QRectF).contains ⟨40, -5, 20, 30⟩ = false ∧
    shrinkRectangle ⟨40, -5, 20, 30⟩ ⟨0, 0, 100, 20⟩ = ⟨0, 0, 80, 20⟩ ∧
    (shrinkRectangle ⟨40, -5, 20, 30⟩ ⟨0, 0, 100, 20⟩).intersects ⟨40, -5, 20, 30⟩ = true := by
  decide!

/-- The double arithmetic alone leaves an overlap as well: `existingRect =
(39.006, 0, 50.48, 20)` and `newRect = (61.21, 0, 90.1, 20)` are on one line,
`newRect` reaches beyond the right edge of `existingRect`, and the shrunken rect
ends one unit in the last place to the right of the left edge of `newRect`.
Committing the two as selections leaves two highlights that intersect. -/
theorem rounding_leaves_overlap :
    (⟨roundDouble 61.21, 0, roundDouble 90.1, 20⟩ : QRectF).intersects
      ⟨roundDouble 39.006, 0, roundDouble 50.48, 20⟩ = true ∧
    onSameLine ⟨roundDouble 61.21, 0, roundDouble 90.1, 20⟩
      ⟨roundDouble 39.006, 0, roundDouble 50.48, 20⟩ = true ∧
    (⟨roundDouble 61.21, 0, roundDouble 90.1, 20⟩ : QRectF).left <
      (shrinkRectangle ⟨roundDouble 61.21, 0, roundDouble 90.1, 20⟩
        ⟨roundDouble 39.006, 0, roundDouble 50.48, 20⟩).right ∧
    (shrinkRectangle ⟨roundDouble 61.21, 0, roundDouble 90.1, 20⟩
      ⟨roundDouble 39.006, 0, roundDouble 50.48, 20⟩).intersects
        ⟨roundDouble 61.21, 0, roundDouble 90.1, 20⟩ = true ∧
    commitSelections staleValue initialItem decimalSelections =
      .ok { initialItem with
              m_highlights :=
                [⟨⟨255, 0, 0, 125⟩, [shrinkRectangle ⟨roundDouble 61.21, 0, roundDouble 90.1, 20⟩
                    ⟨roundDouble 39.006, 0, roundDouble 50.48, 20⟩]⟩,
                 ⟨⟨0, 255, 0, 125⟩, [⟨roundDouble 61.21, 0, roundDouble 90.1, 20⟩]⟩],
              highlightCounter := 2 } := by
  decide!

/-! ### The same-line test on doubles -/

/-- Counterexample to C4 as stated: `e = (0, 0.1, 100, 0.2)` and
`r = (50, 0.1, 100, 0.2)` (doubles) have the same `y` and the same positive
height, their horizontal extents overlap and neither contains the other.  The
height of their intersection as computed, `(0.1 + 0.2) - 0.1`, is not `0.2`:
the same-line test fails and the commit leaves `e` as it is, not
`(0, 0.1, 50, 0.2)`. -/
theorem rounded_height_fails_same_line_test :
    thinOverlapItem.m_highlights = [⟨⟨255, 0, 0, 125⟩, [thinLineRect 0 100]⟩] ∧
    thinOverlapItem.bufferedSelectionRects = [thinLineRect 50 100] ∧
    (thinLineRect 0 100).OfDoubles ∧ (thinLineRect 50 100).OfDoubles ∧
    (thinLineRect 0 100).y = (thinLineRect 50 100).y ∧
    (thinLineRect 0 100).height = (thinLineRect 50 100).height ∧
    0 < (thinLineRect 0 100).height ∧
    max (thinLineRect 0 100).x (thinLineRect 50 100).x <
      min (thinLineRect 0 100).right (thinLineRect 50 100).right ∧
    (thinLineRect 50 100).contains (thinLineRect 0 100) = false ∧
    (thinLineRect 0 100).contains (thinLineRect 50 100) = false ∧
    (thinLineRect 0 100).x < (thinLineRect 50 100).x ∧
    ((thinLineRect 50 100).intersected (thinLineRect 0 100)).height ≠
      (thinLineRect 0 100).height ∧
    createHighlightFromCurrentSelection staleValue thinOverlapItem =
      .ok { initialItem with
              m_highlights := [⟨⟨255, 0, 0, 125⟩, [thinLineRect 0 100]⟩,
                               ⟨⟨0, 255, 0, 125⟩, [thinLineRect 50 100]⟩],
              highlightCounter := 2 } ∧
    thinLineRect 0 100 ≠
      ⟨(thinLineRect 0 100).x, (thinLineRect 0 100).y,
        (thinLineRect 50 100).x - (thinLineRect 0 100).x, (thinLineRect 0 100).height⟩ := by
  decide!

/-- C5, as amended: different-line rejection.  The set holds one highlight with
the single rect `e`, the selection is the single rect `r` (coordinates that are
doubles), and neither rect contains the other.  If `r` intersects `e` and the
height of the shorter of the two rects (the smaller of `|r.height|`,
`|e.height|`) differs from the height of their intersection as computed, then
after the commit the set is `[E, N]` with `e` and `r` both unchanged. -/
theorem different_line_rejection (dangling : DanglingRead) (s : PageItem) (c : QColor)
    (e r : QRectF)
    (hS : s.m_highlights = [⟨c, [e]⟩]) (hN : s.bufferedSelectionRects = [r])
    (hint : r.intersects e = true)
    (hline : min |r.height| |e.height| ≠ (r.intersected e).height)
    (hre : r.contains e = false) (her : e.contains r = false)
    (hed : e.OfDoubles) (hrd : r.OfDoubles) :
    ∃ s', createHighlightFromCurrentSelection dangling s = .ok s' ∧
      s'.m_highlights = [⟨c, [e]⟩, ⟨highlightColor s.highlightCounter, [r]⟩] := by
  simp only [QRectF.height] at hline
  have hnot : onSameLine r e = false := by
    rw [Bool.eq_false_iff]
    intro hc
    simp only [onSameLine, QRectF.height, beq_iff_eq] at hc
    have hpos : 0 ≤ (r.intersected e).h := by
      obtain ⟨-, -, -, -, -, -, h7, h8⟩ := (QRectF.intersects_iff r e).1 hint
      rw [QRectF.intersected_of_intersects hint]
      apply qSub_nonneg
      have := QRectF.t1_le_b1 r hrd.2.1
      have := QRectF.t1_le_b1 e hed.2.1
      simp only [le_min_iff, max_le_iff]
      exact ⟨⟨by linarith, by linarith⟩, by linarith, by linarith⟩
    apply hline
    split_ifs at hc with hle
    · have hr : 0 ≤ r.h := by rw [← hc]; exact hpos
      rw [abs_of_nonneg hr, abs_of_nonneg (le_trans hr hle), min_eq_left hle, hc]
    · have hle' : e.h ≤ r.h := le_of_lt (not_le.mp hle)
      have he : 0 ≤ e.h := by rw [← hc]; exact hpos
      rw [abs_of_nonneg he, abs_of_nonneg (le_trans he hle'), min_eq_right hle', hc]
  have hrun := removeConflictingHighlights_single dangling c (highlightColor s.highlightCounter) e r
  rw [hre, her, hint, hnot] at hrun
  simp only [Bool.false_eq_true, if_false, Bool.and_false] at hrun
  have := createHighlight_highlights dangling s _ _ (by rw [hS, hN]; exact hrun)
  simpa using this

/-- Witness of C5 as amended: `e = (0,0,100,20)` and `r = (0,10,100,20)`
intersect in a strip of height 10. -/
theorem different_line_rejection_witness :
    ∃ s', createHighlightFromCurrentSelection staleValue stackedItem = .ok s' ∧
      s'.m_highlights =
        [⟨⟨255, 0, 0, 125⟩, [⟨0, 0, 100, 20⟩]⟩,
         ⟨highlightColor stackedItem.highlightCounter, [⟨0, 10, 100, 20⟩]⟩] :=
  different_line_rejection staleValue stackedItem ⟨255, 0, 0, 125⟩ ⟨0, 0, 100, 20⟩
    ⟨0, 10, 100, 20⟩ rfl rfl (by decide!) (by decide!) (by decide!) (by decide!) (by decide!)
    (by decide!)

/-- Counterexample to C5 as stated: `r = (0, 0.1, 100, 0.2)` intersects
`e = (10, 0.1, 50, 0.2)` (doubles), and the height of their intersection as
computed differs from the height `0.2` of the shorter rect; yet `r` contains
`e`, and after the commit `E` is gone. -/
theorem containing_rect_fails_height_test :
    thinEngulfItem.m_highlights = [⟨⟨255, 0, 0, 125⟩, [thinLineRect 10 50]⟩] ∧
    thinEngulfItem.bufferedSelectionRects = [thinLineRect 0 100] ∧
    (thinLineRect 0 100).intersects (thinLineRect 10 50) = true ∧
    min |(thinLineRect 0 100).height| |(thinLineRect 10 50).height| ≠
      ((thinLineRect 0 100).intersected (thinLineRect 10 50)).height ∧
    createHighlightFromCurrentSelection staleValue thinEngulfItem =
      .ok { initialItem with
              m_highlights := [⟨⟨0, 255, 0, 125⟩, [thinLineRect 0 100]⟩],
              highlightCounter := 2 } := by
  decide!

/-! ### Which existing highlights stay -/

/-- The highlights the outer loop keeps: each existing highlight with the rect
list the middle loop left of it, unless that list is empty; the middle loop takes
up the rects of the new highlight where it left them at the highlight before. -/
theorem highlightScan_processed (dangling : DanglingRead) :
    ∀ (highlights : List Highlight) (rects : List QRectF)
      (out : List Highlight × List QRectF),
      highlightScan dangling highlights rects = .ok out →
      ∃ processed : List (List QRectF),
        processedRects dangling highlights rects = .ok (processed, out.2) ∧
        processed.length = highlights.length ∧
        out.1 = (highlights.zip processed).filterMap
          (fun p => if p.2.isEmpty then none else some { p.1 with rects := p.2 }) := by
  intro highlights
  induction highlights with
  | nil =>
    intro rects out h
    simp only [highlightScan, Except.ok.injEq] at h
    subst h
    exact ⟨[], rfl, rfl, rfl⟩
  | cons E todo ih =>
    intro rects out h
    simp only [highlightScan] at h
    obtain ⟨a, ha, hrest⟩ := (bind_eq_ok _ _ _).1 h
    obtain ⟨b, hb, rfl⟩ := (map_eq_ok _ _ _).1 hrest
    obtain ⟨processed, hp, hlen, hk⟩ := ih _ _ hb
    have hloop := rectLoop_eq_rectScan dangling (rects.length + 1) E.rects [] rects (by omega)
    simp only [List.nil_append, List.length_nil, Nat.cast_zero] at hloop
    refine ⟨a.1 :: processed, ?_, by simp [hlen], ?_⟩
    · simp only [processedRects, hloop, ha, hp]
    · simp only [List.zip_cons_cons, List.filterMap_cons]
      by_cases hemp : a.1.isEmpty = true
      · simp only [hemp, if_true]
        exact hk
      · simp only [hemp, Bool.false_eq_true, if_false]
        rw [hk]

/-- C16: consumed highlights disappear.  When `removeConflictingHighlights`
returns, let `processed` be the rect lists that the middle loop leaves of the
existing highlights, one after the other, starting from the rects of the new
highlight and ending with the rects the new highlight has in the end
(`processedRects`).  The set left is, in the old order, each existing highlight
`E` with `E.rects` replaced by its processed list and its colour kept, for
exactly those `E` whose processed list is not empty.  No highlight of the set
left has an empty rect list. -/
theorem consumed_highlights_disappear (dangling : DanglingRead) (highlights : List Highlight)
    (highlight : Highlight) (kept : List Highlight) (highlight' : Highlight)
    (h : removeConflictingHighlights dangling highlights highlight = .ok (kept, highlight')) :
    (∀ A ∈ kept, A.rects ≠ []) ∧
    ∃ processed : List (List QRectF),
      processedRects dangling highlights highlight.rects = .ok (processed, highlight'.rects) ∧
      processed.length = highlights.length ∧
      kept = (highlights.zip processed).filterMap
        (fun p => if p.2.isEmpty then none else some { p.1 with rects := p.2 }) := by
  rw [removeConflictingHighlights_eq] at h
  obtain ⟨out, hout, heq⟩ := (map_eq_ok _ _ _).1 h
  simp only [Prod.mk.injEq] at heq
  obtain ⟨processed, hp, hlen, hk⟩ := highlightScan_processed dangling _ _ _ hout
  rw [heq.1] at hk
  have hrects : highlight'.rects = out.2 := by rw [← heq.2]
  refine ⟨?_, processed, by rw [hrects]; exact hp, hlen, hk⟩
  intro A hA
  rw [hk] at hA
  obtain ⟨p, -, hp'⟩ := List.mem_filterMap.1 hA
  split_ifs at hp' with hemp
  simp only [Option.some.injEq] at hp'
  rw [← hp']
  intro hnil
  simp only at hnil
  exact hemp (by rw [hnil]; rfl)

/-- Witness of C16: the new rect `(0,0,150,20)` consumes the first existing
highlight `(0,0,100,20)`, whose processed list is empty; the second one, on
another line, stays as it was. -/
theorem consumed_highlights_disappear_witness :
    removeConflictingHighlights staleValue engulfItem.m_highlights
        ⟨⟨255, 0, 0, 125⟩, [⟨0, 0, 150, 20⟩]⟩ =
      .ok ([⟨⟨0, 255, 0, 125⟩, [⟨0, 30, 100, 20⟩]⟩], ⟨⟨255, 0, 0, 125⟩, [⟨0, 0, 150, 20⟩]⟩) ∧
    processedRects staleValue engulfItem.m_highlights [⟨0, 0, 150, 20⟩] =
      .ok ([[], [⟨0, 30, 100, 20⟩]], [⟨0, 0, 150, 20⟩]) ∧
    (∀ A ∈ [(⟨⟨0, 255, 0, 125⟩, [⟨0, 30, 100, 20⟩]⟩ : Highlight)], A.rects ≠ []) :=
  have hrun : removeConflictingHighlights staleValue engulfItem.m_highlights
        ⟨⟨255, 0, 0, 125⟩, [⟨0, 0, 150, 20⟩]⟩ =
      .ok ([⟨⟨0, 255, 0, 125⟩, [⟨0, 30, 100, 20⟩]⟩], ⟨⟨255, 0, 0, 125⟩, [⟨0, 0, 150, 20⟩]⟩) := by
    decide!
  ⟨hrun, by decide!, (consumed_highlights_disappear staleValue _ _ _ _ hrun).1⟩

/-! ### Zoom -/

/-- C11, as amended: when `m_selectionStart` and `m_selectionEnd` are both
non-null, `updateZoom(newZoom)` replaces them by their `ZoomTransform` images
(from the old zoom to `newZoom`) and replaces the buffered rects by the oracle's
`rectsBetween` of the rescaled endpoints: the oracle is queried again.  When
one of them is the null point, the two points and the buffered rects are left
as they are. -/
theorem zoom_requeries_selection (page : Page) (s : PageItem) (newZoom : ℚ) :
    (s.m_selectionStart.isNull = false ∧ s.m_selectionEnd.isNull = false →
      (updateZoom page s newZoom).m_selectionStart =
          scalePointToCurrentZoom s.m_selectionStart s.zoom newZoom ∧
      (updateZoom page s newZoom).m_selectionEnd =
          scalePointToCurrentZoom s.m_selectionEnd s.zoom newZoom ∧
      (updateZoom page s newZoom).bufferedSelectionRects =
          page.rectsBetween (scalePointToCurrentZoom s.m_selectionStart s.zoom newZoom)
            (scalePointToCurrentZoom s.m_selectionEnd s.zoom newZoom)) ∧
    (s.m_selectionStart.isNull = true ∨ s.m_selectionEnd.isNull = true →
      (updateZoom page s newZoom).m_selectionStart = s.m_selectionStart ∧
      (updateZoom page s newZoom).m_selectionEnd = s.m_selectionEnd ∧
      (updateZoom page s newZoom).bufferedSelectionRects = s.bufferedSelectionRects) := by
  constructor
  · rintro ⟨h1, h2⟩
    simp [updateZoom, generateSelection, h1, h2]
  · rintro (h | h) <;> simp [updateZoom, h]

/-- Witness of C11 as amended: the selection from `(10,10)` to `(60,10)`, zoom
changed from 1 to 2. -/
theorem zoom_requeries_selection_witness :
    (afterDrag.m_selectionStart.isNull = false ∧ afterDrag.m_selectionEnd.isNull = false) ∧
    (updateZoom samplePage afterDrag 2).m_selectionStart = ⟨20, 20⟩ ∧
    (updateZoom samplePage afterDrag 2).m_selectionEnd = ⟨120, 20⟩ ∧
    (updateZoom samplePage afterDrag 2).bufferedSelectionRects = [⟨20, 20, 100, 20⟩] :=
  have h := (zoom_requeries_selection samplePage afterDrag 2).1 (by decide!)
  ⟨by decide!, h.1.trans (by decide!), h.2.1.trans (by decide!), h.2.2.trans (by decide!)⟩

/-- Counterexample to C11 as stated: the buffered rects `[(10,10,50,20)]` are
non-empty, the zoom goes from 1 to 2, and the buffered rects afterwards are the
oracle's answer `[(20,20,100,20)]`, not the rescaled rects `[(20,20,100,40)]`. -/
theorem zoom_does_not_rescale_buffer :
    afterDrag.bufferedSelectionRects = [⟨10, 10, 50, 20⟩] ∧ afterDrag.zoom = 1 ∧
    afterDrag.bufferedSelectionRects.map (fun rect => scaleRectToCurrentZoom rect 1 2) =
      [⟨20, 20, 100, 40⟩] ∧
    (updateZoom samplePage afterDrag 2).bufferedSelectionRects = [⟨20, 20, 100, 20⟩] := by
  decide!

theorem scaleRect_round_trip (rect : QRectF) (z1 z2 : ℚ) (h1 : z1 ≠ 0) (h2 : z2 ≠ 0) :
    scaleRectToCurrentZoom (scaleRectToCurrentZoom rect z1 z2) z2 z1 = rect := by
  obtain ⟨x, y, w, h⟩ := rect
  simp only [scaleRectToCurrentZoom, QRectF.mk.injEq]
  refine ⟨?_, ?_, ?_, ?_⟩ <;> field_simp

/-- C13: zoom round trip.  Starting at a positive zoom `z1`, `updateZoom(z2)`
with `z2` positive followed by `updateZoom(z1)` leaves the highlight set as it
was: the same highlights in the same order, each with its colour and its rects
(in exact arithmetic); the zoom is `z1` again. -/
theorem zoom_round_trip (page1 page2 : Page) (s : PageItem) (z2 : ℚ)
    (h1 : 0 < s.zoom) (h2 : 0 < z2) :
    (updateZoom page2 (updateZoom page1 s z2) s.zoom).m_highlights = s.m_highlights ∧
    (updateZoom page2 (updateZoom page1 s z2) s.zoom).zoom = s.zoom := by
  have hz : ∀ t : PageItem, ∀ pg : Page, ∀ z : ℚ,
      (updateZoom pg t z).zoom = z ∧
      (updateZoom pg t z).m_highlights = t.m_highlights.map (fun highlight =>
        { highlight with
            rects := highlight.rects.map (fun rect => scaleRectToCurrentZoom rect t.zoom z) }) := by
    intro t pg z
    simp only [updateZoom, generateSelection]
    split_ifs <;> exact ⟨rfl, rfl⟩
  refine ⟨?_, (hz _ _ _).1⟩
  rw [(hz _ _ _).2, (hz s page1 z2).1, (hz s page1 z2).2, List.map_map]
  conv_rhs => rw [← List.map_id s.m_highlights]
  apply List.map_congr_left
  intro A _
  obtain ⟨c, rects⟩ := A
  simp only [Function.comp, List.map_map, id, Highlight.mk.injEq, true_and]
  conv_rhs => rw [← List.map_id rects]
  apply List.map_congr_left
  intro r _
  exact scaleRect_round_trip r s.zoom z2 h1.ne' h2.ne'

/-! ### Copy -/

/-- C12, as amended: on the key `C` with exactly the control modifier the text
the oracle gives for `(m_selectionStart, m_selectionEnd)` is written to the
clipboard, whether the buffered rects are empty or not; nothing else changes.
Any other key or modifier combination changes nothing (no clipboard effect). -/
theorem copy_key (page : Page) (s : PageItem) (event : QKeyEvent) :
    (event.key = Key_C ∧ event.modifiers = ControlModifier →
      keyPressEvent page s event =
        { s with effects := s.effects ++
            [Effect.setClipboardText
              (page.getTextFromSelection s.m_selectionStart s.m_selectionEnd)] }) ∧
    (¬ (event.key = Key_C ∧ event.modifiers = ControlModifier) →
      keyPressEvent page s event = s) := by
  constructor
  · intro h
    simp only [keyPressEvent, if_pos h, copySelectedText]
  · intro h
    simp only [keyPressEvent, if_neg h]

/-- Witness of C12 as amended: Ctrl+C after the drag, and the key `C` alone. -/
theorem copy_key_witness :
    (keyPressEvent samplePage afterDrag ⟨Key_C, ControlModifier⟩).effects =
      [Effect.setClipboardText "text"] ∧
    keyPressEvent samplePage afterDrag ⟨Key_C, 0⟩ = afterDrag :=
  ⟨(congrArg PageItem.effects
      ((copy_key samplePage afterDrag ⟨Key_C, ControlModifier⟩).1 (by decide))).trans (by decide!),
   (copy_key samplePage afterDrag ⟨Key_C, 0⟩).2 (by decide)⟩

/-- Counterexample to C12 as stated: with no buffered rects, Ctrl+C writes the
oracle's text to the clipboard. -/
theorem copy_without_selection :
    initialItem.bufferedSelectionRects = [] ∧ initialItem.effects = [] ∧
    (keyPressEvent samplePage initialItem ⟨Key_C, ControlModifier⟩).effects =
      [Effect.setClipboardText
        (samplePage.getTextFromSelection initialItem.m_selectionStart
          initialItem.m_selectionEnd)] := by
  decide!

/-- Witness of C13: the highlight `(0,0,100,20)` at zoom 1, zoomed to 3 (where
it is `(0,0,300,60)`) and back to 1. -/
theorem zoom_round_trip_witness :
    (0 < overlapItem.zoom ∧ (0 : ℚ) < 3) ∧
    (updateZoom samplePage overlapItem 3).m_highlights =
      [⟨⟨255, 0, 0, 125⟩, [⟨0, 0, 300, 60⟩]⟩] ∧
    (updateZoom samplePage (updateZoom samplePage overlapItem 3) overlapItem.zoom).m_highlights =
      overlapItem.m_highlights ∧
    (updateZoom samplePage (updateZoom samplePage overlapItem 3) overlapItem.zoom).zoom =
      overlapItem.zoom :=
  ⟨by decide!, by decide!,
    zoom_round_trip samplePage samplePage overlapItem 3 (by decide!) (by decide!)⟩

/-! ### The loop after `removeAt(u)` -/

/-- C14, runs at failing inputs.  The existing highlight has the rects
`(0,0,100,20)` and `(0,0,200,20)`.  With the new rects `(0,40,50,20)` and
`(10,0,20,20)` the reference procedure removes the second new rect once and
keeps the first; the loops, going on after `removeAt(u)` with the value the
reference had, classify the removed rect against the second existing rect as
well and remove the first new rect too.  With the single new rect
`(10,0,20,20)` the reference procedure returns, the loops stop on
`removeAt(-1)`.  Third run, the reference yielding the element that moved to its
index: the pair of `(0,60,40,20)` and `(0,60,100,20)` is classified twice and
`(50,0,50,20)` is lost. -/
theorem loops_differ_from_reference :
    (referenceResolution [⟨⟨255, 0, 0, 125⟩, [⟨0, 0, 100, 20⟩, ⟨0, 0, 200, 20⟩]⟩]
        [⟨0, 40, 50, 20⟩, ⟨10, 0, 20, 20⟩] =
      ([⟨⟨255, 0, 0, 125⟩, [⟨0, 0, 100, 20⟩, ⟨0, 0, 200, 20⟩]⟩], [⟨0, 40, 50, 20⟩]) ∧
     removeConflictingHighlights staleValue
        [⟨⟨255, 0, 0, 125⟩, [⟨0, 0, 100, 20⟩, ⟨0, 0, 200, 20⟩]⟩]
        ⟨⟨0, 255, 0, 125⟩, [⟨0, 40, 50, 20⟩, ⟨10, 0, 20, 20⟩]⟩ =
      .ok ([⟨⟨255, 0, 0, 125⟩, [⟨0, 0, 100, 20⟩, ⟨0, 0, 200, 20⟩]⟩], ⟨⟨0, 255, 0, 125⟩, []⟩)) ∧
    (referenceResolution [⟨⟨255, 0, 0, 125⟩, [⟨0, 0, 100, 20⟩, ⟨0, 0, 200, 20⟩]⟩]
        [⟨10, 0, 20, 20⟩] =
      ([⟨⟨255, 0, 0, 125⟩, [⟨0, 0, 100, 20⟩, ⟨0, 0, 200, 20⟩]⟩], []) ∧
     removeConflictingHighlights staleValue
        [⟨⟨255, 0, 0, 125⟩, [⟨0, 0, 100, 20⟩, ⟨0, 0, 200, 20⟩]⟩]
        ⟨⟨0, 255, 0, 125⟩, [⟨10, 0, 20, 20⟩]⟩ = .error Fault.indexOutOfRange) ∧
    (referenceResolution [⟨⟨255, 0, 0, 125⟩, [⟨0, 30, 100, 20⟩, ⟨0, 60, 100, 20⟩]⟩]
        [⟨50, 0, 50, 20⟩, ⟨0, 30, 90, 20⟩, ⟨0, 60, 40, 20⟩] =
      ([⟨⟨255, 0, 0, 125⟩, [⟨0, 30, 100, 20⟩, ⟨0, 60, 100, 20⟩]⟩], [⟨50, 0, 50, 20⟩]) ∧
     removeConflictingHighlights shiftedValue
        [⟨⟨255, 0, 0, 125⟩, [⟨0, 30, 100, 20⟩, ⟨0, 60, 100, 20⟩]⟩]
        ⟨⟨0, 255, 0, 125⟩, [⟨50, 0, 50, 20⟩, ⟨0, 30, 90, 20⟩, ⟨0, 60, 40, 20⟩]⟩ =
      .ok ([⟨⟨255, 0, 0, 125⟩, [⟨0, 30, 100, 20⟩, ⟨0, 60, 100, 20⟩]⟩],
        ⟨⟨0, 255, 0, 125⟩, []⟩)) := by
  decide!

/-- C17, the run at a failing input.  The existing highlight has the rects
`(0,0,100,20)` and `(0,0,200,20)`, the new highlight the single rect
`(10,0,20,20)`.  The pass of the inner loop over the first existing rect ends
with `highlight.rects` empty and `u = -1`; the second existing rect contains
the value the reference had, so `highlight.rects.removeAt(u)` is called on the
empty list with `u = -1`, and the call of `removeConflictingHighlights` stops
there. -/
theorem removeAt_reached_with_u_negative :
    innerLoop staleValue 0 2 [⟨0, 0, 100, 20⟩] [⟨10, 0, 20, 20⟩] 0 ⟨10, 0, 20, 20⟩ 0 =
      .ok ([⟨0, 0, 100, 20⟩], [], -1) ∧
    (⟨0, 0, 200, 20⟩ : QRectF).contains ⟨10, 0, 20, 20⟩ = true ∧
    removeAt ([] : List QRectF) (-1) = .error Fault.indexOutOfRange ∧
    innerLoop staleValue 0 3 [⟨0, 0, 100, 20⟩, ⟨0, 0, 200, 20⟩] [⟨10, 0, 20, 20⟩] 0
        ⟨10, 0, 20, 20⟩ 0 = .error Fault.indexOutOfRange ∧
    removeConflictingHighlights staleValue
        [⟨⟨255, 0, 0, 125⟩, [⟨0, 0, 100, 20⟩, ⟨0, 0, 200, 20⟩]⟩]
        ⟨⟨0, 255, 0, 125⟩, [⟨10, 0, 20, 20⟩]⟩ = .error Fault.indexOutOfRange := by
  decide!

/-! ### Where the loops and the reference procedure agree -/

theorem referenceCompare_settle (r e : QRectF) (rest : List QRectF)
    (h1 : r.contains e = false) (h2 : e.contains r = false) :
    referenceCompare r (e :: rest) =
      (settle r e :: (referenceCompare r rest).1, (referenceCompare r rest).2) := by
  simp [referenceCompare, h1, h2, settle]

theorem innerScan_eq_referenceCompare (dangling : DanglingRead) (slot : ℕ) (post : List QRectF)
    (rect : QRectF) :
    ∀ (todo pre : List QRectF), (referenceCompare rect todo).2 = true →
      innerScan dangling slot post todo pre true rect =
        .ok ((referenceCompare rect todo).1, pre, true) := by
  intro todo
  induction todo with
  | nil => intro pre _; rfl
  | cons e todo ih =>
    intro pre h
    simp only [innerScan]
    by_cases h1 : rect.contains e = true
    · have hc : referenceCompare rect (e :: todo) = referenceCompare rect todo := by
        simp [referenceCompare, h1]
      rw [hc] at h ⊢
      rw [if_pos h1, ih pre h]
    · by_cases h2 : e.contains rect = true
      · simp [referenceCompare, h1, h2] at h
      · have hc := referenceCompare_settle rect e todo (by simpa using h1) (by simpa using h2)
        rw [hc] at h ⊢
        rw [if_neg h1, if_neg h2, ih pre h]
        rfl

theorem referenceRects_sublist :
    ∀ (rects existing : List QRectF), (referenceRects existing rects).2.Sublist rects := by
  intro rects
  induction rects with
  | nil => intro existing; exact List.Sublist.refl _
  | cons r rest ih =>
    intro existing
    simp only [referenceRects]
    split_ifs
    · exact (ih _).cons₂ r
    · exact (ih _).cons r

theorem referenceResolution_sublist :
    ∀ (highlights : List Highlight) (rects : List QRectF),
      (referenceResolution highlights rects).2.Sublist rects := by
  intro highlights
  induction highlights with
  | nil => intro rects; exact List.Sublist.refl _
  | cons E rest ih =>
    intro rects
    simp only [referenceResolution]
    exact (ih _).trans (referenceRects_sublist _ _)

theorem rectScan_eq_referenceRects (dangling : DanglingRead) :
    ∀ (post existing pre : List QRectF), (referenceRects existing post).2 = post →
      rectScan dangling existing pre post =
        .ok ((referenceRects existing post).1, pre ++ post) := by
  intro post
  induction post with
  | nil => intro existing pre _; simp [rectScan, referenceRects]
  | cons r rest ih =>
    intro existing pre h
    simp only [referenceRects] at h
    have hsub := referenceRects_sublist rest (referenceCompare r existing).1
    have halive : (referenceCompare r existing).2 = true := by
      by_contra hc
      rw [if_neg hc] at h
      have := hsub.length_le
      rw [h] at this
      simp at this
    rw [if_pos halive] at h
    have hrest : (referenceRects (referenceCompare r existing).1 rest).2 = rest := by
      simpa using h
    simp only [rectScan, innerScan_eq_referenceCompare dangling pre.length rest r existing pre
      halive, Except.bind, if_true]
    rw [ih _ _ hrest]
    simp [referenceRects]

theorem highlightScan_eq_referenceResolution (dangling : DanglingRead) :
    ∀ (highlights : List Highlight) (rects : List QRectF),
      (referenceResolution highlights rects).2 = rects →
      highlightScan dangling highlights rects = .ok (referenceResolution highlights rects) := by
  intro highlights
  induction highlights with
  | nil => intro rects _; rfl
  | cons E rest ih =>
    intro rects h
    simp only [referenceResolution] at h
    have h1 := referenceRects_sublist rects E.rects
    have h2 := referenceResolution_sublist rest (referenceRects E.rects rects).2
    have hfirst : (referenceRects E.rects rects).2 = rects := by
      apply h1.eq_of_length_le
      have := h2.length_le
      rw [h] at this
      exact this
    have hlater : (referenceResolution rest rects).2 = rects := by
      rw [hfirst] at h; exact h
    have hscan := rectScan_eq_referenceRects dangling rects E.rects [] hfirst
    simp only [List.nil_append] at hscan
    simp only [highlightScan, hscan, Except.bind, ih _ hlater, Except.map, referenceResolution]
    rw [hfirst]

/-- Where the loops and the reference procedure of the spec agree: whenever the
reference procedure removes no rect of the new highlight (no pair is classified
as engulfed), `removeConflictingHighlights` returns, with the highlight set of
the reference procedure and the new highlight unchanged.  The removals
`removeAt(k); --k` and `removeAt(i); --i` skip no pair and classify none
twice. -/
theorem loops_agree_without_engulfed (dangling : DanglingRead) (highlights : List Highlight)
    (highlight : Highlight)
    (h : (referenceResolution highlights highlight.rects).2 = highlight.rects) :
    removeConflictingHighlights dangling highlights highlight =
      .ok ((referenceResolution highlights highlight.rects).1, highlight) := by
  rw [removeConflictingHighlights_eq, highlightScan_eq_referenceResolution dangling _ _ h]
  simp only [Except.map, h]

end Librum
